import Mathlib

set_option maxRecDepth 10000

/-!
Verification of the literate-crypto library against its specification.

Modeling conventions used throughout this file:
* a Rust `u8` byte is a `Nat` (kept below 256 by explicit hypotheses or by
  construction), a `u64` word is a `Nat` reduced modulo `2 ^ 64` where the
  source wraps;
* `Option` models partiality coming from Rust panics: `none` means the
  source code panics (failed `unwrap`, slice-index panic, assertion);
* `Except` models Rust `Result`.
-/

namespace LiterateCrypto

/-- Error type of `Pkcs7` (`InvalidPadding` in src/cipher/block/padding/pkcs7.rs). -/
inductive PadErr where
  | invalidPadding
deriving DecidableEq

namespace Pkcs7

/-- `Pkcs7::pad` from src/cipher/block/padding/pkcs7.rs lines 20-33.
Appends `m` bytes of value `m`, where `m = n - data.len() % n` (the source's
`if m == 0 { n }` branch is kept even though `n - len % n` is never 0 for
`n > 0`).  `none` models the explicit `panic!` for block sizes `n >= 256`
and the division-by-zero panic of `data.len() % n` for `n = 0`. -/
def pad (data : List Nat) (n : Nat) : Option (List Nat) :=
  if 256 ≤ n then none
  else if n = 0 then none
  else
    let m := n - data.length % n
    let m := if m = 0 then n else m
    some (data ++ List.replicate m m)

/-- `Pkcs7::unpad` from src/cipher/block/padding/pkcs7.rs lines 35-55.
Reads the last byte `m`, rejects `m = 0` and `m > n`, checks that the final
`m` bytes all equal `m`, and truncates them.  `none` models the explicit
`panic!` for `n >= 256` and the slice-index panic of `data[data.len() - m ..]`
when `m` exceeds the data length. -/
def unpad (data : List Nat) (n : Nat) : Option (Except PadErr (List Nat)) :=
  if 256 ≤ n then none
  else
    match data.getLast? with
    | none => some (Except.error PadErr.invalidPadding)
    | some m =>
      if m = 0 ∨ n < m then some (Except.error PadErr.invalidPadding)
      else if data.length < m then none
      else if (data.drop (data.length - m)).all (fun b => b = m) then
        some (Except.ok (data.take (data.length - m)))
      else some (Except.error PadErr.invalidPadding)

theorem pad_eq (data : List Nat) (n : Nat) (h0 : 0 < n) (h1 : n < 256) :
    pad data n =
      some (data ++ List.replicate (n - data.length % n) (n - data.length % n)) := by
  have hm : n - data.length % n ≠ 0 := by
    have := Nat.mod_lt data.length h0
    omega
  simp only [pad, if_neg (by omega : ¬ 256 ≤ n), if_neg (by omega : ¬ n = 0), if_neg hm]

/-- Shared PKCS#7 round-trip fact: for `0 < n < 256`, `pad` produces
`data ++ replicate m m` with `1 ≤ m ≤ n`, and `unpad` recovers `data`. -/
theorem unpad_pad (x : List Nat) (n : Nat) (h0 : 0 < n) (h1 : n < 256) :
    unpad (x ++ List.replicate (n - x.length % n) (n - x.length % n)) n =
      some (Except.ok x) := by
  set m := n - x.length % n with hm
  have hmlb : 1 ≤ m := by
    have := Nat.mod_lt x.length h0
    omega
  have hmub : m ≤ n := by omega
  have hrep : (List.replicate m m : List Nat) ≠ [] := by
    rw [← List.length_pos]
    simpa using hmlb
  have hlast : (x ++ List.replicate m m).getLast? = some m := by
    rw [List.getLast?_append_of_ne_nil _ hrep]
    rcases Nat.exists_eq_add_of_le hmlb with ⟨k, hk⟩
    rw [show m = k + 1 by omega, List.replicate_succ']
    simp
  have hlen : (x ++ List.replicate m m).length = x.length + m := by
    simp
  simp only [unpad, if_neg (by omega : ¬ 256 ≤ n), hlast]
  rw [if_neg (by omega : ¬ (m = 0 ∨ n < m)), if_neg (by omega : ¬ (x ++ List.replicate m m).length < m)]
  have hdroplen : (x ++ List.replicate m m).length - m = x.length := by omega
  rw [hdroplen, List.drop_left, List.take_left]
  rw [if_pos]
  simp [List.all_eq_true, List.mem_replicate]

/-- Claim C5: for every byte vector `x` and block size `n` with `0 < n < 256`,
PKCS#7 `pad(x, n)` succeeds with length a nonzero multiple of `n`, and
`unpad(pad(x, n), n)` returns `Ok(x)`. -/
theorem claim_C5_pkcs7_roundtrip (x : List Nat) (n : Nat) (h0 : 0 < n) (h1 : n < 256) :
    ∃ p, pad x n = some p ∧ 0 < p.length ∧ p.length % n = 0 ∧
      unpad p n = some (Except.ok x) := by
  refine ⟨x ++ List.replicate (n - x.length % n) (n - x.length % n),
    pad_eq x n h0 h1, ?_, ?_, unpad_pad x n h0 h1⟩
  · simp
    have := Nat.mod_lt x.length h0
    omega
  · have hr : x.length % n < n := Nat.mod_lt x.length h0
    have hmle : x.length % n ≤ x.length := Nat.mod_le x.length n
    have hlen : (x ++ List.replicate (n - x.length % n) (n - x.length % n)).length
        = x.length + (n - x.length % n) := by simp
    rw [hlen, show x.length + (n - x.length % n) = (x.length - x.length % n) + n by omega,
      Nat.add_mod_right,
      show x.length - x.length % n = n * (x.length / n) by
        have := Nat.div_add_mod x.length n
        omega,
      Nat.mul_mod_right]

/-- Witness for C5 at `x = [1, 2, 3]`, `n = 4`. -/
theorem claim_C5_pkcs7_roundtrip_witness :
    ∃ p, pad [1, 2, 3] 4 = some p ∧ 0 < p.length ∧ p.length % 4 = 0 ∧
      unpad p 4 = some (Except.ok [1, 2, 3]) :=
  claim_C5_pkcs7_roundtrip [1, 2, 3] 4 (by decide) (by decide)

/-- Claim C6, counterexample: on `data = [2]`, `n = 2`, the input is not
empty, the last byte is `2` with `0 < 2 ≤ n`, so the claim as stated demands
either `Err(InvalidPadding)` or `Ok` — but the code computes
`data[data.len() - m ..] = data[1 - 2 ..]`, an out-of-range slice, and
panics (`unpad` evaluates to `none`). -/
theorem claim_C6_counterexample :
    ¬ (unpad [2] 2 = some (Except.error PadErr.invalidPadding)
        ∨ ∃ l, unpad [2] 2 = some (Except.ok l)) := by
  have h : unpad [2] 2 = none := rfl
  rintro (hc | ⟨l, hc⟩) <;> rw [h] at hc <;> exact Option.noConfusion hc

/-- Claim C6 as amended: for `0 < n < 256`, `unpad(data, n)` returns
`Err(InvalidPadding)` when the input is empty, when the last byte `m` is `0`
or greater than `n`, or when `m ≤ data.len()` but the last `m` bytes are not
all equal to `m`; it returns `Ok` with the last `m` bytes removed when they
are all equal to `m`; and when `0 < m ≤ n` but `m` exceeds the data length it
panics (models as `none`) instead of returning an error. -/
theorem claim_C6_unpad_cases (data : List Nat) (n : Nat) (h0 : 0 < n) (h1 : n < 256) :
    (data = [] → unpad data n = some (Except.error PadErr.invalidPadding))
    ∧ (∀ m, data.getLast? = some m →
        ((m = 0 ∨ n < m) → unpad data n = some (Except.error PadErr.invalidPadding))
        ∧ (0 < m → m ≤ n → data.length < m → unpad data n = none)
        ∧ (0 < m → m ≤ n → m ≤ data.length →
            ((data.drop (data.length - m)).all (fun b => b = m) →
              unpad data n = some (Except.ok (data.take (data.length - m))))
            ∧ (¬ (data.drop (data.length - m)).all (fun b => b = m) →
              unpad data n = some (Except.error PadErr.invalidPadding)))) := by
  constructor
  · intro h
    subst h
    simp [unpad, if_neg (by omega : ¬ 256 ≤ n)]
  · intro m hm
    refine ⟨?_, ?_, ?_⟩
    · intro herr
      simp only [unpad, if_neg (by omega : ¬ 256 ≤ n), hm]
      rw [if_pos herr]
    · intro hm0 hmn hlen
      simp only [unpad, if_neg (by omega : ¬ 256 ≤ n), hm]
      rw [if_neg (by omega : ¬ (m = 0 ∨ n < m)), if_pos hlen]
    · intro hm0 hmn hlen
      constructor
      · intro hall
        simp only [unpad, if_neg (by omega : ¬ 256 ≤ n), hm]
        rw [if_neg (by omega : ¬ (m = 0 ∨ n < m)), if_neg (by omega : ¬ data.length < m),
          if_pos hall]
      · intro hall
        simp only [unpad, if_neg (by omega : ¬ 256 ≤ n), hm]
        rw [if_neg (by omega : ¬ (m = 0 ∨ n < m)), if_neg (by omega : ¬ data.length < m),
          if_neg hall]

/-- Witness for the amended C6 at `data = [1, 2, 2]`, `n = 4`. -/
theorem claim_C6_unpad_cases_witness :
    (([1, 2, 2] : List Nat) = [] →
      unpad [1, 2, 2] 4 = some (Except.error PadErr.invalidPadding))
    ∧ (∀ m, ([1, 2, 2] : List Nat).getLast? = some m →
        ((m = 0 ∨ 4 < m) → unpad [1, 2, 2] 4 = some (Except.error PadErr.invalidPadding))
        ∧ (0 < m → m ≤ 4 → ([1, 2, 2] : List Nat).length < m → unpad [1, 2, 2] 4 = none)
        ∧ (0 < m → m ≤ 4 → m ≤ ([1, 2, 2] : List Nat).length →
            ((([1, 2, 2] : List Nat).drop (([1, 2, 2] : List Nat).length - m)).all
                (fun b => b = m) →
              unpad [1, 2, 2] 4 =
                some (Except.ok (([1, 2, 2] : List Nat).take (([1, 2, 2] : List Nat).length - m))))
            ∧ (¬ (([1, 2, 2] : List Nat).drop (([1, 2, 2] : List Nat).length - m)).all
                (fun b => b = m) →
              unpad [1, 2, 2] 4 = some (Except.error PadErr.invalidPadding)))) :=
  claim_C6_unpad_cases [1, 2, 2] 4 (by decide) (by decide)

end Pkcs7

/-- Rust `slice::chunks(B)` / `chunks_mut(B)`: consecutive chunks of `B`
elements, the last chunk possibly shorter.  Structural recursion on a fuel
argument (instantiated with the list length below); Rust panics for `B = 0`,
a case the library never reaches (block sizes are positive). -/
def chunksGo (B : Nat) : Nat → List Nat → List (List Nat)
  | _, [] => []
  | 0, _ => []
  | fuel + 1, l => l.take B :: chunksGo B fuel (l.drop B)

/-- `l.chunks B` with fuel `l.length` (sufficient whenever `0 < B`). -/
def chunkList (B : Nat) (l : List Nat) : List (List Nat) :=
  chunksGo B l.length l

theorem chunksGo_fuel (B : Nat) (hB : 0 < B) :
    ∀ fuel₁ fuel₂ l, l.length ≤ fuel₁ → l.length ≤ fuel₂ →
      chunksGo B fuel₁ l = chunksGo B fuel₂ l := by
  intro fuel₁
  induction fuel₁ with
  | zero =>
    intro fuel₂ l h1 h2
    have : l = [] := List.eq_nil_of_length_eq_zero (by omega)
    subst this
    cases fuel₂ <;> rfl
  | succ f ih =>
    intro fuel₂ l h1 h2
    cases l with
    | nil => cases fuel₂ <;> rfl
    | cons a l =>
      cases fuel₂ with
      | zero => simp at h2
      | succ f₂ =>
        show _ :: chunksGo B f ((a :: l).drop B) = _ :: chunksGo B f₂ ((a :: l).drop B)
        have hd : ((a :: l).drop B).length = (a :: l).length - B := by simp
        rw [ih f₂ _ (by omega) (by omega)]

theorem chunkList_nil (B : Nat) : chunkList B [] = [] := rfl

theorem chunkList_cons (B : Nat) (l : List Nat) (hB : 0 < B) (hl : l ≠ []) :
    chunkList B l = l.take B :: chunkList B (l.drop B) := by
  cases l with
  | nil => exact absurd rfl hl
  | cons a l =>
    show chunksGo B (l.length + 1) (a :: l) = _
    show (a :: l).take B :: chunksGo B l.length ((a :: l).drop B) = _
    rw [chunksGo_fuel B hB l.length ((a :: l).drop B).length ((a :: l).drop B)
      (by simp; omega) le_rfl]
    rfl

theorem chunkList_flatten (B : Nat) (hB : 0 < B) :
    ∀ l : List Nat, (chunkList B l).flatten = l := by
  suffices H : ∀ n, ∀ l : List Nat, l.length ≤ n → (chunkList B l).flatten = l by
    exact fun l => H l.length l le_rfl
  intro n
  induction n with
  | zero =>
    intro l h
    have : l = [] := List.eq_nil_of_length_eq_zero (by omega)
    subst this
    rfl
  | succ n ih =>
    intro l h
    cases l with
    | nil => rfl
    | cons a l =>
      rw [chunkList_cons B _ hB (by simp), List.flatten_cons,
        ih _ (by simp at h ⊢; omega), List.take_append_drop]

theorem chunkList_length_mem (B : Nat) (hB : 0 < B) :
    ∀ l : List Nat, ∀ c ∈ chunkList B l, c.length ≤ B ∧ c ≠ [] := by
  suffices H : ∀ n, ∀ l : List Nat, l.length ≤ n →
      ∀ c ∈ chunkList B l, c.length ≤ B ∧ c ≠ [] by
    exact fun l => H l.length l le_rfl
  intro n
  induction n with
  | zero =>
    intro l h
    have : l = [] := List.eq_nil_of_length_eq_zero (by omega)
    subst this
    simp [chunkList_nil]
  | succ n ih =>
    intro l h c hc
    cases l with
    | nil => simp [chunkList_nil] at hc
    | cons a l =>
      rw [chunkList_cons B _ hB (by simp)] at hc
      rcases List.mem_cons.mp hc with hc | hc
      · subst hc
        refine ⟨by simp, ?_⟩
        simp [List.take_eq_nil_iff]
        omega
      · exact ih _ (by simp only [List.length_drop, List.length_cons] at h ⊢; omega) c hc

/-- When `B` divides the length, every chunk is a full block. -/
theorem chunkList_full (B : Nat) (hB : 0 < B) :
    ∀ l : List Nat, B ∣ l.length → ∀ c ∈ chunkList B l, c.length = B := by
  suffices H : ∀ n, ∀ l : List Nat, l.length ≤ n → B ∣ l.length →
      ∀ c ∈ chunkList B l, c.length = B by
    exact fun l => H l.length l le_rfl
  intro n
  induction n with
  | zero =>
    intro l h _
    have : l = [] := List.eq_nil_of_length_eq_zero (by omega)
    subst this
    simp [chunkList_nil]
  | succ n ih =>
    intro l h hdvd c hc
    cases l with
    | nil => simp [chunkList_nil] at hc
    | cons a l =>
      rw [chunkList_cons B _ hB (by simp)] at hc
      have hlen : B ≤ (a :: l).length := by
        rcases hdvd with ⟨k, hk⟩
        rcases Nat.eq_zero_or_pos k with h0 | h0
        · simp [h0] at hk
        · calc B ≤ B * k := Nat.le_mul_of_pos_right B h0
            _ = (a :: l).length := hk.symm
      rcases List.mem_cons.mp hc with hc | hc
      · subst hc
        simp only [List.length_take]
        omega
      · refine ih _ ?_ ?_ c hc
        · simp only [List.length_drop, List.length_cons] at h ⊢
          omega
        · simp only [List.length_drop]
          rcases hdvd with ⟨k, hk⟩
          refine ⟨k - 1, ?_⟩
          rw [hk]
          rcases k with _ | k
          · simp
          · rw [Nat.mul_succ, Nat.succ_sub_one]
            omega

/-- When `B` does not divide the length, some chunk (the final one) is short. -/
theorem chunkList_short (B : Nat) (hB : 0 < B) :
    ∀ l : List Nat, ¬ B ∣ l.length → ∃ c ∈ chunkList B l, c.length ≠ B := by
  suffices H : ∀ n, ∀ l : List Nat, l.length ≤ n → ¬ B ∣ l.length →
      ∃ c ∈ chunkList B l, c.length ≠ B by
    exact fun l => H l.length l le_rfl
  intro n
  induction n with
  | zero =>
    intro l h hdvd
    have : l = [] := List.eq_nil_of_length_eq_zero (by omega)
    subst this
    exact absurd (dvd_zero B) (by simpa using hdvd)
  | succ n ih =>
    intro l h hdvd
    cases l with
    | nil => exact absurd (dvd_zero B) (by simpa using hdvd)
    | cons a l =>
      rw [chunkList_cons B _ hB (by simp)]
      rcases lt_or_ge (a :: l).length B with hlt | hge
      · refine ⟨(a :: l).take B, by simp, ?_⟩
        simp only [List.length_take]
        omega
      · have hdvd2 : ¬ B ∣ ((a :: l).drop B).length := by
          simp only [List.length_drop]
          rintro ⟨k, hk⟩
          refine hdvd ⟨k + 1, ?_⟩
          rw [Nat.mul_succ]
          omega
        rcases ih ((a :: l).drop B)
          (by simp only [List.length_drop, List.length_cons] at h ⊢; omega) hdvd2
          with ⟨c, hc, hne⟩
        exact ⟨c, List.mem_cons_of_mem _ hc, hne⟩

/-- Error type of `OneTimePad` (`KeyTooShort` in src/cipher/onetimepad.rs). -/
inductive OtpErr where
  | keyTooShort
deriving DecidableEq

namespace Otp

/-- The shared `cipher` routine of `OneTimePad` (src/cipher/onetimepad.rs
lines 66-71): XOR each data byte with the next key byte; `KeyTooShort` when
the key iterator runs out first.  Both `encrypt` and `decrypt` call it. -/
def cipher : List Nat → List Nat → Except OtpErr (List Nat)
  | [], _ => Except.ok []
  | _ :: _, [] => Except.error OtpErr.keyTooShort
  | x :: xs, k :: ks =>
    match cipher xs ks with
    | Except.ok r => Except.ok ((x ^^^ k) :: r)
    | Except.error e => Except.error e

theorem cipher_eq_zipWith : ∀ data key : List Nat, data.length ≤ key.length →
    cipher data key = Except.ok (List.zipWith (fun a b => a ^^^ b) data key) := by
  intro data
  induction data with
  | nil => intro key h; rfl
  | cons x xs ih =>
    intro key h
    cases key with
    | nil => simp at h
    | cons k ks =>
      show (match cipher xs ks with
        | Except.ok r => Except.ok ((x ^^^ k) :: r)
        | Except.error e => Except.error e) = _
      rw [ih ks (by simpa using h)]
      rfl

end Otp

namespace Ctr

/-- `u64::to_le_bytes` of a (wrapped) counter value. -/
def u64LeBytes (x : Nat) : List Nat :=
  (List.range 8).map fun i => x / 2 ^ (8 * i) % 256

/-- The counter block built by `keystream` (src/cipher/block/modes/ctr.rs
lines 119-127): a `Default` (all-zero) block of `B` bytes whose first
`min B 8` bytes are overwritten with the little-endian counter bytes. -/
def ctrBlock (B : Nat) (ctr : Nat) : List Nat :=
  (List.range B).map fun i => if i < 8 then ctr / 2 ^ (8 * i) % 256 else 0

theorem ctrBlock_length (B ctr : Nat) : (ctrBlock B ctr).length = B := by
  simp [ctrBlock]

/-- The first `n` bytes of the infinite keystream of `keystream`
(src/cipher/block/modes/ctr.rs lines 113-129): encrypt the counter blocks
for counters `nonce, nonce+1, …` (wrapping modulo `2 ^ 64`) and flatten.
The Rust iterator is lazy and infinite; materializing `n` blocks covers at
least `n` bytes whenever `enc` produces nonempty blocks. -/
def keystreamTake (B : Nat) (enc : List Nat → List Nat → List Nat)
    (key : List Nat) (nonce : Nat) (n : Nat) : List Nat :=
  ((((List.range n).map fun j =>
    enc (ctrBlock B ((nonce + j) % 2 ^ 64)) key)).flatten).take n

/-- `Ctr::encrypt` (src/cipher/block/modes/ctr.rs lines 82-91): one-time pad
of the data with the keystream.  `none` models the
`expect("infinite keystream")` panic, never hit when keystream blocks are
nonempty. -/
def encrypt (B : Nat) (enc : List Nat → List Nat → List Nat) (nonce : Nat)
    (data key : List Nat) : Option (List Nat) :=
  match Otp.cipher data (keystreamTake B enc key nonce data.length) with
  | Except.ok r => some r
  | Except.error _ => none

/-- `Ctr::decrypt` (src/cipher/block/modes/ctr.rs lines 102-110): identical
to `encrypt` — the one-time pad with the same keystream. -/
def decrypt (B : Nat) (enc : List Nat → List Nat → List Nat) (nonce : Nat)
    (data key : List Nat) : Option (List Nat) :=
  match Otp.cipher data (keystreamTake B enc key nonce data.length) with
  | Except.ok r => some r
  | Except.error _ => none

/-- Keystream byte `j` as described by the specification: block-encrypt
`counter.to_le_bytes() ∥ 0…0`, with the counter starting at the nonce and
incremented with wrap-around; byte `j` falls in block `j / B` at offset
`j % B`. -/
def keystreamSpecByte (B : Nat) (enc : List Nat → List Nat → List Nat)
    (key : List Nat) (nonce : Nat) (j : Nat) : Nat :=
  (enc (u64LeBytes ((nonce + j / B) % 2 ^ 64) ++ List.replicate (B - 8) 0) key).getD (j % B) 0

theorem ctrBlock_eq (B : Nat) (hB : 8 ≤ B) (ctr : Nat) :
    ctrBlock B ctr = u64LeBytes ctr ++ List.replicate (B - 8) 0 := by
  apply List.ext_getElem
  · simp [ctrBlock, u64LeBytes]
    omega
  · intro i h1 h2
    simp only [ctrBlock, List.getElem_map, List.getElem_range]
    by_cases hi : i < 8
    · rw [if_pos hi, List.getElem_append_left (by simp [u64LeBytes]; omega)]
      simp [u64LeBytes]
    · rw [if_neg hi, List.getElem_append_right (by simp [u64LeBytes]; omega)]
      simp

theorem getD_join_const (B : Nat) :
    ∀ L : List (List Nat), (∀ l ∈ L, l.length = B) → ∀ j, j < L.length * B →
      L.flatten.getD j 0 = (L.getD (j / B) []).getD (j % B) 0 := by
  intro L
  induction L with
  | nil => intro _ j hj; simp at hj
  | cons a L ih =>
    intro hlen j hj
    have ha : a.length = B := hlen a (by simp)
    have hB : 0 < B := by
      rcases Nat.eq_zero_or_pos B with h | h
      · subst h; simp at hj
      · exact h
    rcases lt_or_ge j B with hlt | hge
    · rw [List.flatten_cons, List.getD_append _ _ _ _ (by omega), Nat.div_eq_of_lt hlt,
        Nat.mod_eq_of_lt hlt]
      rfl
    · rw [List.flatten_cons, List.getD_append_right _ _ _ _ (by omega), ha]
      have h1 : j / B = (j - B) / B + 1 := by
        rcases Nat.exists_eq_add_of_le hge with ⟨k, hk⟩
        subst hk
        rw [Nat.add_comm B k, Nat.add_div_right _ hB, Nat.add_sub_cancel]
      have h2 : j % B = (j - B) % B := by
        rcases Nat.exists_eq_add_of_le hge with ⟨k, hk⟩
        subst hk
        rw [Nat.add_comm B k, Nat.add_mod_right, Nat.add_sub_cancel]
      rw [h1, h2]
      have := ih (fun l hl => hlen l (by simp [hl])) (j - B)
        (by simp only [List.length_cons] at hj; rw [Nat.succ_mul] at hj; omega)
      rw [this]
      rfl

theorem zipWith_eq_map_range (f : Nat → Nat → Nat) :
    ∀ a b : List Nat, a.length ≤ b.length →
      List.zipWith f a b = (List.range a.length).map fun j => f (a.getD j 0) (b.getD j 0) := by
  intro a
  induction a with
  | nil => intro b h; rfl
  | cons x xs ih =>
    intro b h
    cases b with
    | nil => simp at h
    | cons k ks =>
      simp only [List.zipWith_cons_cons, List.length_cons, List.range_succ_eq_map,
        List.map_cons, List.map_map]
      congr 1
      rw [ih ks (by simpa using h)]
      apply List.map_congr_left
      intro i _
      rfl

/-- Claim C7: CTR encryption XORs the input with the keystream obtained by
block-encrypting `counter.to_le_bytes()` followed by zero bytes (counter
starting at the nonce, wrapping modulo `2 ^ 64`), the keystream being
truncated to the input length; and `decrypt` computes exactly the same
function as `encrypt`. -/
theorem claim_C7_ctr_keystream (B : Nat) (enc : List Nat → List Nat → List Nat)
    (key : List Nat) (nonce : Nat) (data : List Nat) (hB : 8 ≤ B)
    (henc : ∀ b k, b.length = B → (enc b k).length = B) :
    encrypt B enc nonce data key =
      some ((List.range data.length).map fun j =>
        data.getD j 0 ^^^ keystreamSpecByte B enc key nonce j)
    ∧ decrypt B enc nonce data key = encrypt B enc nonce data key := by
  have hB0 : 0 < B := by omega
  set n := data.length with hn
  have hjoinlen : (((List.range n).map fun j =>
      enc (ctrBlock B ((nonce + j) % 2 ^ 64)) key)).flatten.length = n * B := by
    rw [List.length_flatten]
    rw [List.map_map]
    have : ∀ j ∈ List.range n,
        ((fun l => List.length l) ∘ fun j => enc (ctrBlock B ((nonce + j) % 2 ^ 64)) key) j
          = B := by
      intro j _
      exact henc _ _ (ctrBlock_length B _)
    rw [List.map_congr_left this, List.map_const', List.sum_replicate, List.length_range,
      smul_eq_mul]
  have hkslen : (keystreamTake B enc key nonce n).length = n := by
    unfold keystreamTake
    rw [List.length_take, hjoinlen]
    exact Nat.min_eq_left (Nat.le_mul_of_pos_right n hB0)
  have hks : ∀ j < n, (keystreamTake B enc key nonce n).getD j 0 =
      keystreamSpecByte B enc key nonce j := by
    intro j hj
    unfold keystreamTake
    rw [List.getD_eq_getElem?_getD, List.getElem?_take_of_lt hj, ← List.getD_eq_getElem?_getD]
    rw [getD_join_const B _ (by
        intro l hl
        rcases List.mem_map.mp hl with ⟨j', _, hj'⟩
        rw [← hj']
        exact henc _ _ (ctrBlock_length B _))
      j (by
        rw [List.length_map, List.length_range]
        calc j < n := hj
          _ ≤ n * B := Nat.le_mul_of_pos_right n hB0)]
    have hdiv : j / B < n := lt_of_le_of_lt (Nat.div_le_self j B) hj
    have hmap : (List.map (fun j2 => enc (ctrBlock B ((nonce + j2) % 2 ^ 64)) key)
        (List.range n)).getD (j / B) [] = enc (ctrBlock B ((nonce + j / B) % 2 ^ 64)) key := by
      rw [List.getD_eq_getElem?_getD, List.getElem?_map, List.getElem?_range hdiv]
      rfl
    rw [hmap]
    unfold keystreamSpecByte
    rw [ctrBlock_eq B hB]
  have hcipher := Otp.cipher_eq_zipWith data (keystreamTake B enc key nonce n)
    (by rw [hkslen])
  constructor
  · unfold encrypt
    rw [← hn, hcipher]
    show some _ = some _
    congr 1
    rw [zipWith_eq_map_range _ _ _ (by rw [hkslen]), ← hn]
    apply List.map_congr_left
    intro j hj
    rw [hks j (List.mem_range.mp hj)]
  · unfold encrypt decrypt
    rfl

/-- Witness for C7 with the identity "block cipher" on 16-byte blocks. -/
theorem claim_C7_ctr_keystream_witness :
    encrypt 16 (fun b _ => b.take 16 ++ List.replicate (16 - b.length) 0) 5 [1, 2, 3] [9] =
      some ((List.range ([1, 2, 3] : List Nat).length).map fun j =>
        ([1, 2, 3] : List Nat).getD j 0 ^^^
          keystreamSpecByte 16 (fun b _ => b.take 16 ++ List.replicate (16 - b.length) 0) [9] 5 j)
    ∧ decrypt 16 (fun b _ => b.take 16 ++ List.replicate (16 - b.length) 0) 5 [1, 2, 3] [9] =
      encrypt 16 (fun b _ => b.take 16 ++ List.replicate (16 - b.length) 0) 5 [1, 2, 3] [9] :=
  claim_C7_ctr_keystream 16 _ [9] 5 [1, 2, 3] (by omega)
    (fun b k _ => by
      simp only [List.length_append, List.length_take, List.length_replicate]
      omega)

end Ctr

namespace Fortuna

/-- The sequence of Fortuna CTR keys (src/random/fortuna.rs lines 82-92):
`keys 0` is the `Default` key — the all-zero byte array for the AES key
types used by `Fortuna` — and each reseed sets the new key to the hash of
the old key followed by the next `SEED_SIZE = 32`-byte entropy request
(`entropy j` is the `j`-th buffer filled by `Entropy::get`). -/
def keys (hash : List Nat → List Nat) (entropy : Nat → List Nat) (keyLen : Nat) :
    Nat → List Nat
  | 0 => List.replicate keyLen 0
  | i + 1 => hash (keys hash entropy keyLen i ++ entropy i)

/-- One iteration of the `repeat_with` closure (src/random/fortuna.rs lines
83-96): generate `RESEED_SIZE = 2048` pseudorandom bytes by CTR-encrypting
2048 zero bytes under the freshly reseeded key.  The `Ctr` instance is built
by `Fortuna::new` with nonce 0 and is not mutated, so every chunk restarts
the counter at 0. -/
def chunk (B : Nat) (enc : List Nat → List Nat → List Nat)
    (hash : List Nat → List Nat) (entropy : Nat → List Nat) (keyLen : Nat)
    (i : Nat) : Option (List Nat) :=
  Ctr.encrypt B enc 0 (List.replicate 2048 0) (keys hash entropy keyLen (i + 1))

/-- The first `n` chunks of the infinite Fortuna iterator, in order. -/
def streamChunks (B : Nat) (enc : List Nat → List Nat → List Nat)
    (hash : List Nat → List Nat) (entropy : Nat → List Nat) (keyLen : Nat) :
    Nat → Option (List (List Nat))
  | 0 => some []
  | n + 1 =>
    match streamChunks B enc hash entropy keyLen n,
        chunk B enc hash entropy keyLen n with
    | some cs, some c => some (cs ++ [c])
    | _, _ => none

/-- The first `n · 2048` bytes of the Fortuna output iterator (the
`flatten`ed chunks). -/
def stream (B : Nat) (enc : List Nat → List Nat → List Nat)
    (hash : List Nat → List Nat) (entropy : Nat → List Nat) (keyLen : Nat)
    (n : Nat) : Option (List Nat) :=
  (streamChunks B enc hash entropy keyLen n).map List.flatten

/-- `Ctr::encrypt` succeeds and preserves the length whenever the block
cipher produces full blocks. -/
theorem ctr_encrypt_ok (B : Nat) (enc : List Nat → List Nat → List Nat)
    (nonce : Nat) (data key : List Nat) (hB : 0 < B)
    (henc : ∀ b k, b.length = B → (enc b k).length = B) :
    ∃ r, Ctr.encrypt B enc nonce data key = some r ∧ r.length = data.length := by
  have hjoinlen : (((List.range data.length).map fun j =>
      enc (Ctr.ctrBlock B ((nonce + j) % 2 ^ 64)) key)).flatten.length
        = data.length * B := by
    rw [List.length_flatten, List.map_map]
    have : ∀ j ∈ List.range data.length,
        ((fun l => List.length l) ∘ fun j =>
          enc (Ctr.ctrBlock B ((nonce + j) % 2 ^ 64)) key) j = B :=
      fun j _ => henc _ _ (Ctr.ctrBlock_length B _)
    rw [List.map_congr_left this, List.map_const', List.sum_replicate, List.length_range,
      smul_eq_mul]
  have hkslen : (Ctr.keystreamTake B enc key nonce data.length).length = data.length := by
    unfold Ctr.keystreamTake
    rw [List.length_take, hjoinlen]
    exact Nat.min_eq_left (Nat.le_mul_of_pos_right _ hB)
  refine ⟨List.zipWith (fun a b => a ^^^ b) data
      (Ctr.keystreamTake B enc key nonce data.length), ?_, ?_⟩
  · unfold Ctr.encrypt
    rw [Otp.cipher_eq_zipWith _ _ (by rw [hkslen])]
  · rw [List.length_zipWith, hkslen, Nat.min_self]

theorem flatten_drop_take (L : Nat) :
    ∀ cs : List (List Nat), (∀ c ∈ cs, c.length = L) → ∀ i, i < cs.length →
      ((cs.flatten.drop (L * i)).take L) = cs.getD i [] := by
  intro cs
  induction cs with
  | nil => intro _ i hi; simp at hi
  | cons c cs ih =>
    intro hlen i hi
    have hc : c.length = L := hlen c (by simp)
    cases i with
    | zero =>
      simp only [Nat.mul_zero, List.drop_zero, List.flatten_cons]
      rw [← hc, List.take_left]
      rfl
    | succ i =>
      have : L * (i + 1) = c.length + L * i := by rw [hc]; ring
      rw [List.flatten_cons, this, ← List.drop_drop]
      rw [List.drop_left]
      exact ih (fun c' hc' => hlen c' (by simp [hc'])) i (by simpa using hi)

theorem streamChunks_ok (B keyLen : Nat) (enc : List Nat → List Nat → List Nat)
    (hash : List Nat → List Nat) (entropy : Nat → List Nat) (hB : 0 < B)
    (henc : ∀ b k, b.length = B → (enc b k).length = B) :
    ∀ n, ∃ cs, streamChunks B enc hash entropy keyLen n = some cs
      ∧ cs.length = n
      ∧ (∀ c ∈ cs, c.length = 2048)
      ∧ ∀ i, i < n → some (cs.getD i []) = chunk B enc hash entropy keyLen i := by
  intro n
  induction n with
  | zero => exact ⟨[], rfl, rfl, by simp, by simp⟩
  | succ n ih =>
    rcases ih with ⟨cs, hcs, hlen, hall, hget⟩
    rcases ctr_encrypt_ok B enc 0 (List.replicate 2048 0)
        (keys hash entropy keyLen (n + 1)) hB henc with ⟨c, hc, hclen⟩
    refine ⟨cs ++ [c], ?_, by simp [hlen], ?_, ?_⟩
    · show (match streamChunks B enc hash entropy keyLen n,
          chunk B enc hash entropy keyLen n with
        | some cs, some c => some (cs ++ [c])
        | _, _ => none) = _
      rw [hcs]
      unfold chunk
      rw [hc]
    · intro c' hc'
      rcases List.mem_append.mp hc' with h | h
      · exact hall c' h
      · rw [List.mem_singleton.mp h, hclen, List.length_replicate]
    · intro i hi
      rcases lt_or_ge i n with h | h
      · rw [List.getD_append _ _ _ _ (by omega), hget i h]
      · have : i = n := by omega
        subst this
        rw [List.getD_append_right _ _ _ _ (by omega), hlen]
        simp only [Nat.sub_self]
        unfold chunk
        rw [hc]
        rfl

/-- Claim C9: for every entropy source and chunk index `i`, bytes
`2048·i … 2048·(i+1)−1` of the Fortuna output iterator are exactly the
CTR-mode encryption — with the counter restarted at nonce 0 — of 2048 zero
bytes under key `keys (i+1)`, where `keys 0` is all zeros and
`keys (i+1) = H(keys i ∥ seed)` with `seed` the next 32-byte entropy
request. -/
theorem claim_C9_fortuna_chunks (B keyLen : Nat) (enc : List Nat → List Nat → List Nat)
    (hash : List Nat → List Nat) (entropy : Nat → List Nat) (i : Nat)
    (hB : 8 ≤ B) (henc : ∀ b k, b.length = B → (enc b k).length = B)
    (_hseed : ∀ j, (entropy j).length = 32) :
    ∃ c, Ctr.encrypt B enc 0 (List.replicate 2048 0) (keys hash entropy keyLen (i + 1))
        = some c
      ∧ c.length = 2048
      ∧ ∀ n, i < n → ∃ bytes, stream B enc hash entropy keyLen n = some bytes ∧
          (bytes.drop (2048 * i)).take 2048 = c := by
  have hB0 : 0 < B := by omega
  rcases ctr_encrypt_ok B enc 0 (List.replicate 2048 0)
      (keys hash entropy keyLen (i + 1)) hB0 henc with ⟨c, hc, hclen⟩
  refine ⟨c, hc, by rw [hclen, List.length_replicate], ?_⟩
  intro n hn
  rcases streamChunks_ok B keyLen enc hash entropy hB0 henc n with ⟨cs, hcs, hlen, hall, hget⟩
  refine ⟨cs.flatten, by rw [stream, hcs]; rfl, ?_⟩
  rw [flatten_drop_take 2048 cs hall i (by omega)]
  have := hget i (by omega)
  unfold chunk at this
  rw [hc] at this
  exact Option.some_inj.mp this

/-- Witness for C9 with a simple length-preserving block function. -/
theorem claim_C9_fortuna_chunks_witness :
    ∃ c, Ctr.encrypt 16 (fun b _ => b.take 16 ++ List.replicate (16 - b.length) 0) 0
        (List.replicate 2048 0)
        (keys (fun _ => List.replicate 32 1) (fun _ => List.replicate 32 0) 32 (0 + 1))
        = some c
      ∧ c.length = 2048
      ∧ ∀ n, 0 < n → ∃ bytes,
          stream 16 (fun b _ => b.take 16 ++ List.replicate (16 - b.length) 0)
            (fun _ => List.replicate 32 1) (fun _ => List.replicate 32 0) 32 n = some bytes ∧
          (bytes.drop (2048 * 0)).take 2048 = c :=
  claim_C9_fortuna_chunks 16 32 _ _ _ 0 (by omega)
    (fun b k _ => by
      simp only [List.length_append, List.length_take, List.length_replicate]
      omega)
    (fun j => by simp)

end Fortuna

namespace Ecb

/-- The block loop shared by `Ecb::encrypt` and `Ecb::decrypt`
(src/cipher/block/modes/ecb.rs lines 75-78 and 98-101): apply the block
cipher to each chunk.  `none` models the `chunk.try_into().unwrap()` panic,
which fires exactly when a chunk is shorter than the block size. -/
def blocks (B : Nat) (cip : List Nat → List Nat → List Nat) (key : List Nat) :
    List (List Nat) → Option (List (List Nat))
  | [] => some []
  | c :: cs =>
    if c.length = B then (blocks B cip key cs).map (cip c key :: ·) else none

/-- `Ecb::encrypt` (src/cipher/block/modes/ecb.rs lines 67-80), specialized
to the PKCS#7 padding used throughout the library. -/
def encrypt (B : Nat) (enc : List Nat → List Nat → List Nat)
    (data key : List Nat) : Option (List Nat) :=
  (Pkcs7.pad data B).bind fun padded =>
    (blocks B enc key (chunkList B padded)).map List.flatten

/-- `Ecb::decrypt` (src/cipher/block/modes/ecb.rs lines 91-103): decrypt
each chunk in place, then unpad. -/
def decrypt (B : Nat) (dec : List Nat → List Nat → List Nat)
    (data key : List Nat) : Option (Except PadErr (List Nat)) :=
  (blocks B dec key (chunkList B data)).bind fun bs => Pkcs7.unpad bs.flatten B

theorem blocks_ok (B : Nat) (cip : List Nat → List Nat → List Nat) (key : List Nat)
    (hcip : ∀ c k, c.length = B → (cip c k).length = B) :
    ∀ cs : List (List Nat), (∀ c ∈ cs, c.length = B) →
      ∃ bs, blocks B cip key cs = some bs ∧ bs.length = cs.length ∧
        ∀ b ∈ bs, b.length = B := by
  intro cs
  induction cs with
  | nil => exact fun _ => ⟨[], rfl, rfl, by simp⟩
  | cons c cs ih =>
    intro hall
    rcases ih (fun c' h => hall c' (by simp [h])) with ⟨bs, hbs, hlen, hblen⟩
    refine ⟨cip c key :: bs, ?_, by simp [hlen], ?_⟩
    · show (if c.length = B then (blocks B cip key cs).map (cip c key :: ·) else none) = _
      rw [if_pos (hall c (by simp)), hbs]
      rfl
    · intro b hb
      rcases List.mem_cons.mp hb with h | h
      · rw [h]; exact hcip c key (hall c (by simp))
      · exact hblen b h

theorem blocks_none (B : Nat) (cip : List Nat → List Nat → List Nat) (key : List Nat) :
    ∀ cs : List (List Nat), (∃ c ∈ cs, c.length ≠ B) →
      blocks B cip key cs = none := by
  intro cs
  induction cs with
  | nil => rintro ⟨c, hc, _⟩; simp at hc
  | cons c cs ih =>
    rintro ⟨c', hc', hne⟩
    show (if c.length = B then (blocks B cip key cs).map (cip c key :: ·) else none) = _
    rcases List.mem_cons.mp hc' with h | h
    · rw [if_neg (h ▸ hne)]
    · by_cases hc : c.length = B
      · rw [if_pos hc, ih ⟨c', h, hne⟩]
        rfl
      · rw [if_neg hc]

end Ecb

namespace Cbc

/-- The decryption loop of `Cbc::decrypt` (src/cipher/block/modes/cbc.rs
lines 138-149): each chunk is converted to a block (`none` models the
`try_into().unwrap()` panic on a short chunk), block-decrypted, XORed with
the previous ciphertext block (initially the IV), and the chunk becomes the
next `prev`. -/
def decGo (B : Nat) (dec : List Nat → List Nat → List Nat) (key : List Nat) :
    List Nat → List (List Nat) → Option (List (List Nat))
  | _, [] => some []
  | prev, c :: cs =>
    if c.length = B then
      (decGo B dec key c cs).map
        (List.zipWith (fun a b => a ^^^ b) (dec c key) prev :: ·)
    else none

/-- The encryption loop of `Cbc::encrypt` (src/cipher/block/modes/cbc.rs
lines 103-113): each chunk is XORed with the previous ciphertext block
(initially the IV), block-encrypted, and the ciphertext becomes the next
`prev`. -/
def encGo (B : Nat) (enc : List Nat → List Nat → List Nat) (key : List Nat) :
    List Nat → List (List Nat) → Option (List (List Nat))
  | _, [] => some []
  | prev, c :: cs =>
    if c.length = B then
      (encGo B enc key (enc (List.zipWith (fun a b => a ^^^ b) c prev) key) cs).map
        (enc (List.zipWith (fun a b => a ^^^ b) c prev) key :: ·)
    else none

/-- `Cbc::encrypt` (src/cipher/block/modes/cbc.rs lines 94-115), specialized
to the PKCS#7 padding used throughout the library. -/
def encrypt (B : Nat) (enc : List Nat → List Nat → List Nat) (iv : List Nat)
    (data key : List Nat) : Option (List Nat) :=
  (Pkcs7.pad data B).bind fun padded =>
    (encGo B enc key iv (chunkList B padded)).map List.flatten

/-- `Cbc::decrypt` (src/cipher/block/modes/cbc.rs lines 130-151). -/
def decrypt (B : Nat) (dec : List Nat → List Nat → List Nat) (iv : List Nat)
    (data key : List Nat) : Option (Except PadErr (List Nat)) :=
  (decGo B dec key iv (chunkList B data)).bind fun bs => Pkcs7.unpad bs.flatten B

theorem decGo_ok (B : Nat) (dec : List Nat → List Nat → List Nat) (key : List Nat)
    (hdec : ∀ c k, c.length = B → (dec c k).length = B) :
    ∀ cs : List (List Nat), (∀ c ∈ cs, c.length = B) → ∀ prev : List Nat, prev.length = B →
      ∃ bs, decGo B dec key prev cs = some bs ∧ bs.length = cs.length ∧
        ∀ b ∈ bs, b.length = B := by
  intro cs
  induction cs with
  | nil => exact fun _ _ _ => ⟨[], rfl, rfl, by simp⟩
  | cons c cs ih =>
    intro hall prev hprev
    have hc : c.length = B := hall c (by simp)
    rcases ih (fun c' h => hall c' (by simp [h])) c hc with ⟨bs, hbs, hlen, hblen⟩
    refine ⟨List.zipWith (fun a b => a ^^^ b) (dec c key) prev :: bs, ?_, by simp [hlen], ?_⟩
    · show (if c.length = B then (decGo B dec key c cs).map _ else none) = _
      rw [if_pos hc, hbs]
      rfl
    · intro b hb
      rcases List.mem_cons.mp hb with h | h
      · rw [h, List.length_zipWith, hdec c key hc, hprev, Nat.min_self]
      · exact hblen b h

theorem decGo_none (B : Nat) (dec : List Nat → List Nat → List Nat) (key : List Nat) :
    ∀ cs : List (List Nat), (∃ c ∈ cs, c.length ≠ B) → ∀ prev,
      decGo B dec key prev cs = none := by
  intro cs
  induction cs with
  | nil => rintro ⟨c, hc, _⟩; simp at hc
  | cons c cs ih =>
    rintro ⟨c', hc', hne⟩ prev
    show (if c.length = B then (decGo B dec key c cs).map _ else none) = _
    rcases List.mem_cons.mp hc' with h | h
    · rw [if_neg (h ▸ hne)]
    · by_cases hc : c.length = B
      · rw [if_pos hc, ih ⟨c', h, hne⟩ c]
        rfl
      · rw [if_neg hc]

end Cbc

/-- PKCS#7 `unpad` does not panic on inputs that are empty or at least one
block long. -/
theorem pkcs7_unpad_isSome (l : List Nat) (n : Nat) (h0 : 0 < n) (h1 : n < 256)
    (hlen : l = [] ∨ n ≤ l.length) : Pkcs7.unpad l n ≠ none := by
  unfold Pkcs7.unpad
  rw [if_neg (by omega : ¬ 256 ≤ n)]
  rcases hl : l.getLast? with - | m
  · simp
  · have hne : l ≠ [] := by
      intro h
      rw [h] at hl
      exact Option.noConfusion (hl ▸ rfl : (none : Option Nat) = some m)
    have hlen2 : n ≤ l.length := by
      rcases hlen with h | h
      · exact absurd h hne
      · exact h
    by_cases hm : m = 0 ∨ n < m
    · simp [hm]
    · have h2 : ¬ l.length < m := by omega
      by_cases hall : (l.drop (l.length - m)).all (fun b => b = m)
      · simp [hm, h2, hall]
      · simp [hm, h2, hall]

/-- The flattening of a list of full blocks has length a multiple of `B`. -/
theorem flatten_length_const (B : Nat) :
    ∀ bs : List (List Nat), (∀ b ∈ bs, b.length = B) →
      bs.flatten.length = bs.length * B := by
  intro bs
  induction bs with
  | nil => simp
  | cons b bs ih =>
    intro hall
    rw [List.flatten_cons, List.length_append, hall b (by simp),
      ih (fun b' h => hall b' (by simp [h])), List.length_cons, Nat.succ_mul]
    omega

/-- Claim C10: ECB and CBC decryption panic — the final short chunk's
conversion to a block is unwrapped — exactly on ciphertexts whose length is
not a multiple of the block size; on multiples the decryption runs to
completion (returning `Ok` or a regular `InvalidPadding` error). -/
theorem claim_C10_decrypt_partial (B : Nat) (dec : List Nat → List Nat → List Nat)
    (iv data key : List Nat) (hB : 0 < B) (hB256 : B < 256)
    (hdec : ∀ c k, c.length = B → (dec c k).length = B) (hiv : iv.length = B) :
    (Ecb.decrypt B dec data key = none ↔ ¬ B ∣ data.length)
    ∧ (Cbc.decrypt B dec iv data key = none ↔ ¬ B ∣ data.length) := by
  have hcommon : ∀ bs : List (List Nat), bs.length = (chunkList B data).length →
      (∀ b ∈ bs, b.length = B) → B ∣ data.length → Pkcs7.unpad bs.flatten B ≠ none := by
    intro bs hlen hblen hdvd
    refine pkcs7_unpad_isSome _ B hB hB256 ?_
    rcases bs with - | ⟨b, bs⟩
    · exact Or.inl rfl
    · refine Or.inr ?_
      rw [flatten_length_const B _ hblen]
      have : 0 < (b :: bs).length := by simp
      calc B = 1 * B := (Nat.one_mul B).symm
        _ ≤ (b :: bs).length * B := Nat.mul_le_mul_right B this
  constructor
  · constructor
    · intro hnone
      intro hdvd
      rcases Ecb.blocks_ok B dec key hdec (chunkList B data)
          (chunkList_full B hB data hdvd) with ⟨bs, hbs, hlen, hblen⟩
      unfold Ecb.decrypt at hnone
      rw [hbs] at hnone
      exact hcommon bs hlen hblen hdvd hnone
    · intro hdvd
      unfold Ecb.decrypt
      rw [Ecb.blocks_none B dec key _ (chunkList_short B hB data hdvd)]
      rfl
  · constructor
    · intro hnone
      intro hdvd
      rcases Cbc.decGo_ok B dec key hdec (chunkList B data)
          (chunkList_full B hB data hdvd) iv hiv with ⟨bs, hbs, hlen, hblen⟩
      unfold Cbc.decrypt at hnone
      rw [hbs] at hnone
      exact hcommon bs hlen hblen hdvd hnone
    · intro hdvd
      unfold Cbc.decrypt
      rw [Cbc.decGo_none B dec key _ (chunkList_short B hB data hdvd) iv]
      rfl

/-- Witness for C10 at block size 16 with a length-preserving block function,
a 3-byte ciphertext (panic case is the `¬ 16 ∣ 3` side). -/
theorem claim_C10_decrypt_partial_witness :
    (Ecb.decrypt 16 (fun b _ => b.take 16 ++ List.replicate (16 - b.length) 0) [1, 2, 3] [7]
        = none ↔ ¬ 16 ∣ ([1, 2, 3] : List Nat).length)
    ∧ (Cbc.decrypt 16 (fun b _ => b.take 16 ++ List.replicate (16 - b.length) 0)
        (List.replicate 16 0) [1, 2, 3] [7] = none ↔ ¬ 16 ∣ ([1, 2, 3] : List Nat).length) :=
  claim_C10_decrypt_partial 16 _ (List.replicate 16 0) [1, 2, 3] [7] (by omega) (by omega)
    (fun c k _ => by
      simp only [List.length_append, List.length_take, List.length_replicate]
      omega)
    (by rw [List.length_replicate])

/-- XOR left-commutativity, used to normalize XOR trees. -/
theorem xor_left_comm (a b c : Nat) : a ^^^ (b ^^^ c) = b ^^^ (a ^^^ c) := by
  rw [← Nat.xor_assoc, Nat.xor_comm a b, Nat.xor_assoc]

theorem xor_interchange (a b c d : Nat) :
    (a ^^^ b) ^^^ (c ^^^ d) = (a ^^^ c) ^^^ (b ^^^ d) := by
  simp only [Nat.xor_assoc]
  rw [xor_left_comm b c]

theorem xor_mod_two_pow (a b n : Nat) : (a ^^^ b) % 2 ^ n = a % 2 ^ n ^^^ b % 2 ^ n := by
  apply Nat.eq_of_testBit_eq
  intro i
  simp only [Nat.testBit_mod_two_pow, Nat.testBit_xor]
  by_cases h : i < n
  · simp [h]
  · simp [h]

theorem two_mul_xor (a b : Nat) : 2 * (a ^^^ b) = 2 * a ^^^ 2 * b := by
  have h : ∀ x : Nat, 2 * x = x <<< 1 := by
    intro x
    rw [Nat.shiftLeft_eq, pow_one, Nat.mul_comm]
  rw [h, h, h]
  apply Nat.eq_of_testBit_eq
  intro i
  simp only [Nat.testBit_shiftLeft, Nat.testBit_xor]
  by_cases hi : 1 ≤ i
  · simp [hi]
  · simp [hi]

theorem and_two_pow_eq (a n : Nat) : a &&& 2 ^ n = if a.testBit n then 2 ^ n else 0 := by
  apply Nat.eq_of_testBit_eq
  intro i
  simp only [Nat.testBit_and, Nat.testBit_two_pow]
  by_cases h : a.testBit n
  · simp only [if_pos h, Nat.testBit_two_pow]
    by_cases hn : n = i
    · subst hn
      simp [h]
    · simp [hn]
  · simp only [if_neg h, Nat.zero_testBit]
    by_cases hn : n = i
    · subst hn
      simp [h]
    · simp [hn]

namespace Aes

/-- `S_BOX` from src/cipher/block/aes.rs lines 35-52 (FIPS-197 Figure 7). -/
def sBox : List Nat := [
  0x63, 0x7c, 0x77, 0x7b, 0xf2, 0x6b, 0x6f, 0xc5, 0x30, 0x01, 0x67, 0x2b, 0xfe, 0xd7, 0xab, 0x76,
  0xca, 0x82, 0xc9, 0x7d, 0xfa, 0x59, 0x47, 0xf0, 0xad, 0xd4, 0xa2, 0xaf, 0x9c, 0xa4, 0x72, 0xc0,
  0xb7, 0xfd, 0x93, 0x26, 0x36, 0x3f, 0xf7, 0xcc, 0x34, 0xa5, 0xe5, 0xf1, 0x71, 0xd8, 0x31, 0x15,
  0x04, 0xc7, 0x23, 0xc3, 0x18, 0x96, 0x05, 0x9a, 0x07, 0x12, 0x80, 0xe2, 0xeb, 0x27, 0xb2, 0x75,
  0x09, 0x83, 0x2c, 0x1a, 0x1b, 0x6e, 0x5a, 0xa0, 0x52, 0x3b, 0xd6, 0xb3, 0x29, 0xe3, 0x2f, 0x84,
  0x53, 0xd1, 0x00, 0xed, 0x20, 0xfc, 0xb1, 0x5b, 0x6a, 0xcb, 0xbe, 0x39, 0x4a, 0x4c, 0x58, 0xcf,
  0xd0, 0xef, 0xaa, 0xfb, 0x43, 0x4d, 0x33, 0x85, 0x45, 0xf9, 0x02, 0x7f, 0x50, 0x3c, 0x9f, 0xa8,
  0x51, 0xa3, 0x40, 0x8f, 0x92, 0x9d, 0x38, 0xf5, 0xbc, 0xb6, 0xda, 0x21, 0x10, 0xff, 0xf3, 0xd2,
  0xcd, 0x0c, 0x13, 0xec, 0x5f, 0x97, 0x44, 0x17, 0xc4, 0xa7, 0x7e, 0x3d, 0x64, 0x5d, 0x19, 0x73,
  0x60, 0x81, 0x4f, 0xdc, 0x22, 0x2a, 0x90, 0x88, 0x46, 0xee, 0xb8, 0x14, 0xde, 0x5e, 0x0b, 0xdb,
  0xe0, 0x32, 0x3a, 0x0a, 0x49, 0x06, 0x24, 0x5c, 0xc2, 0xd3, 0xac, 0x62, 0x91, 0x95, 0xe4, 0x79,
  0xe7, 0xc8, 0x37, 0x6d, 0x8d, 0xd5, 0x4e, 0xa9, 0x6c, 0x56, 0xf4, 0xea, 0x65, 0x7a, 0xae, 0x08,
  0xba, 0x78, 0x25, 0x2e, 0x1c, 0xa6, 0xb4, 0xc6, 0xe8, 0xdd, 0x74, 0x1f, 0x4b, 0xbd, 0x8b, 0x8a,
  0x70, 0x3e, 0xb5, 0x66, 0x48, 0x03, 0xf6, 0x0e, 0x61, 0x35, 0x57, 0xb9, 0x86, 0xc1, 0x1d, 0x9e,
  0xe1, 0xf8, 0x98, 0x11, 0x69, 0xd9, 0x8e, 0x94, 0x9b, 0x1e, 0x87, 0xe9, 0xce, 0x55, 0x28, 0xdf,
  0x8c, 0xa1, 0x89, 0x0d, 0xbf, 0xe6, 0x42, 0x68, 0x41, 0x99, 0x2d, 0x0f, 0xb0, 0x54, 0xbb, 0x16]

/-- `INV_S_BOX` from src/cipher/block/aes.rs lines 56-73 (FIPS-197 Figure 14). -/
def invSBox : List Nat := [
  0x52, 0x09, 0x6a, 0xd5, 0x30, 0x36, 0xa5, 0x38, 0xbf, 0x40, 0xa3, 0x9e, 0x81, 0xf3, 0xd7, 0xfb,
  0x7c, 0xe3, 0x39, 0x82, 0x9b, 0x2f, 0xff, 0x87, 0x34, 0x8e, 0x43, 0x44, 0xc4, 0xde, 0xe9, 0xcb,
  0x54, 0x7b, 0x94, 0x32, 0xa6, 0xc2, 0x23, 0x3d, 0xee, 0x4c, 0x95, 0x0b, 0x42, 0xfa, 0xc3, 0x4e,
  0x08, 0x2e, 0xa1, 0x66, 0x28, 0xd9, 0x24, 0xb2, 0x76, 0x5b, 0xa2, 0x49, 0x6d, 0x8b, 0xd1, 0x25,
  0x72, 0xf8, 0xf6, 0x64, 0x86, 0x68, 0x98, 0x16, 0xd4, 0xa4, 0x5c, 0xcc, 0x5d, 0x65, 0xb6, 0x92,
  0x6c, 0x70, 0x48, 0x50, 0xfd, 0xed, 0xb9, 0xda, 0x5e, 0x15, 0x46, 0x57, 0xa7, 0x8d, 0x9d, 0x84,
  0x90, 0xd8, 0xab, 0x00, 0x8c, 0xbc, 0xd3, 0x0a, 0xf7, 0xe4, 0x58, 0x05, 0xb8, 0xb3, 0x45, 0x06,
  0xd0, 0x2c, 0x1e, 0x8f, 0xca, 0x3f, 0x0f, 0x02, 0xc1, 0xaf, 0xbd, 0x03, 0x01, 0x13, 0x8a, 0x6b,
  0x3a, 0x91, 0x11, 0x41, 0x4f, 0x67, 0xdc, 0xea, 0x97, 0xf2, 0xcf, 0xce, 0xf0, 0xb4, 0xe6, 0x73,
  0x96, 0xac, 0x74, 0x22, 0xe7, 0xad, 0x35, 0x85, 0xe2, 0xf9, 0x37, 0xe8, 0x1c, 0x75, 0xdf, 0x6e,
  0x47, 0xf1, 0x1a, 0x71, 0x1d, 0x29, 0xc5, 0x89, 0x6f, 0xb7, 0x62, 0x0e, 0xaa, 0x18, 0xbe, 0x1b,
  0xfc, 0x56, 0x3e, 0x4b, 0xc6, 0xd2, 0x79, 0x20, 0x9a, 0xdb, 0xc0, 0xfe, 0x78, 0xcd, 0x5a, 0xf4,
  0x1f, 0xdd, 0xa8, 0x33, 0x88, 0x07, 0xc7, 0x31, 0xb1, 0x12, 0x10, 0x59, 0x27, 0x80, 0xec, 0x5f,
  0x60, 0x51, 0x7f, 0xa9, 0x19, 0xb5, 0x4a, 0x0d, 0x2d, 0xe5, 0x7a, 0x9f, 0x93, 0xc9, 0x9c, 0xef,
  0xa0, 0xe0, 0x3b, 0x4d, 0xae, 0x2a, 0xf5, 0xb0, 0xc8, 0xeb, 0xbb, 0x3c, 0x83, 0x53, 0x99, 0x61,
  0x17, 0x2b, 0x04, 0x7e, 0xba, 0x77, 0xd6, 0x26, 0xe1, 0x69, 0x14, 0x63, 0x55, 0x21, 0x0c, 0x7d]

/-- `RCON` from src/cipher/block/aes.rs lines 77-79. -/
def rcon : List Nat :=
  [0x0, 0x1, 0x2, 0x4, 0x8, 0x10, 0x20, 0x40, 0x80, 0x1b, 0x36, 0x6c, 0xd8, 0xab, 0x4d]

/-- `times_02` (src/cipher/block/aes.rs lines 475-485): multiply by `x` in
GF(2^8) — shift left (wrapping at the byte boundary like the Rust `u8` shift)
and conditionally XOR with `0x1b` when the high bit was set. -/
def times02 (b : Nat) : Nat :=
  if b &&& 0x80 ≠ 0 then (2 * b) % 256 ^^^ 0x1b else (2 * b) % 256

/-- `times_03 = times_02(b) ^ b` (src/cipher/block/aes.rs line 499). -/
def times03 (b : Nat) : Nat := times02 b ^^^ b

/-- `times_04 = times_02(times_02(b))` (src/cipher/block/aes.rs line 513). -/
def times04 (b : Nat) : Nat := times02 (times02 b)

/-- `times_08 = times_02(times_04(b))` (src/cipher/block/aes.rs line 528). -/
def times08 (b : Nat) : Nat := times02 (times04 b)

/-- `times_09 = times_08(b) ^ b` (src/cipher/block/aes.rs line 544). -/
def times09 (b : Nat) : Nat := times08 b ^^^ b

/-- `times_0b = times_08(b) ^ times_03(b)` (src/cipher/block/aes.rs line 559). -/
def times0b (b : Nat) : Nat := times08 b ^^^ times03 b

/-- `times_0d = times_08(b) ^ times_04(b) ^ b` (src/cipher/block/aes.rs line 575). -/
def times0d (b : Nat) : Nat := times08 b ^^^ times04 b ^^^ b

/-- `times_0e = times_08(b) ^ times_04(b) ^ times_02(b)` (src/cipher/block/aes.rs line 591). -/
def times0e (b : Nat) : Nat := times08 b ^^^ times04 b ^^^ times02 b

/-- `sub_bytes` (src/cipher/block/aes.rs lines 315-319): replace every byte
with its S-box entry. -/
def subBytes (s : List Nat) : List Nat := s.map fun b => sBox.getD b 0

/-- `inv_sub_bytes` (src/cipher/block/aes.rs lines 329-333). -/
def invSubBytes (s : List Nat) : List Nat := s.map fun b => invSBox.getD b 0

/-- Rust `slice::swap`. -/
def swapIdx (l : List Nat) (i j : Nat) : List Nat :=
  (l.set i (l.getD j 0)).set j (l.getD i 0)

/-- `shift_rows` (src/cipher/block/aes.rs lines 340-354): the swap sequence
from the source. -/
def shiftRows (s : List Nat) : List Nat :=
  let s := swapIdx s 1 13
  let s := swapIdx s 5 9
  let s := swapIdx s 1 9
  let s := swapIdx s 2 10
  let s := swapIdx s 6 14
  let s := swapIdx s 3 7
  let s := swapIdx s 11 15
  let s := swapIdx s 3 11
  s

/-- `inv_shift_rows` (src/cipher/block/aes.rs lines 362-376). -/
def invShiftRows (s : List Nat) : List Nat :=
  let s := swapIdx s 1 13
  let s := swapIdx s 5 9
  let s := swapIdx s 5 13
  let s := swapIdx s 2 10
  let s := swapIdx s 6 14
  let s := swapIdx s 3 15
  let s := swapIdx s 7 11
  let s := swapIdx s 3 11
  s

/-- One column of `mix_columns` (src/cipher/block/aes.rs lines 388-396). -/
def mixColumn : List Nat → List Nat
  | [c0, c1, c2, c3] =>
    [times02 c0 ^^^ times03 c1 ^^^ c2 ^^^ c3,
     c0 ^^^ times02 c1 ^^^ times03 c2 ^^^ c3,
     c0 ^^^ c1 ^^^ times02 c2 ^^^ times03 c3,
     times03 c0 ^^^ c1 ^^^ c2 ^^^ times02 c3]
  | c => c

/-- One column of `inv_mix_columns` (src/cipher/block/aes.rs lines 404-412). -/
def invMixColumn : List Nat → List Nat
  | [c0, c1, c2, c3] =>
    [times0e c0 ^^^ times0b c1 ^^^ times0d c2 ^^^ times09 c3,
     times09 c0 ^^^ times0e c1 ^^^ times0b c2 ^^^ times0d c3,
     times0d c0 ^^^ times09 c1 ^^^ times0e c2 ^^^ times0b c3,
     times0b c0 ^^^ times0d c1 ^^^ times09 c2 ^^^ times0e c3]
  | c => c

/-- `mix_columns`: apply `mixColumn` to each 4-byte chunk of the state. -/
def mixColumns (s : List Nat) : List Nat := ((chunkList 4 s).map mixColumn).flatten

/-- `inv_mix_columns`. -/
def invMixColumns (s : List Nat) : List Nat := ((chunkList 4 s).map invMixColumn).flatten

/-- `add_round_key` (src/cipher/block/aes.rs lines 300-307): XOR the state
with bytes `round*16 .. (round+1)*16` of the key schedule. -/
def addRoundKey (state w : List Nat) (round : Nat) : List Nat :=
  List.zipWith (fun a b => a ^^^ b) state ((w.drop (round * 16)).take 16)

/-- `rot_word` (src/cipher/block/aes.rs lines 634-636). -/
def rotWord : List Nat → List Nat
  | [] => []
  | a :: rest => rest ++ [a]

/-- `key_expansion` (src/cipher/block/aes.rs lines 600-629), generic in the
key size `NK` (words) and round count `NR`: starting from the key, append
one 4-byte word per iteration for `i = NK .. 4*(NR+1) - 1`. -/
def keyExpansion (NK NR : Nat) (key : List Nat) : List Nat :=
  (List.range (4 * (NR + 1) - NK)).foldl
    (fun w idx =>
      let i := NK + idx
      let temp := (w.drop ((i - 1) * 4)).take 4
      let temp :=
        if i % NK = 0 then
          let t := subBytes (rotWord temp)
          (t.getD 0 0 ^^^ rcon.getD (i / NK) 0) :: t.drop 1
        else if 6 < NK ∧ i % NK = 4 then subBytes temp
        else temp
      w ++ List.zipWith (fun a b => a ^^^ b) ((w.drop ((i - NK) * 4)).take 4) temp)
    key

/-- `encrypt` (src/cipher/block/aes.rs lines 227-253). -/
def encrypt (NK NR : Nat) (data key : List Nat) : List Nat :=
  let w := keyExpansion NK NR key
  let st := addRoundKey data w 0
  let st := (List.range (NR - 1)).foldl
    (fun st r => addRoundKey (mixColumns (shiftRows (subBytes st))) w (r + 1)) st
  addRoundKey (shiftRows (subBytes st)) w NR

/-- `decrypt` (src/cipher/block/aes.rs lines 267-293). -/
def decrypt (NK NR : Nat) (data key : List Nat) : List Nat :=
  let w := keyExpansion NK NR key
  let st := addRoundKey data w NR
  let st := (List.range (NR - 1)).foldl
    (fun st k => invMixColumns (addRoundKey (invSubBytes (invShiftRows st)) w (NR - 1 - k))) st
  addRoundKey (invSubBytes (invShiftRows st)) w 0


theorem and_128_ne (a : Nat) : (a &&& 0x80 ≠ 0) ↔ a.testBit 7 = true := by
  have h := and_two_pow_eq a 7
  norm_num at h
  rw [h]
  by_cases hb : a.testBit 7 <;> simp [hb]

theorem times02_eq (b : Nat) :
    times02 b = (2 * b) % 256 ^^^ (if b.testBit 7 then 0x1b else 0) := by
  unfold times02
  by_cases h : b &&& 0x80 ≠ 0
  · rw [if_pos h, if_pos ((and_128_ne b).mp h)]
  · rw [if_neg h, if_neg ?_, Nat.xor_zero]
    intro hc
    exact h ((and_128_ne b).mpr hc)

theorem lin02 (x y : Nat) : times02 (x ^^^ y) = times02 x ^^^ times02 y := by
  rw [times02_eq, times02_eq, times02_eq]
  have h1 : 2 * (x ^^^ y) % 256 = 2 * x % 256 ^^^ 2 * y % 256 := by
    rw [two_mul_xor]
    have h256 : (256 : Nat) = 2 ^ 8 := by norm_num
    rw [h256, xor_mod_two_pow]
  have h2 : (x ^^^ y).testBit 7 = (x.testBit 7).xor (y.testBit 7) := by
    simp [Nat.testBit_xor]
  rw [h1, h2]
  have h3 : (if (x.testBit 7).xor (y.testBit 7) then 0x1b else 0)
      = (if x.testBit 7 then 0x1b else 0) ^^^ (if y.testBit 7 then 0x1b else 0) := by
    by_cases hx : x.testBit 7 <;> by_cases hy : y.testBit 7 <;> simp [hx, hy]
  rw [h3]
  exact xor_interchange _ _ _ _

theorem lin03 (x y : Nat) : times03 (x ^^^ y) = times03 x ^^^ times03 y := by
  unfold times03
  rw [lin02]
  exact xor_interchange _ _ _ _

theorem lin04 (x y : Nat) : times04 (x ^^^ y) = times04 x ^^^ times04 y := by
  unfold times04
  rw [lin02, lin02]

theorem lin08 (x y : Nat) : times08 (x ^^^ y) = times08 x ^^^ times08 y := by
  unfold times08
  rw [lin04, lin02]

theorem lin09 (x y : Nat) : times09 (x ^^^ y) = times09 x ^^^ times09 y := by
  unfold times09
  rw [lin08]
  exact xor_interchange _ _ _ _

theorem lin0b (x y : Nat) : times0b (x ^^^ y) = times0b x ^^^ times0b y := by
  unfold times0b
  rw [lin08, lin03]
  exact xor_interchange _ _ _ _

theorem lin0d (x y : Nat) : times0d (x ^^^ y) = times0d x ^^^ times0d y := by
  unfold times0d
  rw [lin08, lin04]
  rw [xor_interchange (times08 x) (times08 y) (times04 x) (times04 y)]
  exact xor_interchange _ _ _ _

theorem lin0e (x y : Nat) : times0e (x ^^^ y) = times0e x ^^^ times0e y := by
  unfold times0e
  rw [lin08, lin04, lin02]
  rw [xor_interchange (times08 x) (times08 y) (times04 x) (times04 y)]
  exact xor_interchange _ _ _ _

theorem invCoeff00 : ∀ x < 256, times0e (times02 x) ^^^ times0b x ^^^ times0d x ^^^ times09 (times03 x) = x := by decide

theorem invCoeff01 : ∀ x < 256, times0e (times03 x) ^^^ times0b (times02 x) ^^^ times0d x ^^^ times09 x = 0 := by decide

theorem invCoeff02 : ∀ x < 256, times0e x ^^^ times0b (times03 x) ^^^ times0d (times02 x) ^^^ times09 x = 0 := by decide

theorem invCoeff03 : ∀ x < 256, times0e x ^^^ times0b x ^^^ times0d (times03 x) ^^^ times09 (times02 x) = 0 := by decide

theorem invCoeff10 : ∀ x < 256, times09 (times02 x) ^^^ times0e x ^^^ times0b x ^^^ times0d (times03 x) = 0 := by decide

theorem invCoeff11 : ∀ x < 256, times09 (times03 x) ^^^ times0e (times02 x) ^^^ times0b x ^^^ times0d x = x := by decide

theorem invCoeff12 : ∀ x < 256, times09 x ^^^ times0e (times03 x) ^^^ times0b (times02 x) ^^^ times0d x = 0 := by decide

theorem invCoeff13 : ∀ x < 256, times09 x ^^^ times0e x ^^^ times0b (times03 x) ^^^ times0d (times02 x) = 0 := by decide

theorem invCoeff20 : ∀ x < 256, times0d (times02 x) ^^^ times09 x ^^^ times0e x ^^^ times0b (times03 x) = 0 := by decide

theorem invCoeff21 : ∀ x < 256, times0d (times03 x) ^^^ times09 (times02 x) ^^^ times0e x ^^^ times0b x = 0 := by decide

theorem invCoeff22 : ∀ x < 256, times0d x ^^^ times09 (times03 x) ^^^ times0e (times02 x) ^^^ times0b x = x := by decide

theorem invCoeff23 : ∀ x < 256, times0d x ^^^ times09 x ^^^ times0e (times03 x) ^^^ times0b (times02 x) = 0 := by decide

theorem invCoeff30 : ∀ x < 256, times0b (times02 x) ^^^ times0d x ^^^ times09 x ^^^ times0e (times03 x) = 0 := by decide

theorem invCoeff31 : ∀ x < 256, times0b (times03 x) ^^^ times0d (times02 x) ^^^ times09 x ^^^ times0e x = 0 := by decide

theorem invCoeff32 : ∀ x < 256, times0b x ^^^ times0d (times03 x) ^^^ times09 (times02 x) ^^^ times0e x = 0 := by decide

theorem invCoeff33 : ∀ x < 256, times0b x ^^^ times0d x ^^^ times09 (times03 x) ^^^ times0e (times02 x) = x := by decide

theorem mixInvComp0 (a b c d : Nat) (ha : a < 256) (hb : b < 256)
    (hc : c < 256) (hd : d < 256) :
    times0e (times02 a ^^^ times03 b ^^^ c ^^^ d) ^^^ times0b (a ^^^ times02 b ^^^ times03 c ^^^ d) ^^^ times0d (a ^^^ b ^^^ times02 c ^^^ times03 d) ^^^ times09 (times03 a ^^^ b ^^^ c ^^^ times02 d) = a := by
  have hgrp : (times0e (times02 a) ^^^ times0b a ^^^ times0d a ^^^ times09 (times03 a)) ^^^ ((times0e (times03 b) ^^^ times0b (times02 b) ^^^ times0d b ^^^ times09 b) ^^^ ((times0e c ^^^ times0b (times03 c) ^^^ times0d (times02 c) ^^^ times09 c) ^^^ (times0e d ^^^ times0b d ^^^ times0d (times03 d) ^^^ times09 (times02 d)))) = a := by
    rw [invCoeff00 a ha, invCoeff01 b hb, invCoeff02 c hc, invCoeff03 d hd]
    simp
  refine Eq.trans ?_ hgrp
  simp only [lin0e, lin0b, lin0d, lin09]
  simp [Nat.xor_assoc, Nat.xor_comm, xor_left_comm]

theorem mixInvComp1 (a b c d : Nat) (ha : a < 256) (hb : b < 256)
    (hc : c < 256) (hd : d < 256) :
    times09 (times02 a ^^^ times03 b ^^^ c ^^^ d) ^^^ times0e (a ^^^ times02 b ^^^ times03 c ^^^ d) ^^^ times0b (a ^^^ b ^^^ times02 c ^^^ times03 d) ^^^ times0d (times03 a ^^^ b ^^^ c ^^^ times02 d) = b := by
  have hgrp : (times09 (times02 a) ^^^ times0e a ^^^ times0b a ^^^ times0d (times03 a)) ^^^ ((times09 (times03 b) ^^^ times0e (times02 b) ^^^ times0b b ^^^ times0d b) ^^^ ((times09 c ^^^ times0e (times03 c) ^^^ times0b (times02 c) ^^^ times0d c) ^^^ (times09 d ^^^ times0e d ^^^ times0b (times03 d) ^^^ times0d (times02 d)))) = b := by
    rw [invCoeff10 a ha, invCoeff11 b hb, invCoeff12 c hc, invCoeff13 d hd]
    simp
  refine Eq.trans ?_ hgrp
  simp only [lin0e, lin0b, lin0d, lin09]
  simp [Nat.xor_assoc, Nat.xor_comm, xor_left_comm]

theorem mixInvComp2 (a b c d : Nat) (ha : a < 256) (hb : b < 256)
    (hc : c < 256) (hd : d < 256) :
    times0d (times02 a ^^^ times03 b ^^^ c ^^^ d) ^^^ times09 (a ^^^ times02 b ^^^ times03 c ^^^ d) ^^^ times0e (a ^^^ b ^^^ times02 c ^^^ times03 d) ^^^ times0b (times03 a ^^^ b ^^^ c ^^^ times02 d) = c := by
  have hgrp : (times0d (times02 a) ^^^ times09 a ^^^ times0e a ^^^ times0b (times03 a)) ^^^ ((times0d (times03 b) ^^^ times09 (times02 b) ^^^ times0e b ^^^ times0b b) ^^^ ((times0d c ^^^ times09 (times03 c) ^^^ times0e (times02 c) ^^^ times0b c) ^^^ (times0d d ^^^ times09 d ^^^ times0e (times03 d) ^^^ times0b (times02 d)))) = c := by
    rw [invCoeff20 a ha, invCoeff21 b hb, invCoeff22 c hc, invCoeff23 d hd]
    simp
  refine Eq.trans ?_ hgrp
  simp only [lin0e, lin0b, lin0d, lin09]
  simp [Nat.xor_assoc, Nat.xor_comm, xor_left_comm]

theorem mixInvComp3 (a b c d : Nat) (ha : a < 256) (hb : b < 256)
    (hc : c < 256) (hd : d < 256) :
    times0b (times02 a ^^^ times03 b ^^^ c ^^^ d) ^^^ times0d (a ^^^ times02 b ^^^ times03 c ^^^ d) ^^^ times09 (a ^^^ b ^^^ times02 c ^^^ times03 d) ^^^ times0e (times03 a ^^^ b ^^^ c ^^^ times02 d) = d := by
  have hgrp : (times0b (times02 a) ^^^ times0d a ^^^ times09 a ^^^ times0e (times03 a)) ^^^ ((times0b (times03 b) ^^^ times0d (times02 b) ^^^ times09 b ^^^ times0e b) ^^^ ((times0b c ^^^ times0d (times03 c) ^^^ times09 (times02 c) ^^^ times0e c) ^^^ (times0b d ^^^ times0d d ^^^ times09 (times03 d) ^^^ times0e (times02 d)))) = d := by
    rw [invCoeff30 a ha, invCoeff31 b hb, invCoeff32 c hc, invCoeff33 d hd]
    simp
  refine Eq.trans ?_ hgrp
  simp only [lin0e, lin0b, lin0d, lin09]
  simp [Nat.xor_assoc, Nat.xor_comm, xor_left_comm]


theorem sBox_lt : ∀ b, sBox.getD b 0 < 256 := by
  have H : ∀ b < 256, sBox.getD b 0 < 256 := by decide
  intro b
  by_cases h : b < 256
  · exact H b h
  · rw [List.getD_eq_default]
    · norm_num
    · have hl : sBox.length = 256 := rfl
      omega

theorem invSBox_lt : ∀ b, invSBox.getD b 0 < 256 := by
  have H : ∀ b < 256, invSBox.getD b 0 < 256 := by decide
  intro b
  by_cases h : b < 256
  · exact H b h
  · rw [List.getD_eq_default]
    · norm_num
    · have hl : invSBox.length = 256 := rfl
      omega

theorem rcon_lt : ∀ b, rcon.getD b 0 < 256 := by
  have H : ∀ b < 15, rcon.getD b 0 < 256 := by decide
  intro b
  by_cases h : b < 15
  · exact H b h
  · rw [List.getD_eq_default]
    · norm_num
    · have hl : rcon.length = 15 := rfl
      omega

/-- The inverse S-box inverts the S-box on bytes. -/
theorem sBox_roundtrip : ∀ b < 256, invSBox.getD (sBox.getD b 0) 0 = b := by decide

theorem subBytes_length (s : List Nat) : (subBytes s).length = s.length := by
  simp [subBytes]

theorem invSubBytes_length (s : List Nat) : (invSubBytes s).length = s.length := by
  simp [invSubBytes]

theorem subBytes_lt (s : List Nat) : ∀ b ∈ subBytes s, b < 256 := by
  intro b hb
  rcases List.mem_map.mp hb with ⟨x, _, hx⟩
  rw [← hx]
  exact sBox_lt x

theorem invSubBytes_subBytes (s : List Nat) (hb : ∀ b ∈ s, b < 256) :
    invSubBytes (subBytes s) = s := by
  unfold subBytes invSubBytes
  rw [List.map_map]
  conv_rhs => rw [← List.map_id s]
  apply List.map_congr_left
  intro x hx
  exact sBox_roundtrip x (hb x hx)

/-- Destructuring for 16-byte states. -/
theorem length16_cases (s : List Nat) (h : s.length = 16) :
    ∃ a0 a1 a2 a3 a4 a5 a6 a7 a8 a9 a10 a11 a12 a13 a14 a15, s = [a0, a1, a2, a3, a4, a5, a6, a7, a8, a9, a10, a11, a12, a13, a14, a15] := by
  cases s with
  | nil => simp at h
  | cons a0 s =>
  cases s with
  | nil => simp at h
  | cons a1 s =>
  cases s with
  | nil => simp at h
  | cons a2 s =>
  cases s with
  | nil => simp at h
  | cons a3 s =>
  cases s with
  | nil => simp at h
  | cons a4 s =>
  cases s with
  | nil => simp at h
  | cons a5 s =>
  cases s with
  | nil => simp at h
  | cons a6 s =>
  cases s with
  | nil => simp at h
  | cons a7 s =>
  cases s with
  | nil => simp at h
  | cons a8 s =>
  cases s with
  | nil => simp at h
  | cons a9 s =>
  cases s with
  | nil => simp at h
  | cons a10 s =>
  cases s with
  | nil => simp at h
  | cons a11 s =>
  cases s with
  | nil => simp at h
  | cons a12 s =>
  cases s with
  | nil => simp at h
  | cons a13 s =>
  cases s with
  | nil => simp at h
  | cons a14 s =>
  cases s with
  | nil => simp at h
  | cons a15 s =>
  cases s with
  | cons x s => simp at h
  | nil => exact ⟨a0, a1, a2, a3, a4, a5, a6, a7, a8, a9, a10, a11, a12, a13, a14, a15, rfl⟩

theorem shiftRows_eq (a0 a1 a2 a3 a4 a5 a6 a7 a8 a9 a10 a11 a12 a13 a14 a15 : Nat) :
    shiftRows [a0, a1, a2, a3, a4, a5, a6, a7, a8, a9, a10, a11, a12, a13, a14, a15]
      = [a0, a5, a10, a15, a4, a9, a14, a3, a8, a13, a2, a7, a12, a1, a6, a11] := by
  simp [shiftRows, swapIdx]

theorem invShiftRows_eq (a0 a1 a2 a3 a4 a5 a6 a7 a8 a9 a10 a11 a12 a13 a14 a15 : Nat) :
    invShiftRows [a0, a1, a2, a3, a4, a5, a6, a7, a8, a9, a10, a11, a12, a13, a14, a15]
      = [a0, a13, a10, a7, a4, a1, a14, a11, a8, a5, a2, a15, a12, a9, a6, a3] := by
  simp [invShiftRows, swapIdx]

theorem invShiftRows_shiftRows (s : List Nat) (h : s.length = 16) :
    invShiftRows (shiftRows s) = s := by
  rcases length16_cases s h with ⟨a0, a1, a2, a3, a4, a5, a6, a7, a8, a9, a10, a11, a12, a13, a14, a15, rfl⟩
  rw [shiftRows_eq, invShiftRows_eq]

theorem shiftRows_length (s : List Nat) (h : s.length = 16) :
    (shiftRows s).length = 16 := by
  rcases length16_cases s h with ⟨a0, a1, a2, a3, a4, a5, a6, a7, a8, a9, a10, a11, a12, a13, a14, a15, rfl⟩
  rw [shiftRows_eq]
  rfl

theorem invShiftRows_length (s : List Nat) (h : s.length = 16) :
    (invShiftRows s).length = 16 := by
  rcases length16_cases s h with ⟨a0, a1, a2, a3, a4, a5, a6, a7, a8, a9, a10, a11, a12, a13, a14, a15, rfl⟩
  rw [invShiftRows_eq]
  rfl

theorem shiftRows_lt (s : List Nat) (h : s.length = 16) (hb : ∀ b ∈ s, b < 256) :
    ∀ b ∈ shiftRows s, b < 256 := by
  rcases length16_cases s h with ⟨a0, a1, a2, a3, a4, a5, a6, a7, a8, a9, a10, a11, a12, a13, a14, a15, rfl⟩
  rw [shiftRows_eq]
  intro b hbm
  apply hb
  simp only [List.mem_cons, List.not_mem_nil, or_false] at hbm ⊢
  tauto


theorem xor_lt_256 (x y : Nat) (hx : x < 256) (hy : y < 256) : x ^^^ y < 256 := by
  have h256 : (256 : Nat) = 2 ^ 8 := by norm_num
  rw [h256] at hx hy ⊢
  exact Nat.xor_lt_two_pow hx hy

theorem times02_lt (b : Nat) : times02 b < 256 := by
  unfold times02
  have h1 : 2 * b % 256 < 256 := Nat.mod_lt _ (by norm_num)
  by_cases h : b &&& 0x80 ≠ 0
  · rw [if_pos h]
    exact xor_lt_256 _ _ h1 (by norm_num)
  · rw [if_neg h]
    exact h1

theorem times03_lt (b : Nat) (hb : b < 256) : times03 b < 256 :=
  xor_lt_256 _ _ (times02_lt b) hb

theorem times04_lt (b : Nat) : times04 b < 256 := times02_lt _

theorem times08_lt (b : Nat) : times08 b < 256 := times02_lt _

theorem times09_lt (b : Nat) (hb : b < 256) : times09 b < 256 :=
  xor_lt_256 _ _ (times08_lt b) hb

theorem times0b_lt (b : Nat) (hb : b < 256) : times0b b < 256 :=
  xor_lt_256 _ _ (times08_lt b) (times03_lt b hb)

theorem times0d_lt (b : Nat) (hb : b < 256) : times0d b < 256 :=
  xor_lt_256 _ _ (xor_lt_256 _ _ (times08_lt b) (times04_lt b)) hb

theorem times0e_lt (b : Nat) : times0e b < 256 :=
  xor_lt_256 _ _ (xor_lt_256 _ _ (times08_lt b) (times04_lt b)) (times02_lt b)

theorem mixColumn_apply (c0 c1 c2 c3 : Nat) :
    mixColumn [c0, c1, c2, c3] =
      [times02 c0 ^^^ times03 c1 ^^^ c2 ^^^ c3,
       c0 ^^^ times02 c1 ^^^ times03 c2 ^^^ c3,
       c0 ^^^ c1 ^^^ times02 c2 ^^^ times03 c3,
       times03 c0 ^^^ c1 ^^^ c2 ^^^ times02 c3] := rfl

theorem invMixColumn_apply (c0 c1 c2 c3 : Nat) :
    invMixColumn [c0, c1, c2, c3] =
      [times0e c0 ^^^ times0b c1 ^^^ times0d c2 ^^^ times09 c3,
       times09 c0 ^^^ times0e c1 ^^^ times0b c2 ^^^ times0d c3,
       times0d c0 ^^^ times09 c1 ^^^ times0e c2 ^^^ times0b c3,
       times0b c0 ^^^ times0d c1 ^^^ times09 c2 ^^^ times0e c3] := rfl

theorem invMixColumn_mixColumn (a b c d : Nat) (ha : a < 256) (hb : b < 256)
    (hc : c < 256) (hd : d < 256) :
    invMixColumn (mixColumn [a, b, c, d]) = [a, b, c, d] := by
  rw [mixColumn_apply, invMixColumn_apply]
  rw [mixInvComp0 a b c d ha hb hc hd, mixInvComp1 a b c d ha hb hc hd,
    mixInvComp2 a b c d ha hb hc hd, mixInvComp3 a b c d ha hb hc hd]

theorem mixColumns_apply (a0 a1 a2 a3 a4 a5 a6 a7 a8 a9 a10 a11 a12 a13 a14 a15 : Nat) :
    mixColumns [a0, a1, a2, a3, a4, a5, a6, a7, a8, a9, a10, a11, a12, a13, a14, a15] =
      [times02 a0 ^^^ times03 a1 ^^^ a2 ^^^ a3,
      a0 ^^^ times02 a1 ^^^ times03 a2 ^^^ a3,
      a0 ^^^ a1 ^^^ times02 a2 ^^^ times03 a3,
      times03 a0 ^^^ a1 ^^^ a2 ^^^ times02 a3,
      times02 a4 ^^^ times03 a5 ^^^ a6 ^^^ a7,
      a4 ^^^ times02 a5 ^^^ times03 a6 ^^^ a7,
      a4 ^^^ a5 ^^^ times02 a6 ^^^ times03 a7,
      times03 a4 ^^^ a5 ^^^ a6 ^^^ times02 a7,
      times02 a8 ^^^ times03 a9 ^^^ a10 ^^^ a11,
      a8 ^^^ times02 a9 ^^^ times03 a10 ^^^ a11,
      a8 ^^^ a9 ^^^ times02 a10 ^^^ times03 a11,
      times03 a8 ^^^ a9 ^^^ a10 ^^^ times02 a11,
      times02 a12 ^^^ times03 a13 ^^^ a14 ^^^ a15,
      a12 ^^^ times02 a13 ^^^ times03 a14 ^^^ a15,
      a12 ^^^ a13 ^^^ times02 a14 ^^^ times03 a15,
      times03 a12 ^^^ a13 ^^^ a14 ^^^ times02 a15] := rfl

theorem mixColumns_chunks (a0 a1 a2 a3 a4 a5 a6 a7 a8 a9 a10 a11 a12 a13 a14 a15 : Nat) :
    mixColumns [a0, a1, a2, a3, a4, a5, a6, a7, a8, a9, a10, a11, a12, a13, a14, a15] =
      mixColumn [a0, a1, a2, a3] ++ (mixColumn [a4, a5, a6, a7] ++ (mixColumn [a8, a9, a10, a11] ++
        (mixColumn [a12, a13, a14, a15] ++ []))) := rfl

theorem invMixColumns_chunks (a0 a1 a2 a3 a4 a5 a6 a7 a8 a9 a10 a11 a12 a13 a14 a15 : Nat) :
    invMixColumns (mixColumn [a0, a1, a2, a3] ++ (mixColumn [a4, a5, a6, a7] ++ (mixColumn [a8, a9, a10, a11] ++
        (mixColumn [a12, a13, a14, a15] ++ [])))) =
      invMixColumn (mixColumn [a0, a1, a2, a3]) ++ (invMixColumn (mixColumn [a4, a5, a6, a7]) ++
        (invMixColumn (mixColumn [a8, a9, a10, a11]) ++ (invMixColumn (mixColumn [a12, a13, a14, a15]) ++ []))) := rfl

theorem invMixColumns_mixColumns (s : List Nat) (h : s.length = 16)
    (hb : ∀ b ∈ s, b < 256) : invMixColumns (mixColumns s) = s := by
  rcases length16_cases s h with ⟨a0, a1, a2, a3, a4, a5, a6, a7, a8, a9, a10, a11, a12, a13, a14, a15, rfl⟩
  have hb0 : a0 < 256 := hb _ (by simp)
  have hb1 : a1 < 256 := hb _ (by simp)
  have hb2 : a2 < 256 := hb _ (by simp)
  have hb3 : a3 < 256 := hb _ (by simp)
  have hb4 : a4 < 256 := hb _ (by simp)
  have hb5 : a5 < 256 := hb _ (by simp)
  have hb6 : a6 < 256 := hb _ (by simp)
  have hb7 : a7 < 256 := hb _ (by simp)
  have hb8 : a8 < 256 := hb _ (by simp)
  have hb9 : a9 < 256 := hb _ (by simp)
  have hb10 : a10 < 256 := hb _ (by simp)
  have hb11 : a11 < 256 := hb _ (by simp)
  have hb12 : a12 < 256 := hb _ (by simp)
  have hb13 : a13 < 256 := hb _ (by simp)
  have hb14 : a14 < 256 := hb _ (by simp)
  have hb15 : a15 < 256 := hb _ (by simp)
  rw [mixColumns_chunks, invMixColumns_chunks,
    invMixColumn_mixColumn _ _ _ _ hb0 hb1 hb2 hb3,
    invMixColumn_mixColumn _ _ _ _ hb4 hb5 hb6 hb7,
    invMixColumn_mixColumn _ _ _ _ hb8 hb9 hb10 hb11,
    invMixColumn_mixColumn _ _ _ _ hb12 hb13 hb14 hb15]
  rfl

theorem mixColumns_length (s : List Nat) (h : s.length = 16) :
    (mixColumns s).length = 16 := by
  rcases length16_cases s h with ⟨a0, a1, a2, a3, a4, a5, a6, a7, a8, a9, a10, a11, a12, a13, a14, a15, rfl⟩
  rw [mixColumns_apply]
  rfl

theorem mixColumns_lt (s : List Nat) (h : s.length = 16) (hb : ∀ b ∈ s, b < 256) :
    ∀ b ∈ mixColumns s, b < 256 := by
  rcases length16_cases s h with ⟨a0, a1, a2, a3, a4, a5, a6, a7, a8, a9, a10, a11, a12, a13, a14, a15, rfl⟩
  have hb0 : a0 < 256 := hb _ (by simp)
  have hb1 : a1 < 256 := hb _ (by simp)
  have hb2 : a2 < 256 := hb _ (by simp)
  have hb3 : a3 < 256 := hb _ (by simp)
  have hb4 : a4 < 256 := hb _ (by simp)
  have hb5 : a5 < 256 := hb _ (by simp)
  have hb6 : a6 < 256 := hb _ (by simp)
  have hb7 : a7 < 256 := hb _ (by simp)
  have hb8 : a8 < 256 := hb _ (by simp)
  have hb9 : a9 < 256 := hb _ (by simp)
  have hb10 : a10 < 256 := hb _ (by simp)
  have hb11 : a11 < 256 := hb _ (by simp)
  have hb12 : a12 < 256 := hb _ (by simp)
  have hb13 : a13 < 256 := hb _ (by simp)
  have hb14 : a14 < 256 := hb _ (by simp)
  have hb15 : a15 < 256 := hb _ (by simp)
  rw [mixColumns_apply]
  intro b hbm
  simp only [List.mem_cons, List.not_mem_nil, or_false] at hbm
  rcases hbm with rfl|rfl|rfl|rfl|rfl|rfl|rfl|rfl|rfl|rfl|rfl|rfl|rfl|rfl|rfl|rfl
  all_goals repeat' apply xor_lt_256
  all_goals first
    | exact times02_lt _
    | (apply times03_lt; assumption)
    | assumption


theorem zipWith_xor_lt : ∀ x y : List Nat, (∀ a ∈ x, a < 256) → (∀ a ∈ y, a < 256) →
    ∀ b ∈ List.zipWith (fun a b => a ^^^ b) x y, b < 256 := by
  intro x
  induction x with
  | nil => intro y _ _ b hb; simp at hb
  | cons a xs ih =>
    intro y hx hy b hb
    cases y with
    | nil => simp at hb
    | cons k ks =>
      simp only [List.zipWith_cons_cons, List.mem_cons] at hb
      rcases hb with rfl | hb
      · exact xor_lt_256 _ _ (hx a (by simp)) (hy k (by simp))
      · exact ih ks (fun v hv => hx v (by simp [hv])) (fun v hv => hy v (by simp [hv])) b hb

theorem zipWith_xor_cancel : ∀ x y : List Nat, x.length ≤ y.length →
    List.zipWith (fun a b => a ^^^ b) (List.zipWith (fun a b => a ^^^ b) x y) y = x := by
  intro x
  induction x with
  | nil => intro y _; rfl
  | cons a xs ih =>
    intro y h
    cases y with
    | nil => simp at h
    | cons k ks =>
      simp only [List.zipWith_cons_cons]
      rw [ih ks (by simpa using h)]
      rw [Nat.xor_assoc, Nat.xor_self, Nat.xor_zero]

theorem addRoundKey_length (state w : List Nat) (r : Nat) (h : state.length = 16)
    (hw : (r + 1) * 16 ≤ w.length) : (addRoundKey state w r).length = 16 := by
  unfold addRoundKey
  rw [List.length_zipWith, h, List.length_take, List.length_drop]
  omega

theorem addRoundKey_lt (state w : List Nat) (r : Nat) (hb : ∀ b ∈ state, b < 256)
    (hwb : ∀ b ∈ w, b < 256) : ∀ b ∈ addRoundKey state w r, b < 256 := by
  apply zipWith_xor_lt _ _ hb
  intro a ha
  exact hwb a (List.drop_subset _ _ (List.take_subset _ _ ha))

theorem addRoundKey_cancel (state w : List Nat) (r : Nat) (h : state.length = 16)
    (hw : (r + 1) * 16 ≤ w.length) :
    addRoundKey (addRoundKey state w r) w r = state := by
  unfold addRoundKey
  apply zipWith_xor_cancel
  rw [h, List.length_take, List.length_drop]
  omega

theorem rotWord_length (l : List Nat) : (rotWord l).length = l.length := by
  cases l with
  | nil => rfl
  | cons a rest => simp [rotWord]

theorem rotWord_lt (l : List Nat) (h : ∀ b ∈ l, b < 256) : ∀ b ∈ rotWord l, b < 256 := by
  cases l with
  | nil => simp [rotWord]
  | cons a rest =>
    intro b hb
    simp only [rotWord, List.mem_append, List.mem_singleton] at hb
    rcases hb with hb | rfl
    · exact h b (by simp [hb])
    · exact h b (by simp)

/-- Length and byte bounds of the AES key schedule. -/
theorem keyExpansion_good (NK NR : Nat) (key : List Nat) (hNK : 0 < NK)
    (hk : key.length = 4 * NK) (hkb : ∀ b ∈ key, b < 256) :
    (keyExpansion NK NR key).length = 4 * NK + 4 * (4 * (NR + 1) - NK)
    ∧ ∀ b ∈ keyExpansion NK NR key, b < 256 := by
  suffices H : ∀ n, ((List.range n).foldl
      (fun w idx =>
        let i := NK + idx
        let temp := (w.drop ((i - 1) * 4)).take 4
        let temp :=
          if i % NK = 0 then
            let t := subBytes (rotWord temp)
            (t.getD 0 0 ^^^ rcon.getD (i / NK) 0) :: t.drop 1
          else if 6 < NK ∧ i % NK = 4 then subBytes temp
          else temp
        w ++ List.zipWith (fun a b => a ^^^ b) ((w.drop ((i - NK) * 4)).take 4) temp)
      key).length = 4 * NK + 4 * n
      ∧ ∀ b ∈ (List.range n).foldl
      (fun w idx =>
        let i := NK + idx
        let temp := (w.drop ((i - 1) * 4)).take 4
        let temp :=
          if i % NK = 0 then
            let t := subBytes (rotWord temp)
            (t.getD 0 0 ^^^ rcon.getD (i / NK) 0) :: t.drop 1
          else if 6 < NK ∧ i % NK = 4 then subBytes temp
          else temp
        w ++ List.zipWith (fun a b => a ^^^ b) ((w.drop ((i - NK) * 4)).take 4) temp)
      key, b < 256 by
    exact H (4 * (NR + 1) - NK)
  intro n
  induction n with
  | zero =>
    constructor
    · simpa using hk
    · simpa using hkb
  | succ n ih =>
    rcases ih with ⟨ihlen, ihb⟩
    rw [List.range_succ, List.foldl_append, List.foldl_cons, List.foldl_nil]
    generalize hwgen : (List.range n).foldl _ key = w at ihlen ihb
    simp only
    set temp1 := (w.drop ((NK + n - 1) * 4)).take 4 with htemp1
    have htemp1len : temp1.length = 4 := by
      rw [htemp1, List.length_take, List.length_drop, ihlen]
      omega
    have htemp1b : ∀ b ∈ temp1, b < 256 := by
      intro b hb
      exact ihb b (List.drop_subset _ _ (List.take_subset _ _ hb))
    set temp2 := if (NK + n) % NK = 0 then
        (((subBytes (rotWord temp1)).getD 0 0) ^^^ rcon.getD ((NK + n) / NK) 0)
          :: (subBytes (rotWord temp1)).drop 1
      else if 6 < NK ∧ (NK + n) % NK = 4 then subBytes temp1
      else temp1 with htemp2
    have htemp2len : temp2.length = 4 := by
      rw [htemp2]
      by_cases h1 : (NK + n) % NK = 0
      · rw [if_pos h1]
        simp only [List.length_cons, List.length_drop, subBytes_length, rotWord_length]
        omega
      · rw [if_neg h1]
        by_cases h2 : 6 < NK ∧ (NK + n) % NK = 4
        · rw [if_pos h2, subBytes_length, htemp1len]
        · rw [if_neg h2, htemp1len]
    have htemp2b : ∀ b ∈ temp2, b < 256 := by
      rw [htemp2]
      by_cases h1 : (NK + n) % NK = 0
      · rw [if_pos h1]
        intro b hb
        rcases List.mem_cons.mp hb with rfl | hb
        · have hlen0 : 0 < (subBytes (rotWord temp1)).length := by
            rw [subBytes_length, rotWord_length, htemp1len]
            omega
          apply xor_lt_256
          · rw [List.getD_eq_getElem?_getD, List.getElem?_eq_getElem hlen0]
            exact subBytes_lt _ _ (List.getElem_mem _)
          · exact rcon_lt _
        · exact subBytes_lt _ _ (List.drop_subset _ _ hb)
      · rw [if_neg h1]
        by_cases h2 : 6 < NK ∧ (NK + n) % NK = 4
        · rw [if_pos h2]
          exact subBytes_lt _
        · rw [if_neg h2]
          exact htemp1b
    constructor
    · rw [List.length_append, ihlen, List.length_zipWith, List.length_take,
        List.length_drop, ihlen, htemp2len]
      omega
    · intro b hb
      rcases List.mem_append.mp hb with hb | hb
      · exact ihb b hb
      · refine zipWith_xor_lt _ _ ?_ htemp2b b hb
        intro a ha
        exact ihb a (List.drop_subset _ _ (List.take_subset _ _ ha))


/-- Proof helper: the encryption state after the initial AddRoundKey and `m`
middle rounds of `encrypt`. -/
def encState (w data : List Nat) (m : Nat) : List Nat :=
  (List.range m).foldl (fun st r => addRoundKey (mixColumns (shiftRows (subBytes st))) w (r + 1))
    (addRoundKey data w 0)

/-- Proof helper: the decryption state after the initial AddRoundKey and `k`
middle rounds of `decrypt`. -/
def decState (w ct : List Nat) (NR k : Nat) : List Nat :=
  (List.range k).foldl
    (fun st k2 => invMixColumns (addRoundKey (invSubBytes (invShiftRows st)) w (NR - 1 - k2)))
    (addRoundKey ct w NR)

theorem encrypt_eq_encState (NK NR : Nat) (data key : List Nat) :
    encrypt NK NR data key =
      addRoundKey (shiftRows (subBytes (encState (keyExpansion NK NR key) data (NR - 1))))
        (keyExpansion NK NR key) NR := rfl

theorem decrypt_eq_decState (NK NR : Nat) (ct key : List Nat) :
    decrypt NK NR ct key =
      addRoundKey (invSubBytes (invShiftRows (decState (keyExpansion NK NR key) ct NR (NR - 1))))
        (keyExpansion NK NR key) 0 := rfl

theorem decState_zero (w ct : List Nat) (NR : Nat) :
    decState w ct NR 0 = addRoundKey ct w NR := rfl

theorem encState_zero (w data : List Nat) : encState w data 0 = addRoundKey data w 0 := rfl

theorem encState_succ (w data : List Nat) (m : Nat) :
    encState w data (m + 1) =
      addRoundKey (mixColumns (shiftRows (subBytes (encState w data m)))) w (m + 1) := by
  unfold encState
  rw [List.range_succ, List.foldl_append, List.foldl_cons, List.foldl_nil]

theorem decState_succ (w ct : List Nat) (NR k : Nat) :
    decState w ct NR (k + 1) =
      invMixColumns (addRoundKey (invSubBytes (invShiftRows (decState w ct NR k))) w
        (NR - 1 - k)) := by
  unfold decState
  rw [List.range_succ, List.foldl_append, List.foldl_cons, List.foldl_nil]

theorem encState_good (w data : List Nat) (NR : Nat) (hd : data.length = 16)
    (hdb : ∀ b ∈ data, b < 256) (hwlen : w.length = 16 * (NR + 1))
    (hwb : ∀ b ∈ w, b < 256) :
    ∀ m, m ≤ NR - 1 → (encState w data m).length = 16 ∧ ∀ b ∈ encState w data m, b < 256 := by
  intro m
  induction m with
  | zero =>
    intro _
    constructor
    · exact addRoundKey_length _ _ _ hd (by omega)
    · exact addRoundKey_lt _ _ _ hdb hwb
  | succ m ih =>
    intro hm
    rcases ih (by omega) with ⟨ihl, ihb⟩
    rw [encState_succ]
    have h1 : (subBytes (encState w data m)).length = 16 := by rw [subBytes_length, ihl]
    have h2 : (shiftRows (subBytes (encState w data m))).length = 16 := shiftRows_length _ h1
    have h3 : (mixColumns (shiftRows (subBytes (encState w data m)))).length = 16 :=
      mixColumns_length _ h2
    constructor
    · exact addRoundKey_length _ _ _ h3 (by omega)
    · refine addRoundKey_lt _ _ _ ?_ hwb
      exact mixColumns_lt _ h2 (shiftRows_lt _ h1 (subBytes_lt _))

/-- The decryption rounds unwind the encryption rounds one at a time. -/
theorem decState_unwind (NK NR : Nat) (data key : List Nat) (hNK : 0 < NK)
    (hNKR : NK ≤ 4 * (NR + 1)) (hd : data.length = 16) (hdb : ∀ b ∈ data, b < 256)
    (hk : key.length = 4 * NK) (hkb : ∀ b ∈ key, b < 256) :
    ∀ k, k ≤ NR - 1 →
      decState (keyExpansion NK NR key) (encrypt NK NR data key) NR k =
        shiftRows (subBytes (encState (keyExpansion NK NR key) data (NR - 1 - k))) := by
  have hwlen : (keyExpansion NK NR key).length = 16 * (NR + 1) := by
    rcases keyExpansion_good NK NR key hNK hk hkb with ⟨h, _⟩
    rw [h]
    omega
  have hwb : ∀ b ∈ keyExpansion NK NR key, b < 256 :=
    (keyExpansion_good NK NR key hNK hk hkb).2
  have hgood := encState_good (keyExpansion NK NR key) data NR hd hdb hwlen hwb
  intro k
  induction k with
  | zero =>
    intro _
    rw [decState_zero, encrypt_eq_encState]
    rcases hgood (NR - 1) le_rfl with ⟨hl, hb⟩
    have h1 : (subBytes (encState (keyExpansion NK NR key) data (NR - 1))).length = 16 := by
      rw [subBytes_length, hl]
    rw [addRoundKey_cancel _ _ _ (shiftRows_length _ h1) (by omega), Nat.sub_zero]
  | succ k ih =>
    intro hk2
    rw [decState_succ, ih (by omega)]
    have hm : NR - 1 - k = NR - 1 - (k + 1) + 1 := by omega
    rw [hm, encState_succ]
    rcases hgood (NR - 1 - (k + 1)) (by omega) with ⟨hl, hb⟩
    have h1 : (subBytes (encState (keyExpansion NK NR key) data (NR - 1 - (k + 1)))).length
        = 16 := by rw [subBytes_length, hl]
    have h2 : (shiftRows (subBytes
        (encState (keyExpansion NK NR key) data (NR - 1 - (k + 1))))).length = 16 :=
      shiftRows_length _ h1
    have h2b : ∀ b ∈ shiftRows (subBytes
        (encState (keyExpansion NK NR key) data (NR - 1 - (k + 1)))), b < 256 :=
      shiftRows_lt _ h1 (subBytes_lt _)
    have h3 : (mixColumns (shiftRows (subBytes
        (encState (keyExpansion NK NR key) data (NR - 1 - (k + 1)))))).length = 16 :=
      mixColumns_length _ h2
    have h3b : ∀ b ∈ mixColumns (shiftRows (subBytes
        (encState (keyExpansion NK NR key) data (NR - 1 - (k + 1))))), b < 256 :=
      mixColumns_lt _ h2 h2b
    have h4 : (addRoundKey (mixColumns (shiftRows (subBytes
        (encState (keyExpansion NK NR key) data (NR - 1 - (k + 1)))))) (keyExpansion NK NR key)
        (NR - 1 - (k + 1) + 1)).length = 16 := addRoundKey_length _ _ _ h3 (by omega)
    have h4b : ∀ b ∈ addRoundKey (mixColumns (shiftRows (subBytes
        (encState (keyExpansion NK NR key) data (NR - 1 - (k + 1)))))) (keyExpansion NK NR key)
        (NR - 1 - (k + 1) + 1), b < 256 := addRoundKey_lt _ _ _ h3b hwb
    rw [invShiftRows_shiftRows _ (by rw [subBytes_length]; exact h4)]
    rw [invSubBytes_subBytes _ h4b]
    rw [addRoundKey_cancel _ _ _ h3 (by omega)]
    rw [invMixColumns_mixColumns _ h2 h2b]

/-- AES block decryption inverts AES block encryption, for any round count
and any key schedule built from a byte key (covers AES-128/192/256 via
`(NK, NR) = (4, 10), (6, 12), (8, 14)`). -/
theorem aes_decrypt_encrypt (NK NR : Nat) (data key : List Nat) (hNK : 0 < NK)
    (hNKR : NK ≤ 4 * (NR + 1)) (hd : data.length = 16) (hdb : ∀ b ∈ data, b < 256)
    (hk : key.length = 4 * NK) (hkb : ∀ b ∈ key, b < 256) :
    decrypt NK NR (encrypt NK NR data key) key = data := by
  have hwlen : (keyExpansion NK NR key).length = 16 * (NR + 1) := by
    rcases keyExpansion_good NK NR key hNK hk hkb with ⟨h, _⟩
    rw [h]
    omega
  have hwb : ∀ b ∈ keyExpansion NK NR key, b < 256 :=
    (keyExpansion_good NK NR key hNK hk hkb).2
  have hgood := encState_good (keyExpansion NK NR key) data NR hd hdb hwlen hwb
  rw [decrypt_eq_decState,
    decState_unwind NK NR data key hNK hNKR hd hdb hk hkb (NR - 1) le_rfl, Nat.sub_self]
  rcases hgood 0 (by omega) with ⟨hl0, hb0⟩
  have h1 : (subBytes (encState (keyExpansion NK NR key) data 0)).length = 16 := by
    rw [subBytes_length, hl0]
  rw [invShiftRows_shiftRows _ h1, invSubBytes_subBytes _ hb0, encState_zero]
  exact addRoundKey_cancel _ _ _ hd (by omega)

end Aes


theorem chunkList_flatten_blocks (B : Nat) (hB : 0 < B) :
    ∀ bs : List (List Nat), (∀ b ∈ bs, b.length = B) → chunkList B bs.flatten = bs := by
  intro bs
  induction bs with
  | nil => intro _; rfl
  | cons b bs ih =>
    intro hall
    have hb : b.length = B := hall b (by simp)
    have hne : (b :: bs).flatten ≠ [] := by
      rw [List.flatten_cons]
      intro h
      rcases List.append_eq_nil.mp h with ⟨h1, _⟩
      rw [h1] at hb
      simp at hb
      omega
    rw [List.flatten_cons, chunkList_cons B _ hB (by rw [← List.flatten_cons]; exact hne)]
    rw [← hb, List.take_left, List.drop_left, hb]
    rw [ih (fun c hc => hall c (by simp [hc]))]

theorem chunkList_subset (B : Nat) (hB : 0 < B) :
    ∀ l : List Nat, ∀ c ∈ chunkList B l, ∀ x ∈ c, x ∈ l := by
  suffices H : ∀ n, ∀ l : List Nat, l.length ≤ n → ∀ c ∈ chunkList B l, ∀ x ∈ c, x ∈ l by
    exact fun l => H l.length l le_rfl
  intro n
  induction n with
  | zero =>
    intro l h
    have : l = [] := List.eq_nil_of_length_eq_zero (by omega)
    subst this
    simp [chunkList_nil]
  | succ n ih =>
    intro l h c hc x hx
    cases l with
    | nil => simp [chunkList_nil] at hc
    | cons a l =>
      rw [chunkList_cons B _ hB (by simp)] at hc
      rcases List.mem_cons.mp hc with rfl | hc
      · exact List.take_subset _ _ hx
      · exact List.drop_subset _ _
          (ih _ (by simp only [List.length_drop, List.length_cons] at h ⊢; omega) c hc x hx)

theorem pad_length_mod (x : List Nat) (n : Nat) (h0 : 0 < n) :
    (x ++ List.replicate (n - x.length % n) (n - x.length % n)).length % n = 0 := by
  have hr : x.length % n < n := Nat.mod_lt x.length h0
  have hmle : x.length % n ≤ x.length := Nat.mod_le x.length n
  have hlen : (x ++ List.replicate (n - x.length % n) (n - x.length % n)).length
      = x.length + (n - x.length % n) := by simp
  rw [hlen, show x.length + (n - x.length % n) = (x.length - x.length % n) + n by omega,
    Nat.add_mod_right,
    show x.length - x.length % n = n * (x.length / n) by
      have := Nat.div_add_mod x.length n
      omega,
    Nat.mul_mod_right]

theorem pad_bytes (x : List Nat) (n : Nat) (h1 : n < 256) (hx : ∀ b ∈ x, b < 256) :
    ∀ b ∈ x ++ List.replicate (n - x.length % n) (n - x.length % n), b < 256 := by
  intro b hb
  rcases List.mem_append.mp hb with hb | hb
  · exact hx b hb
  · rw [List.eq_of_mem_replicate hb]
    omega

namespace Ecb

theorem blocks_eq_map (B : Nat) (cip : List Nat → List Nat → List Nat) (key : List Nat) :
    ∀ cs : List (List Nat), (∀ c ∈ cs, c.length = B) →
      blocks B cip key cs = some (cs.map fun c => cip c key) := by
  intro cs
  induction cs with
  | nil => intro _; rfl
  | cons c cs ih =>
    intro hall
    show (if c.length = B then (blocks B cip key cs).map (cip c key :: ·) else none) = _
    rw [if_pos (hall c (by simp)), ih (fun c2 h => hall c2 (by simp [h]))]
    rfl

/-- ECB round trip, generic over a block cipher that preserves 16ish blocks
and is inverted by its decryption. -/
theorem ecb_roundtrip (B : Nat) (enc dec : List Nat → List Nat → List Nat) (key : List Nat)
    (hB : 0 < B) (h256 : B < 256)
    (hencG : ∀ b, b.length = B → (∀ x ∈ b, x < 256) →
      (enc b key).length = B ∧ ∀ x ∈ enc b key, x < 256)
    (hinv : ∀ b, b.length = B → (∀ x ∈ b, x < 256) → dec (enc b key) key = b)
    (data : List Nat) (hdb : ∀ x ∈ data, x < 256) :
    ∃ ct, encrypt B enc data key = some ct ∧ decrypt B dec ct key = some (Except.ok data) := by
  set padded := data ++ List.replicate (B - data.length % B) (B - data.length % B) with hpad
  have hpadb : ∀ b ∈ padded, b < 256 := pad_bytes data B h256 hdb
  have hpadmod : padded.length % B = 0 := pad_length_mod data B hB
  have hchlen : ∀ c ∈ chunkList B padded, c.length = B :=
    chunkList_full B hB padded (Nat.dvd_of_mod_eq_zero hpadmod)
  have hchb : ∀ c ∈ chunkList B padded, ∀ x ∈ c, x < 256 :=
    fun c hc x hx => hpadb x (chunkList_subset B hB padded c hc x hx)
  have hmaplen : ∀ b ∈ (chunkList B padded).map (fun c => enc c key), b.length = B := by
    intro b hb
    rcases List.mem_map.mp hb with ⟨c, hc, rfl⟩
    exact (hencG c (hchlen c hc) (hchb c hc)).1
  refine ⟨((chunkList B padded).map fun c => enc c key).flatten, ?_, ?_⟩
  · unfold encrypt
    rw [Pkcs7.pad_eq data B hB h256]
    show (blocks B enc key (chunkList B padded)).map List.flatten = _
    rw [blocks_eq_map B enc key _ hchlen]
    rfl
  · unfold decrypt
    have hmapinv : (chunkList B padded).map ((fun c => dec c key) ∘ fun c => enc c key)
        = chunkList B padded := by
      conv_rhs => rw [← List.map_id (chunkList B padded)]
      apply List.map_congr_left
      intro c hc
      exact hinv c (hchlen c hc) (hchb c hc)
    rw [chunkList_flatten_blocks B hB _ hmaplen, blocks_eq_map B dec key _ hmaplen,
      Option.some_bind, List.map_map, hmapinv, chunkList_flatten B hB padded, hpad,
      Pkcs7.unpad_pad data B hB h256]

end Ecb

namespace Cbc

theorem chain_roundtrip (B : Nat) (enc dec : List Nat → List Nat → List Nat) (key : List Nat)
    (hencG : ∀ b, b.length = B → (∀ x ∈ b, x < 256) →
      (enc b key).length = B ∧ ∀ x ∈ enc b key, x < 256)
    (hinv : ∀ b, b.length = B → (∀ x ∈ b, x < 256) → dec (enc b key) key = b) :
    ∀ cs : List (List Nat), (∀ c ∈ cs, c.length = B ∧ ∀ x ∈ c, x < 256) →
      ∀ prev, prev.length = B → (∀ x ∈ prev, x < 256) →
      ∃ bs, encGo B enc key prev cs = some bs
        ∧ (∀ b ∈ bs, b.length = B ∧ ∀ x ∈ b, x < 256)
        ∧ decGo B dec key prev bs = some cs := by
  intro cs
  induction cs with
  | nil => exact fun _ prev _ _ => ⟨[], rfl, by simp, rfl⟩
  | cons c cs ih =>
    intro hall prev hprevlen hprevb
    rcases hall c (by simp) with ⟨hclen, hcb⟩
    have hxlen : (List.zipWith (fun a b => a ^^^ b) c prev).length = B := by
      rw [List.length_zipWith, hclen, hprevlen, Nat.min_self]
    have hxb : ∀ x ∈ List.zipWith (fun a b => a ^^^ b) c prev, x < 256 :=
      Aes.zipWith_xor_lt c prev hcb hprevb
    rcases hencG _ hxlen hxb with ⟨hctlen, hctb⟩
    rcases ih (fun c2 h => hall c2 (by simp [h])) (enc (List.zipWith (fun a b => a ^^^ b) c prev) key)
      hctlen hctb with ⟨bs, hbs, hbsgood, hdec⟩
    refine ⟨enc (List.zipWith (fun a b => a ^^^ b) c prev) key :: bs, ?_, ?_, ?_⟩
    · show (if c.length = B then _ else none) = _
      rw [if_pos hclen, hbs]
      rfl
    · intro b hb
      rcases List.mem_cons.mp hb with rfl | hb
      · exact ⟨hctlen, hctb⟩
      · exact hbsgood b hb
    · show (if (enc (List.zipWith (fun a b => a ^^^ b) c prev) key).length = B then
        (decGo B dec key (enc (List.zipWith (fun a b => a ^^^ b) c prev) key) bs).map _
        else none) = _
      rw [if_pos hctlen, hdec]
      show some _ = _
      rw [hinv _ hxlen hxb]
      rw [Aes.zipWith_xor_cancel c prev (by omega)]

/-- CBC round trip, generic over a suitable block cipher. -/
theorem cbc_roundtrip (B : Nat) (enc dec : List Nat → List Nat → List Nat) (key iv : List Nat)
    (hB : 0 < B) (h256 : B < 256)
    (hencG : ∀ b, b.length = B → (∀ x ∈ b, x < 256) →
      (enc b key).length = B ∧ ∀ x ∈ enc b key, x < 256)
    (hinv : ∀ b, b.length = B → (∀ x ∈ b, x < 256) → dec (enc b key) key = b)
    (hivlen : iv.length = B) (hivb : ∀ x ∈ iv, x < 256)
    (data : List Nat) (hdb : ∀ x ∈ data, x < 256) :
    ∃ ct, encrypt B enc iv data key = some ct
      ∧ decrypt B dec iv ct key = some (Except.ok data) := by
  set padded := data ++ List.replicate (B - data.length % B) (B - data.length % B) with hpad
  have hpadb : ∀ b ∈ padded, b < 256 := pad_bytes data B h256 hdb
  have hpadmod : padded.length % B = 0 := pad_length_mod data B hB
  have hchlen : ∀ c ∈ chunkList B padded, c.length = B :=
    chunkList_full B hB padded (Nat.dvd_of_mod_eq_zero hpadmod)
  have hchb : ∀ c ∈ chunkList B padded, ∀ x ∈ c, x < 256 :=
    fun c hc x hx => hpadb x (chunkList_subset B hB padded c hc x hx)
  rcases chain_roundtrip B enc dec key hencG hinv (chunkList B padded)
      (fun c hc => ⟨hchlen c hc, hchb c hc⟩) iv hivlen hivb with ⟨bs, hbs, hbsgood, hdec⟩
  refine ⟨bs.flatten, ?_, ?_⟩
  · unfold encrypt
    rw [Pkcs7.pad_eq data B hB h256]
    show (encGo B enc key iv (chunkList B padded)).map List.flatten = _
    rw [hbs]
    rfl
  · unfold decrypt
    rw [chunkList_flatten_blocks B hB bs (fun b hb => (hbsgood b hb).1), hdec]
    show Pkcs7.unpad (chunkList B padded).flatten B = _
    rw [chunkList_flatten B hB padded, hpad, Pkcs7.unpad_pad data B hB h256]

end Cbc

namespace Ctr

theorem encrypt_zip (B : Nat) (enc : List Nat → List Nat → List Nat) (nonce : Nat)
    (data key : List Nat) (hB : 0 < B)
    (henc : ∀ b, b.length = B → (enc b key).length = B) :
    (keystreamTake B enc key nonce data.length).length = data.length
    ∧ encrypt B enc nonce data key = some (List.zipWith (fun a b => a ^^^ b) data
        (keystreamTake B enc key nonce data.length)) := by
  have hjoinlen : (((List.range data.length).map fun j =>
      enc (ctrBlock B ((nonce + j) % 2 ^ 64)) key)).flatten.length
        = data.length * B := by
    rw [List.length_flatten, List.map_map]
    have h : ∀ j ∈ List.range data.length,
        ((fun l => List.length l) ∘ fun j =>
          enc (ctrBlock B ((nonce + j) % 2 ^ 64)) key) j = B :=
      fun j _ => henc _ (ctrBlock_length B _)
    rw [List.map_congr_left h, List.map_const', List.sum_replicate, List.length_range,
      smul_eq_mul]
  have hkslen : (keystreamTake B enc key nonce data.length).length = data.length := by
    unfold keystreamTake
    rw [List.length_take, hjoinlen]
    exact Nat.min_eq_left (Nat.le_mul_of_pos_right _ hB)
  refine ⟨hkslen, ?_⟩
  unfold encrypt
  rw [Otp.cipher_eq_zipWith _ _ (by rw [hkslen])]

/-- CTR round trip: decryption applies the identical keystream again. -/
theorem ctr_roundtrip (B : Nat) (enc : List Nat → List Nat → List Nat) (key : List Nat)
    (nonce : Nat) (hB : 0 < B) (henc : ∀ b, b.length = B → (enc b key).length = B)
    (data : List Nat) :
    ∃ ct, encrypt B enc nonce data key = some ct ∧ decrypt B enc nonce ct key = some data := by
  rcases encrypt_zip B enc nonce data key hB henc with ⟨hkslen, henceq⟩
  set ks := keystreamTake B enc key nonce data.length with hks
  set ct := List.zipWith (fun a b => a ^^^ b) data ks with hct
  have hctlen : ct.length = data.length := by
    rw [hct, List.length_zipWith, hkslen, Nat.min_self]
  refine ⟨ct, henceq, ?_⟩
  have hdec : decrypt B enc nonce ct key = encrypt B enc nonce ct key := rfl
  rcases encrypt_zip B enc nonce ct key hB henc with ⟨_, henceq2⟩
  rw [hdec, henceq2]
  rw [show keystreamTake B enc key nonce ct.length = ks by rw [hctlen, hks]]
  rw [hct, Aes.zipWith_xor_cancel data ks (by omega)]

end Ctr


namespace Aes

theorem encState_length (w data : List Nat) (NR : Nat) (hd : data.length = 16)
    (hwlen : w.length = 16 * (NR + 1)) :
    ∀ m, m ≤ NR - 1 → (encState w data m).length = 16 := by
  intro m
  induction m with
  | zero =>
    intro _
    exact addRoundKey_length _ _ _ hd (by omega)
  | succ m ih =>
    intro hm
    have ihl := ih (by omega)
    rw [encState_succ]
    have h1 : (subBytes (encState w data m)).length = 16 := by rw [subBytes_length, ihl]
    exact addRoundKey_length _ _ _ (mixColumns_length _ (shiftRows_length _ h1)) (by omega)

theorem aes_encrypt_length (NK NR : Nat) (data key : List Nat) (hNK : 0 < NK)
    (hNKR : NK ≤ 4 * (NR + 1)) (hd : data.length = 16) (hk : key.length = 4 * NK)
    (hkb : ∀ b ∈ key, b < 256) : (encrypt NK NR data key).length = 16 := by
  have hwlen : (keyExpansion NK NR key).length = 16 * (NR + 1) := by
    rcases keyExpansion_good NK NR key hNK hk hkb with ⟨h, _⟩
    rw [h]
    omega
  rw [encrypt_eq_encState]
  have hl := encState_length (keyExpansion NK NR key) data NR hd hwlen (NR - 1) le_rfl
  have h1 : (subBytes (encState (keyExpansion NK NR key) data (NR - 1))).length = 16 := by
    rw [subBytes_length, hl]
  exact addRoundKey_length _ _ _ (shiftRows_length _ h1) (by omega)

theorem aes_encrypt_good (NK NR : Nat) (data key : List Nat) (hNK : 0 < NK)
    (hNKR : NK ≤ 4 * (NR + 1)) (hd : data.length = 16) (hdb : ∀ b ∈ data, b < 256)
    (hk : key.length = 4 * NK) (hkb : ∀ b ∈ key, b < 256) :
    (encrypt NK NR data key).length = 16 ∧ ∀ b ∈ encrypt NK NR data key, b < 256 := by
  have hwlen : (keyExpansion NK NR key).length = 16 * (NR + 1) := by
    rcases keyExpansion_good NK NR key hNK hk hkb with ⟨h, _⟩
    rw [h]
    omega
  have hwb : ∀ b ∈ keyExpansion NK NR key, b < 256 :=
    (keyExpansion_good NK NR key hNK hk hkb).2
  rw [encrypt_eq_encState]
  rcases encState_good (keyExpansion NK NR key) data NR hd hdb hwlen hwb (NR - 1) le_rfl
    with ⟨hl, hb⟩
  have h1 : (subBytes (encState (keyExpansion NK NR key) data (NR - 1))).length = 16 := by
    rw [subBytes_length, hl]
  exact ⟨addRoundKey_length _ _ _ (shiftRows_length _ h1) (by omega),
    addRoundKey_lt _ _ _ (shiftRows_lt _ h1 (subBytes_lt _)) hwb⟩

end Aes

/-- Claim C2: for every byte sequence `m`, every supported AES key (128-,
192- or 256-bit, i.e. `(NK, NR)` one of `(4,10), (6,12), (8,14)`), every IV
and every nonce, decrypt ∘ encrypt returns the original message for the
ECB, CBC and CTR modes instantiated over AES with PKCS#7 padding. -/
theorem claim_C2_aes_modes_roundtrip (NK NR : Nat)
    (hvariant : (NK, NR) = (4, 10) ∨ (NK, NR) = (6, 12) ∨ (NK, NR) = (8, 14))
    (m k iv : List Nat) (nonce : Nat)
    (hm : ∀ x ∈ m, x < 256) (hk : k.length = 4 * NK) (hkb : ∀ x ∈ k, x < 256)
    (hiv : iv.length = 16) (hivb : ∀ x ∈ iv, x < 256) :
    (∃ ct, Ecb.encrypt 16 (Aes.encrypt NK NR) m k = some ct ∧
      Ecb.decrypt 16 (Aes.decrypt NK NR) ct k = some (Except.ok m))
    ∧ (∃ ct, Cbc.encrypt 16 (Aes.encrypt NK NR) iv m k = some ct ∧
      Cbc.decrypt 16 (Aes.decrypt NK NR) iv ct k = some (Except.ok m))
    ∧ (∃ ct, Ctr.encrypt 16 (Aes.encrypt NK NR) nonce m k = some ct ∧
      Ctr.decrypt 16 (Aes.encrypt NK NR) nonce ct k = some m) := by
  have hNK : 0 < NK := by
    rcases hvariant with h | h | h <;> (simp [Prod.ext_iff] at h; omega)
  have hNKR : NK ≤ 4 * (NR + 1) := by
    rcases hvariant with h | h | h <;> (simp [Prod.ext_iff] at h; omega)
  have hencG : ∀ b, b.length = 16 → (∀ x ∈ b, x < 256) →
      (Aes.encrypt NK NR b k).length = 16 ∧ ∀ x ∈ Aes.encrypt NK NR b k, x < 256 :=
    fun b hb hxb => Aes.aes_encrypt_good NK NR b k hNK hNKR hb hxb hk hkb
  have hinv : ∀ b, b.length = 16 → (∀ x ∈ b, x < 256) →
      Aes.decrypt NK NR (Aes.encrypt NK NR b k) k = b :=
    fun b hb hxb => Aes.aes_decrypt_encrypt NK NR b k hNK hNKR hb hxb hk hkb
  refine ⟨Ecb.ecb_roundtrip 16 _ _ k (by omega) (by omega) hencG hinv m hm,
    Cbc.cbc_roundtrip 16 _ _ k iv (by omega) (by omega) hencG hinv hiv hivb m hm,
    Ctr.ctr_roundtrip 16 _ k nonce (by omega)
      (fun b hb => Aes.aes_encrypt_length NK NR b k hNK hNKR hb hk hkb) m⟩

/-- Witness for C2: AES-128 on a 2-byte message with the zero key. -/
theorem claim_C2_aes_modes_roundtrip_witness :
    (∃ ct, Ecb.encrypt 16 (Aes.encrypt 4 10) [1, 2] (List.replicate 16 0) = some ct ∧
      Ecb.decrypt 16 (Aes.decrypt 4 10) ct (List.replicate 16 0) = some (Except.ok [1, 2]))
    ∧ (∃ ct, Cbc.encrypt 16 (Aes.encrypt 4 10) (List.replicate 16 3) [1, 2]
        (List.replicate 16 0) = some ct ∧
      Cbc.decrypt 16 (Aes.decrypt 4 10) (List.replicate 16 3) ct (List.replicate 16 0)
        = some (Except.ok [1, 2]))
    ∧ (∃ ct, Ctr.encrypt 16 (Aes.encrypt 4 10) 7 [1, 2] (List.replicate 16 0) = some ct ∧
      Ctr.decrypt 16 (Aes.encrypt 4 10) 7 ct (List.replicate 16 0) = some [1, 2]) :=
  claim_C2_aes_modes_roundtrip 4 10 (Or.inl rfl) [1, 2] (List.replicate 16 0)
    (List.replicate 16 3) 7 (by decide)
    (by rw [List.length_replicate])
    (fun x hx => by rw [List.eq_of_mem_replicate hx]; omega)
    (by rw [List.length_replicate])
    (fun x hx => by rw [List.eq_of_mem_replicate hx]; omega)


namespace Sha2

/-- `u64::to_be_bytes` (big-endian), as used by `LengthPadding::pad`. -/
def be64 (x : Nat) : List Nat :=
  (List.range 8).map fun i => x / 2 ^ (8 * (7 - i)) % 256

/-- The body of the `flat_map` closure in `LengthPadding::pad`
(src/hash/sha2.rs lines 535-559); `totalLen` is the captured
`preimage.0.len()`.  A full chunk passes through; a chunk with less than 9
free bytes becomes two blocks (the `0x80` marker block and a block ending in
the big-endian bit length); otherwise marker, zeros and bit length fit in
one block. -/
def padChunk (totalLen : Nat) (chunk : List Nat) : List (List Nat) :=
  if chunk.length = 64 then [chunk]
  else if 64 - chunk.length ≤ 8 then
    [chunk ++ 0x80 :: List.replicate (64 - chunk.length - 1) 0,
     List.replicate 56 0 ++ be64 (8 * totalLen)]
  else
    [chunk ++ 0x80 :: (List.replicate (64 - (chunk.length + 1) - 8) 0 ++ be64 (8 * totalLen))]

/-- `LengthPadding::pad` generalized over the captured total length: chunk
the data into 64-byte blocks, append one empty chunk when the length is a
multiple of 64, and pad each chunk with `padChunk`. -/
def lengthPadGo (totalLen : Nat) (data : List Nat) : List (List Nat) :=
  ((chunkList 64 data ++ if data.length % 64 = 0 then [[]] else []).map
    (padChunk totalLen)).flatten

/-- `LengthPadding::pad` (src/hash/sha2.rs lines 519-561). -/
def lengthPad (m : List Nat) : List (List Nat) := lengthPadGo m.length m

theorem be64_length (x : Nat) : (be64 x).length = 8 := by
  simp [be64]

theorem lengthPadGo_spec (totalLen : Nat) :
    ∀ data : List Nat,
      (lengthPadGo totalLen data).flatten
        = data ++ 0x80 :: (List.replicate (64 * ((data.length + 8) / 64 + 1)
            - data.length - 9) 0 ++ be64 (8 * totalLen))
      ∧ (lengthPadGo totalLen data).length
        = (data.length + 63) / 64
          + (if data.length % 64 = 0 ∨ 56 ≤ data.length % 64 then 1 else 0) := by
  suffices H : ∀ n, ∀ data : List Nat, data.length ≤ n →
      (lengthPadGo totalLen data).flatten
        = data ++ 0x80 :: (List.replicate (64 * ((data.length + 8) / 64 + 1)
            - data.length - 9) 0 ++ be64 (8 * totalLen))
      ∧ (lengthPadGo totalLen data).length
        = (data.length + 63) / 64
          + (if data.length % 64 = 0 ∨ 56 ≤ data.length % 64 then 1 else 0) by
    exact fun data => H data.length data le_rfl
  intro n
  induction n with
  | zero =>
    intro data h
    have hdata : data = [] := List.eq_nil_of_length_eq_zero (by omega)
    subst hdata
    constructor
    · rfl
    · rfl
  | succ n ih =>
    intro data hn
    rcases lt_or_ge data.length 64 with hlt | hge
    · -- the final (short or empty) chunk
      rcases Nat.eq_zero_or_pos data.length with h0 | hpos
      · have hdata : data = [] := List.eq_nil_of_length_eq_zero h0
        subst hdata
        exact ⟨rfl, rfl⟩
      · have hchunk : chunkList 64 data = [data] := by
          rw [chunkList_cons 64 data (by omega) (by
            intro h
            rw [h] at hpos
            simp at hpos)]
          rw [List.take_of_length_le (by omega), List.drop_eq_nil_of_le (by omega),
            chunkList_nil]
        have hmod : ¬ data.length % 64 = 0 := by omega
        unfold lengthPadGo
        rw [hchunk, if_neg hmod, List.append_nil, List.map_cons, List.map_nil,
          List.flatten_cons, List.flatten_nil, List.append_nil]
        unfold padChunk
        rw [if_neg (by omega)]
        rcases lt_or_ge data.length 56 with h56 | h56
        · rw [if_neg (by omega)]
          constructor
          · rw [List.flatten_cons, List.flatten_nil, List.append_nil]
            have hz : 64 - (data.length + 1) - 8
                = 64 * ((data.length + 8) / 64 + 1) - data.length - 9 := by omega
            rw [hz]
          · have : (data.length + 63) / 64 = 1 := by omega
            rw [this, if_neg (by omega)]
            simp
        · rw [if_pos (by omega)]
          constructor
          · rw [List.flatten_cons, List.flatten_cons, List.flatten_nil, List.append_nil,
              List.append_assoc]
            have hz : 64 * ((data.length + 8) / 64 + 1) - data.length - 9
                = (64 - data.length - 1) + 56 := by omega
            rw [hz, List.replicate_add, List.cons_append, List.append_assoc]
          · have : (data.length + 63) / 64 = 1 := by omega
            rw [this, if_pos (by omega)]
            simp
    · -- peel off one full 64-byte chunk
      have hne : data ≠ [] := by
        intro h
        rw [h] at hge
        simp at hge
      have htake : (data.take 64).length = 64 := by
        rw [List.length_take]
        omega
      have hdroplen : (data.drop 64).length = data.length - 64 := by
        rw [List.length_drop]
      have hstep : lengthPadGo totalLen data
          = data.take 64 :: lengthPadGo totalLen (data.drop 64) := by
        unfold lengthPadGo
        rw [chunkList_cons 64 data (by omega) hne]
        have hmodeq : data.length % 64 = (data.drop 64).length % 64 := by
          rw [hdroplen]
          omega
        rw [hmodeq, List.cons_append, List.map_cons, List.flatten_cons]
        unfold padChunk
        rw [if_pos htake]
        rfl
      rcases ih (data.drop 64) (by omega) with ⟨ih1, ih2⟩
      constructor
      · rw [hstep, List.flatten_cons, ih1, ← List.append_assoc, List.take_append_drop]
        have hz : 64 * (((data.drop 64).length + 8) / 64 + 1) - (data.drop 64).length - 9
            = 64 * ((data.length + 8) / 64 + 1) - data.length - 9 := by
          rw [hdroplen]
          omega
        rw [hz]
      · rw [hstep, List.length_cons, ih2, hdroplen]
        have h1 : (data.length - 64) % 64 = data.length % 64 := by omega
        have h2 : (data.length - 64 + 63) / 64 + 1 = (data.length + 63) / 64 := by omega
        rw [h1]
        omega

/-- Claim C8: the concatenation of the blocks produced by the SHA-1/SHA-2
length padding is the message, then `0x80`, then zeros, then the 64-bit
big-endian bit length; the total is a multiple of 64 bytes; and exactly one
extra block appears when the `0x80` marker plus the 8 length bytes do not
fit in the final partial block (including when the length is a multiple of
64). -/
theorem claim_C8_length_padding (m : List Nat) (hfit : 8 * m.length < 2 ^ 64) :
    (lengthPad m).flatten
      = m ++ 0x80 :: (List.replicate (64 * ((m.length + 8) / 64 + 1) - m.length - 9) 0
          ++ be64 (8 * m.length))
    ∧ (lengthPad m).flatten.length % 64 = 0
    ∧ (lengthPad m).length
        = (m.length + 63) / 64
          + (if m.length % 64 = 0 ∨ 56 ≤ m.length % 64 then 1 else 0) := by
  rcases lengthPadGo_spec m.length m with ⟨h1, h2⟩
  refine ⟨h1, ?_, h2⟩
  show (lengthPadGo m.length m).flatten.length % 64 = 0
  rw [h1, List.length_append, List.length_cons, List.length_append,
    List.length_replicate, be64_length]
  omega

/-- Witness for C8 at `m = [1, 2, 3]`. -/
theorem claim_C8_length_padding_witness :
    (lengthPad [1, 2, 3]).flatten
      = [1, 2, 3] ++ 0x80 :: (List.replicate
          (64 * ((([1, 2, 3] : List Nat).length + 8) / 64 + 1)
            - ([1, 2, 3] : List Nat).length - 9) 0
          ++ be64 (8 * ([1, 2, 3] : List Nat).length))
    ∧ (lengthPad [1, 2, 3]).flatten.length % 64 = 0
    ∧ (lengthPad [1, 2, 3]).length
        = (([1, 2, 3] : List Nat).length + 63) / 64
          + (if ([1, 2, 3] : List Nat).length % 64 = 0
              ∨ 56 ≤ ([1, 2, 3] : List Nat).length % 64 then 1 else 0) :=
  claim_C8_length_padding [1, 2, 3] (by norm_num)

end Sha2


namespace Ecc

/-! Shallow embedding of src/pubkey/ecc (num.rs, ecc.rs, ecdsa.rs,
secp256k1.rs).  A `Num` (`[u64; 4]`) is a `List Nat` of four 64-bit words,
least significant first; the generic digit routines in num.rs work on any
width, so they take plain lists.  Panics (`unwrap`, failed `assert!`) are
`Option.none`.  The `assert!(N >= P)` in `reduce` compares const-generic
widths and holds at every instantiation in the crate (widths 4, 5 and 8
against 4), so `reduceWords` omits it. -/

/-- One step of `sub` (num.rs lines 273-314): `a.overflowing_sub(b)` plus
borrow handling, on 64-bit digits. -/
def subDigit (a b : Nat) (borrow : Bool) : Nat × Bool :=
  let s := (a + 2 ^ 64 - b) % 2 ^ 64
  if a < b then
    (if borrow then s - 1 else s, true)
  else
    let bor := if borrow then 1 else 0
    if s < bor then ((s + 2 ^ 64 - bor) % 2 ^ 64, true)
    else (s - bor, false)

/-- `sub` (num.rs): digit-wise subtraction with borrow, LSB first. -/
def subWords : List Nat → List Nat → Bool → List Nat × Bool
  | [], _, borrow => ([], borrow)
  | _ :: _, [], borrow => ([], borrow)
  | a :: as, b :: bs, borrow =>
    let d := subDigit a b borrow
    let rest := subWords as bs d.2
    (d.1 :: rest.1, rest.2)

/-- One step of `add` (num.rs lines 318-340): `a.overflowing_add(b)` plus
carry handling. -/
def addDigit (a b : Nat) (carry : Bool) : Nat × Bool :=
  let add := (a + b) % 2 ^ 64
  let overflow := decide (2 ^ 64 ≤ a + b)
  let rc := if carry then ((add + 1) % 2 ^ 64, decide (2 ^ 64 ≤ add + 1)) else (add, false)
  (rc.1, rc.2 || overflow)

/-- `add` (num.rs): digit-wise addition with carry, LSB first. -/
def addWords : List Nat → List Nat → Bool → List Nat × Bool
  | [], _, carry => ([], carry)
  | _ :: _, [], carry => ([], carry)
  | a :: as, b :: bs, carry =>
    let d := addDigit a b carry
    let rest := addWords as bs d.2
    (d.1 :: rest.1, rest.2)

/-- Helper for `shl`: the running `msb` flag is the bit shifted out of the
previous digit. -/
def shlGo : List Nat → Bool → List Nat
  | [], _ => []
  | d :: ds, msb =>
    (2 * d % 2 ^ 64 + if msb then 1 else 0) :: shlGo ds (Nat.testBit d 63)

/-- `shl` (num.rs lines 393-406): shift all bits left by one. -/
def shl (n : List Nat) : List Nat := shlGo n false

/-- `get_bit` (num.rs lines 411-415).  The index is in range at every call
site (`i < 64 * n.length`), so `getD` never takes its default. -/
def get_bit (n : List Nat) (i : Nat) : Bool :=
  Nat.testBit (n.getD (i / 64) 0) (i % 64)

/-- `set_bit` (num.rs lines 420-425). -/
def set_bit (n : List Nat) (i : Nat) : List Nat :=
  n.set (i / 64) (n.getD (i / 64) 0 ||| 2 ^ (i % 64))

/-- One iteration of the long-division loop in `div` (num.rs lines 344-381),
at bit index `i`. -/
def divGo (n d : List Nat) (qr : List Nat × List Nat) (i : Nat) : List Nat × List Nat :=
  let r0 := shl qr.2
  let r := if get_bit n i then set_bit r0 0 else r0
  let s := subWords r d false
  if s.2 then (qr.1, r) else (set_bit qr.1 i, s.1)

/-- `div` (num.rs): binary long division, returning quotient and remainder. -/
def divWords (n d : List Nat) : List Nat × List Nat :=
  ((List.range (n.length * 64)).reverse).foldl (divGo n d)
    (List.replicate n.length 0, List.replicate n.length 0)

/-- `util::resize` (util.rs lines 6-10): truncate or zero-extend to `r`
elements. -/
def resizeTo (r : Nat) (n : List Nat) : List Nat :=
  n.take r ++ List.replicate (r - n.length) 0

/-- `reduce` (num.rs lines 385-389): divide by `p` resized to the width of
`n` and resize the remainder back to the width of `p`. -/
def reduceWords (n p : List Nat) : List Nat :=
  resizeTo p.length (divWords n (resizeTo n.length p)).2

namespace Num

/-- `Num::ZERO`. -/
def zero : List Nat := [0, 0, 0, 0]

/-- `Num::ONE`. -/
def one : List Nat := [1, 0, 0, 0]

/-- `Num::TWO`. -/
def two : List Nat := [2, 0, 0, 0]

/-- `Num::THREE`. -/
def three : List Nat := [3, 0, 0, 0]

/-- `Num::SEVEN`. -/
def seven : List Nat := [7, 0, 0, 0]

/-- `Num::from_le_bytes` (num.rs lines 33-41): 32 little-endian bytes to
four 64-bit words. -/
def from_le_bytes (b : List Nat) : List Nat :=
  (chunkList 8 b).map fun c => c.foldr (fun x acc => acc * 256 + x) 0

/-- `Num::to_le_bytes` (num.rs lines 43-50). -/
def to_le_bytes (n : List Nat) : List Nat :=
  (n.map fun w => (List.range 8).map fun i => w / 2 ^ (8 * i) % 256).flatten

/-- `Num::add` (num.rs lines 54-67): modular addition; on carry the sum is
extended by a most significant word equal to 1 before reducing. -/
def add (a n p : List Nat) : List Nat :=
  let s := addWords a n false
  if s.2 then reduceWords (s.1 ++ [1]) p else reduceWords s.1 p

/-- `Num::sub` (num.rs lines 71-86): modular subtraction.  On borrow the
modulus is added back and the code asserts the addition carries; a failed
assert is a panic, hence `none`. -/
def sub (a n p : List Nat) : Option (List Nat) :=
  let s := subWords a n false
  if s.2 then
    let t := addWords s.1 p false
    if t.2 then some t.1 else none
  else some s.1

/-- Inner loop of `Num::mul` (num.rs lines 90-106): multiply digit `a`
(row `i`) into the running product, LSB first, tracking the carry; the
final carry lands at `prod[i + WIDTH]`. -/
def mulRowGo (a i : Nat) : List Nat → Nat → Nat → List Nat → List Nat
  | [], j, carry, prod => prod.set (i + j) carry
  | b :: bs, j, carry, prod =>
    let m := prod.getD (i + j) 0 + a * b + carry
    mulRowGo a i bs (j + 1) (m / 2 ^ 64) (prod.set (i + j) (m % 2 ^ 64))

/-- Outer loop of `Num::mul`: one row per digit of the left factor. -/
def mulGo (n : List Nat) : List Nat → Nat → List Nat → List Nat
  | [], _, prod => prod
  | a :: as, i, prod => mulGo n as (i + 1) (mulRowGo a i n 0 0 prod)

/-- `Num::mul`: schoolbook product into a double-width accumulator,
followed by reduction. -/
def mul (a n p : List Nat) : List Nat :=
  reduceWords (mulGo n a 0 (List.replicate (2 * 4) 0)) p

/-- `Num::eq` (num.rs lines 109-111): modular equality. -/
def eqb (a n p : List Nat) : Bool :=
  reduceWords a p == reduceWords n p

/-- The `while` loop of `Num::inv` (num.rs lines 212-230), with explicit
fuel.  Running out of fuel yields `none`; callers pass fuel larger than the
number of iterations of the Euclidean algorithm, which strictly decreases
`u`. -/
def invGo (p : List Nat) : Nat → List Nat → List Nat → List Nat → List Nat → Option (List Nat)
  | 0, _, _, _, _ => none
  | fuel + 1, u, v, x1, x2 =>
    if u = Num.zero then some x2
    else
      let qr := divWords v u
      match Num.sub x2 (Num.mul qr.1 x1 p) p with
      | none => none
      | some x => invGo p fuel qr.2 u x x1

/-- Numeric value of a word list (LSB first); used only to size fuel. -/
def natOfWords (n : List Nat) : Nat :=
  n.foldr (fun w acc => acc * 2 ^ 64 + w) 0

/-- `Num::inv` (num.rs lines 212-230): extended Euclidean inverse;
`None` for zero. -/
def inv (a p : List Nat) : Option (List Nat) :=
  if a = Num.zero then none
  else
    let u := reduceWords a p
    invGo p (natOfWords u + 1) u p Num.one Num.zero

/-- The loop of `Ord::cmp` (num.rs lines 245-257): compare digits MSB
first. -/
def cmpGo : List (Nat × Nat) → Ordering
  | [] => Ordering.eq
  | (a, b) :: rest =>
    if a < b then Ordering.lt else if b < a then Ordering.gt else cmpGo rest

/-- `Ord::cmp` for `Num`. -/
def cmp (a b : List Nat) : Ordering := cmpGo ((a.zip b).reverse)

end Num

/-- `Coordinates` (ecc.rs): finite point or the point at infinity. -/
inductive Coordinates where
  | infinity : Coordinates
  | finite : List Nat → List Nat → Coordinates
deriving DecidableEq

/-- A `Curve` impl (ecc.rs trait `Curve`): the constants plus `g()`, whose
body may panic (`Point::new(..).unwrap()` in secp256k1.rs), hence
`Option`. -/
structure CurveData where
  SIZE : Nat
  P : List Nat
  N : List Nat
  A : List Nat
  B : List Nat
  g : Option Coordinates

/-- `Point::new` (ecc.rs lines 185-195): accept `(x, y)` iff it satisfies
the curve equation; the comparison is structural equality of the reduced
results, as in the source. -/
def pointNew (P A B x y : List Nat) : Except Unit Coordinates :=
  let y2 := Num.mul y y P
  let x3 := Num.mul (Num.mul x x P) x P
  let ax := Num.mul A x P
  if y2 = Num.add (Num.add x3 ax P) B P then Except.ok (Coordinates.finite x y)
  else Except.error ()

/-- `Point::add` (ecc.rs lines 142-176): the group operation, with `none`
for any panic (`Num::sub` assert or the final `Point::new(..).unwrap()`). -/
def pointAdd (C : CurveData) : Coordinates → Coordinates → Option Coordinates
  | Coordinates.infinity, other => some other
  | other, Coordinates.infinity => some other
  | Coordinates.finite x1 y1, Coordinates.finite x2 y2 =>
    if x1 = x2 ∧ y1 = y2 then
      match Num.inv (Num.mul Num.two y1 C.P) C.P with
      | none => some Coordinates.infinity
      | some i =>
        let h := Num.mul (Num.mul (Num.mul Num.three x1 C.P) x1 C.P) i C.P
        (Num.sub (Num.mul h h C.P) (Num.mul Num.two x1 C.P) C.P).bind fun x =>
        (Num.sub x1 x C.P).bind fun s =>
        (Num.sub (Num.mul h s C.P) y1 C.P).bind fun y =>
        match pointNew C.P C.A C.B x y with
        | Except.ok pt => some pt
        | Except.error _ => none
    else
      (Num.sub x2 x1 C.P).bind fun d =>
      match Num.inv d C.P with
      | none => some Coordinates.infinity
      | some i =>
        (Num.sub y2 y1 C.P).bind fun dy =>
        let h := Num.mul dy i C.P
        (Num.sub (Num.mul h h C.P) x1 C.P).bind fun t =>
        (Num.sub t x2 C.P).bind fun x =>
        (Num.sub x1 x C.P).bind fun s =>
        (Num.sub (Num.mul h s C.P) y1 C.P).bind fun y =>
        match pointNew C.P C.A C.B x y with
        | Except.ok pt => some pt
        | Except.error _ => none

/-- The loop of `Point::scale` (ecc.rs lines 215-225): double-and-add over
bits `i`, `i+1`, ... with `fuel` iterations remaining (`fuel + i = 256`). -/
def scaleGo (C : CurveData) (n : List Nat) : Nat → Nat → Coordinates → Coordinates → Option Coordinates
  | 0, _, _, result => some result
  | fuel + 1, i, s, result =>
    (if get_bit n i then pointAdd C result s else some result).bind fun result1 =>
    (pointAdd C s s).bind fun s1 =>
    scaleGo C n fuel (i + 1) s1 result1

/-- `Point::scale` (ecc.rs): multiply the point by a 256-bit scalar. -/
def scale (C : CurveData) (p : Coordinates) (n : List Nat) : Option Coordinates :=
  scaleGo C n 256 0 p Coordinates.infinity

/-- `Secp256k1::P` (secp256k1.rs). -/
def secpP : List Nat :=
  [0xFFFFFFFEFFFFFC2F, 0xFFFFFFFFFFFFFFFF, 0xFFFFFFFFFFFFFFFF, 0xFFFFFFFFFFFFFFFF]

/-- `Secp256k1::N` (secp256k1.rs). -/
def secpN : List Nat :=
  [0xBFD25E8CD0364141, 0xBAAEDCE6AF48A03B, 0xFFFFFFFFFFFFFFFE, 0xFFFFFFFFFFFFFFFF]

/-- x-coordinate of the secp256k1 generator. -/
def secpGx : List Nat :=
  [0x59F2815B16F81798, 0x029BFCDB2DCE28D9, 0x55A06295CE870B07, 0x79BE667EF9DCBBAC]

/-- y-coordinate of the secp256k1 generator. -/
def secpGy : List Nat :=
  [0x9C47D08FFB10D4B8, 0xFD17B448A6855419, 0x5DA4FBFC0E1108A8, 0x483ADA7726A3C465]

/-- The `Curve` impl for `Secp256k1` (secp256k1.rs lines 6-44). -/
def Secp256k1 : CurveData :=
  ⟨32, secpP, secpN, Num.zero, Num.seven,
    match pointNew secpP Num.zero Num.seven secpGx secpGy with
    | Except.ok pt => some pt
    | Except.error _ => none⟩

/-- `Signature` (ecdsa.rs lines 185-190). -/
structure Signature where
  r : List Nat
  s : List Nat
deriving DecidableEq

/-- `Signature::new` (ecdsa.rs lines 201-212): accept iff `r < N` and
`s < N`. -/
def Signature.new (N r s : List Nat) : Except Unit Signature :=
  if Num.cmp r N = Ordering.lt ∧ Num.cmp s N = Ordering.lt then Except.ok ⟨r, s⟩
  else Except.error ()

/-- `PrivateKey::new` (ecdsa.rs lines 149-158). -/
def PrivateKey.new (N n : List Nat) : Except Unit (List Nat) :=
  if Num.cmp n N = Ordering.lt then Except.ok n else Except.error ()

/-- `PublicKey::derive` (ecdsa.rs lines 180-182): `key * C::g()`. -/
def PublicKey.derive (C : CurveData) (key : List Nat) : Option Coordinates :=
  match C.g with
  | none => none
  | some gp => scale C gp key

/-- `Ecdsa::verify` (ecdsa.rs lines 108-129), generic over the hash as the
source is generic over `H`.  `none` is a panic: the failed
`assert!(DIGEST_SIZE >= C::SIZE)`, the `sig.s.inv(C::N).unwrap()`, a panic
inside the point arithmetic, or a panicking `C::g()`. -/
def Ecdsa.verify (digestSize : Nat) (hash : List Nat → List Nat) (C : CurveData)
    (key : Coordinates) (msg : List Nat) (sig : Signature) : Option (Except Unit Unit) :=
  if C.SIZE ≤ digestSize then
    let e := Num.from_le_bytes (resizeTo 32 (hash msg))
    match Num.inv sig.s C.N with
    | none => none
    | some i =>
      let u := Num.mul e i C.N
      let v := Num.mul sig.r i C.N
      match C.g with
      | none => none
      | some gp =>
        match (scale C gp u).bind fun a => (scale C key v).bind fun b => pointAdd C a b with
        | none => none
        | some (Coordinates.finite x _) =>
          some (if Num.eqb x sig.r C.N then Except.ok () else Except.error ())
        | some Coordinates.infinity => some (Except.error ())
  else none

/-- The `'retry` loop of `Ecdsa::sign` (ecdsa.rs lines 88-105), with
explicit fuel since the source loop has no termination proof; running out
of fuel is `none` (a modeling artifact, not a panic). -/
def Ecdsa.signGo (hash : List Nat → List Nat) (C : CurveData) (e key : List Nat) :
    Nat → List Nat → Option Signature
  | 0, _ => none
  | fuel + 1, k =>
    let k1 := Num.from_le_bytes (resizeTo 32 (hash (Num.to_le_bytes k)))
    match C.g with
    | none => none
    | some gp =>
      match scale C gp k1 with
      | none => none
      | some Coordinates.infinity => Ecdsa.signGo hash C e key fuel k1
      | some (Coordinates.finite x _) =>
        let s1 := Num.add e (Num.mul x key C.N) C.N
        match Num.inv k1 C.N with
        | none => none
        | some ki =>
          let s := Num.mul ki s1 C.N
          if s = Num.zero then Ecdsa.signGo hash C e key fuel k1
          else some ⟨x, s⟩

/-- `Ecdsa::sign` (ecdsa.rs lines 78-106). -/
def Ecdsa.sign (digestSize : Nat) (hash : List Nat → List Nat) (C : CurveData)
    (fuel : Nat) (key msg : List Nat) : Option Signature :=
  if C.SIZE ≤ digestSize then
    let e := Num.from_le_bytes (resizeTo 32 (hash msg))
    Ecdsa.signGo hash C e key fuel
      (Num.from_le_bytes (resizeTo 32 (hash (msg ++ Num.to_le_bytes key))))
  else none

end Ecc


/-- Claim C3 states that for every signature accepted by `Signature::new`,
every public key and every message, `verify` returns `Ok` or
`Err(InvalidSignature)` and never panics.  This theorem refutes it:
`Signature::new` accepts any `(r, 0)` with `r < N`, and on such a signature
`verify` reaches `sig.s.inv(C::N).unwrap()` with `inv` returning `None`, a
panic (`none`), for every hash, digest size ≥ 32, public key and message. -/
theorem claim_C3_verify_s_zero (digestSize : Nat) (hash : List Nat → List Nat)
    (key : Ecc.Coordinates) (msg : List Nat) (r : List Nat)
    (hsize : 32 ≤ digestSize) (hr : Ecc.Num.cmp r Ecc.secpN = Ordering.lt) :
    Ecc.Signature.new Ecc.secpN r Ecc.Num.zero = Except.ok ⟨r, Ecc.Num.zero⟩
    ∧ Ecc.Ecdsa.verify digestSize hash Ecc.Secp256k1 key msg ⟨r, Ecc.Num.zero⟩ = none := by
  constructor
  · rw [Ecc.Signature.new, if_pos ⟨hr, by decide⟩]
  · have hS : Ecc.Secp256k1.SIZE = 32 := rfl
    rw [Ecc.Ecdsa.verify, hS, if_pos hsize]
    rfl

/-- Witness for C3: digest size 32 (as with `Sha3_256`), a constant hash,
the point at infinity as public key (`PublicKey::new` accepts any point),
the empty message and `r = 1`. -/
theorem claim_C3_verify_s_zero_witness :
    32 ≤ 32 ∧ Ecc.Num.cmp Ecc.Num.one Ecc.secpN = Ordering.lt
    ∧ (Ecc.Signature.new Ecc.secpN Ecc.Num.one Ecc.Num.zero
        = Except.ok ⟨Ecc.Num.one, Ecc.Num.zero⟩
      ∧ Ecc.Ecdsa.verify 32 (fun _ => List.replicate 32 0) Ecc.Secp256k1
          Ecc.Coordinates.infinity [] ⟨Ecc.Num.one, Ecc.Num.zero⟩ = none) :=
  ⟨by decide, by decide,
    claim_C3_verify_s_zero 32 (fun _ => List.replicate 32 0) Ecc.Coordinates.infinity []
      Ecc.Num.one (by decide) (by decide)⟩

/-- Concrete counterexample to claim C3, proved by direct evaluation: the
signature `(1, 0)` passes `Signature::new`, yet `verify` panics (`none`) on
it instead of returning `Ok` or `Err`. -/
theorem claim_C3_counterexample :
    Ecc.Signature.new Ecc.secpN Ecc.Num.one Ecc.Num.zero
        = Except.ok ⟨Ecc.Num.one, Ecc.Num.zero⟩
    ∧ Ecc.Ecdsa.verify 32 (fun _ => List.replicate 32 0) Ecc.Secp256k1
        Ecc.Coordinates.infinity [] ⟨Ecc.Num.one, Ecc.Num.zero⟩ = none :=
  ⟨by rfl, by rfl⟩

/-- Claim C4 states that every signature accepted by `Signature::new` has
`r` and `s` reduced mod N and non-zero.  What the code actually checks is
only `r < N && s < N`: any such pair is accepted, with no non-zero check. -/
theorem claim_C4_sig_new_accepts (N r s : List Nat)
    (hr : Ecc.Num.cmp r N = Ordering.lt) (hs : Ecc.Num.cmp s N = Ordering.lt) :
    Ecc.Signature.new N r s = Except.ok ⟨r, s⟩ := by
  rw [Ecc.Signature.new, if_pos ⟨hr, hs⟩]

/-- Witness for the C4 acceptance theorem at `N` of secp256k1 and
`r = s = 0`. -/
theorem claim_C4_sig_new_accepts_witness :
    Ecc.Num.cmp Ecc.Num.zero Ecc.secpN = Ordering.lt
    ∧ Ecc.Signature.new Ecc.secpN Ecc.Num.zero Ecc.Num.zero
        = Except.ok ⟨Ecc.Num.zero, Ecc.Num.zero⟩ :=
  ⟨by decide,
    claim_C4_sig_new_accepts Ecc.secpN Ecc.Num.zero Ecc.Num.zero (by decide) (by decide)⟩

/-- Concrete counterexample to claim C4, proved by direct evaluation:
`Signature::new` accepts the all-zero signature `(0, 0)`, although the
claim requires both components of an accepted signature to be non-zero. -/
theorem claim_C4_counterexample :
    Ecc.Signature.new Ecc.secpN Ecc.Num.zero Ecc.Num.zero
      = Except.ok ⟨Ecc.Num.zero, Ecc.Num.zero⟩ := by
  rfl


namespace Ecc

/-! Semantics of the word-level routines: each list of 64-bit words denotes
the natural number `Num.natOfWords` reads off LSB-first. -/

/-- Numeric value of a carry/borrow flag. -/
def bval (b : Bool) : Nat := if b then 1 else 0

/-- All entries are 64-bit words. -/
def good64 (l : List Nat) : Prop := ∀ x ∈ l, x < 2 ^ 64

theorem good64_nil : good64 [] := by
  intro x hx
  simp at hx

theorem good64_cons {w : Nat} {l : List Nat} :
    good64 (w :: l) ↔ w < 2 ^ 64 ∧ good64 l := by
  simp [good64]

theorem natOfWords_nil : Num.natOfWords [] = 0 := rfl

theorem natOfWords_cons (w : Nat) (l : List Nat) :
    Num.natOfWords (w :: l) = Num.natOfWords l * 2 ^ 64 + w := rfl

theorem pow64_succ (n : Nat) : 2 ^ (64 * (n + 1)) = 2 ^ (64 * n) * 2 ^ 64 := by
  rw [Nat.mul_succ, pow_add]

theorem natOfWords_lt : ∀ {l : List Nat}, good64 l →
    Num.natOfWords l < 2 ^ (64 * l.length)
  | [], _ => by simp [natOfWords_nil]
  | w :: l, h => by
    rcases good64_cons.mp h with ⟨hw, hl⟩
    have ih := natOfWords_lt hl
    rw [natOfWords_cons, List.length_cons, pow64_succ]
    have h1 : Num.natOfWords l * 2 ^ 64 ≤ (2 ^ (64 * l.length) - 1) * 2 ^ 64 :=
      Nat.mul_le_mul_right _ (by omega)
    have h2 : 1 ≤ 2 ^ (64 * l.length) := Nat.one_le_two_pow
    omega

theorem natOfWords_append : ∀ (a b : List Nat),
    Num.natOfWords (a ++ b)
      = Num.natOfWords a + 2 ^ (64 * a.length) * Num.natOfWords b
  | [], b => by simp [natOfWords_nil]
  | w :: as, b => by
    rw [List.cons_append, natOfWords_cons, natOfWords_cons, natOfWords_append as b,
      List.length_cons, pow64_succ]
    ring

theorem natOfWords_replicate_zero : ∀ (k : Nat),
    Num.natOfWords (List.replicate k 0) = 0
  | 0 => rfl
  | k + 1 => by
    rw [List.replicate_succ, natOfWords_cons, natOfWords_replicate_zero k]
    omega

theorem good64_replicate_zero (k : Nat) : good64 (List.replicate k 0) := by
  intro x hx
  rw [List.eq_of_mem_replicate hx]
  exact Nat.pos_pow_of_pos _ (by omega)

theorem natOfWords_inj : ∀ {a b : List Nat}, good64 a → good64 b →
    a.length = b.length → Num.natOfWords a = Num.natOfWords b → a = b
  | [], [], _, _, _, _ => rfl
  | a :: as, b :: bs, ha, hb, hlen, hv => by
    rcases good64_cons.mp ha with ⟨ha1, ha2⟩
    rcases good64_cons.mp hb with ⟨hb1, hb2⟩
    rw [natOfWords_cons, natOfWords_cons] at hv
    have he : a = b ∧ Num.natOfWords as = Num.natOfWords bs := by
      constructor <;> omega
    rw [he.1, natOfWords_inj ha2 hb2 (by simpa using hlen) he.2]

theorem resizeTo_length (r : Nat) (n : List Nat) : (resizeTo r n).length = r := by
  simp [resizeTo]
  omega

theorem resizeTo_good {r : Nat} {n : List Nat} (h : good64 n) : good64 (resizeTo r n) := by
  intro x hx
  rcases List.mem_append.mp hx with h1 | h1
  · exact h x (List.mem_of_mem_take h1)
  · rw [List.eq_of_mem_replicate h1]
    exact Nat.pos_pow_of_pos _ (by omega)

theorem natOfWords_resizeTo_of_le {r : Nat} {n : List Nat} (h : n.length ≤ r) :
    Num.natOfWords (resizeTo r n) = Num.natOfWords n := by
  rw [resizeTo, List.take_of_length_le h, natOfWords_append, natOfWords_replicate_zero,
    Nat.mul_zero, Nat.add_zero]

theorem natOfWords_resizeTo_of_lt : ∀ {r : Nat} {n : List Nat}, good64 n →
    Num.natOfWords n < 2 ^ (64 * r) →
    Num.natOfWords (resizeTo r n) = Num.natOfWords n
  | 0, n, _, h => by
    rw [resizeTo, List.take_zero, List.nil_append, natOfWords_replicate_zero]
    simp at h
    omega
  | r + 1, [], _, _ => by
    rw [resizeTo, List.take_nil, List.nil_append, natOfWords_replicate_zero, natOfWords_nil]
  | r + 1, w :: l, hg, h => by
    rcases good64_cons.mp hg with ⟨hw, hl⟩
    have hstep : resizeTo (r + 1) (w :: l) = w :: resizeTo r l := by
      rw [resizeTo, resizeTo, List.take_succ_cons, List.length_cons, List.cons_append]
      have hc : r + 1 - (l.length + 1) = r - l.length := by omega
      rw [hc]
    rw [hstep, natOfWords_cons, natOfWords_cons]
    rw [natOfWords_cons, pow64_succ] at h
    have hlt : Num.natOfWords l < 2 ^ (64 * r) := by
      by_contra hc
      push_neg at hc
      have := Nat.mul_le_mul_right (2 ^ 64) hc
      omega
    rw [natOfWords_resizeTo_of_lt hl hlt]

theorem subDigit_spec (a b : Nat) (c : Bool) (ha : a < 2 ^ 64) (hb : b < 2 ^ 64) :
    (subDigit a b c).1 + b + bval c = a + 2 ^ 64 * bval (subDigit a b c).2
    ∧ (subDigit a b c).1 < 2 ^ 64 := by
  have hs : (a + 2 ^ 64 - b) % 2 ^ 64 = a + 2 ^ 64 - b - (if a < b then 0 else 2 ^ 64) := by
    by_cases hab : a < b
    · rw [if_pos hab]
      exact Nat.mod_eq_of_lt (by omega)
    · rw [if_neg hab]
      have he : a + 2 ^ 64 - b = (a - b) + 2 ^ 64 := by omega
      rw [he, Nat.add_mod_right, Nat.mod_eq_of_lt (by omega)]
      omega
  rcases c <;>
    simp only [subDigit, bval, if_true, if_false, hs] <;>
    split_ifs <;>
    simp_all <;>
    omega

theorem bval_decide (P : Prop) [inst : Decidable P] :
    bval (decide P) = if P then 1 else 0 := by
  by_cases h : P <;> simp [bval, h]

theorem subWords_spec : ∀ (a b : List Nat) (c : Bool), a.length = b.length →
    good64 a → good64 b →
    Num.natOfWords (subWords a b c).1 + Num.natOfWords b + bval c
      = Num.natOfWords a + 2 ^ (64 * a.length) * bval (subWords a b c).2
    ∧ good64 (subWords a b c).1 ∧ (subWords a b c).1.length = a.length
  | [], [], c, _, _, _ => by
    simp [subWords, natOfWords_nil, good64_nil]
  | a :: as, b :: bs, c, hlen, ha, hb => by
    rcases good64_cons.mp ha with ⟨ha1, ha2⟩
    rcases good64_cons.mp hb with ⟨hb1, hb2⟩
    have hunfold : subWords (a :: as) (b :: bs) c
        = ((subDigit a b c).1 :: (subWords as bs (subDigit a b c).2).1,
           (subWords as bs (subDigit a b c).2).2) := rfl
    rcases subDigit_spec a b c ha1 hb1 with ⟨hd1, hd2⟩
    rcases subWords_spec as bs (subDigit a b c).2 (by simpa using hlen) ha2 hb2 with
      ⟨hr1, hr2, hr3⟩
    rw [hunfold]
    refine ⟨?_, good64_cons.mpr ⟨hd2, hr2⟩, by simp [hr3]⟩
    rw [natOfWords_cons, natOfWords_cons, natOfWords_cons, List.length_cons, pow64_succ]
    zify at hd1 hr1 ⊢
    linear_combination (2 : ℤ) ^ 64 * hr1 + hd1

theorem addDigit_eq (a b : Nat) (c : Bool) :
    addDigit a b c = ((a + b + bval c) % 2 ^ 64, decide (2 ^ 64 ≤ a + b + bval c)) := by
  rcases c
  · rfl
  · show (((a + b) % 2 ^ 64 + 1) % 2 ^ 64,
        (decide (2 ^ 64 ≤ (a + b) % 2 ^ 64 + 1) || decide (2 ^ 64 ≤ a + b)))
      = ((a + b + 1) % 2 ^ 64, decide (2 ^ 64 ≤ a + b + 1))
    have h1 : ((a + b) % 2 ^ 64 + 1) % 2 ^ 64 = (a + b + 1) % 2 ^ 64 := by
      rw [Nat.mod_add_mod]
    have h2 : (decide (2 ^ 64 ≤ (a + b) % 2 ^ 64 + 1) || decide (2 ^ 64 ≤ a + b))
        = decide (2 ^ 64 ≤ a + b + 1) := by
      rw [← Bool.decide_or]
      refine decide_eq_decide.mpr ?_
      omega
    rw [h1, h2]

theorem addDigit_spec (a b : Nat) (c : Bool) (ha : a < 2 ^ 64) (hb : b < 2 ^ 64) :
    (addDigit a b c).1 + 2 ^ 64 * bval (addDigit a b c).2 = a + b + bval c
    ∧ (addDigit a b c).1 < 2 ^ 64 := by
  rw [addDigit_eq a b c, bval_decide]
  have hc : bval c ≤ 1 := by rcases c <;> simp [bval]
  constructor
  · split_ifs with h <;> omega
  · exact Nat.mod_lt _ (by norm_num)

theorem addWords_spec : ∀ (a b : List Nat) (c : Bool), a.length = b.length →
    good64 a → good64 b →
    Num.natOfWords (addWords a b c).1 + 2 ^ (64 * a.length) * bval (addWords a b c).2
      = Num.natOfWords a + Num.natOfWords b + bval c
    ∧ good64 (addWords a b c).1 ∧ (addWords a b c).1.length = a.length
  | [], [], c, _, _, _ => by
    simp [addWords, natOfWords_nil, good64_nil]
  | a :: as, b :: bs, c, hlen, ha, hb => by
    rcases good64_cons.mp ha with ⟨ha1, ha2⟩
    rcases good64_cons.mp hb with ⟨hb1, hb2⟩
    have hunfold : addWords (a :: as) (b :: bs) c
        = ((addDigit a b c).1 :: (addWords as bs (addDigit a b c).2).1,
           (addWords as bs (addDigit a b c).2).2) := rfl
    rcases addDigit_spec a b c ha1 hb1 with ⟨hd1, hd2⟩
    rcases addWords_spec as bs (addDigit a b c).2 (by simpa using hlen) ha2 hb2 with
      ⟨hr1, hr2, hr3⟩
    rw [hunfold]
    refine ⟨?_, good64_cons.mpr ⟨hd2, hr2⟩, by simp [hr3]⟩
    rw [natOfWords_cons, natOfWords_cons, natOfWords_cons, List.length_cons, pow64_succ]
    zify at hd1 hr1 ⊢
    linear_combination (2 : ℤ) ^ 64 * hr1 + hd1

end Ecc


namespace Ecc

theorem testBit63_eq (d : Nat) (hd : d < 2 ^ 64) :
    bval (Nat.testBit d 63) = 2 * d / 2 ^ 64 := by
  rw [Nat.testBit_to_div_mod, bval_decide]
  split_ifs with h <;> omega

theorem mod_mul_add64 (a r M : Nat) (hM : 0 < M) (hr : r < 2 ^ 64) :
    (a * 2 ^ 64 + r) % (M * 2 ^ 64) = (a % M) * 2 ^ 64 + r := by
  have hx : a % M < M := Nat.mod_lt _ hM
  have h1 : r < M * 2 ^ 64 := by
    have : 1 * 2 ^ 64 ≤ M * 2 ^ 64 := Nat.mul_le_mul_right _ hM
    omega
  rw [Nat.add_mod, Nat.mul_mod_mul_right, Nat.mod_eq_of_lt h1, Nat.mod_eq_of_lt]
  have h2 : (a % M) * 2 ^ 64 ≤ (M - 1) * 2 ^ 64 := Nat.mul_le_mul_right _ (by omega)
  have h3 : (M - 1) * 2 ^ 64 = M * 2 ^ 64 - 2 ^ 64 := by
    rw [Nat.sub_mul, Nat.one_mul]
  omega

theorem shlGo_spec : ∀ (l : List Nat) (m : Bool), good64 l →
    Num.natOfWords (shlGo l m)
      = (2 * Num.natOfWords l + bval m) % 2 ^ (64 * l.length)
    ∧ good64 (shlGo l m) ∧ (shlGo l m).length = l.length
  | [], m => by
    intro _
    refine ⟨?_, good64_nil, rfl⟩
    rcases m <;> simp [shlGo, natOfWords_nil, bval]
  | d :: ds, m => by
    intro hg
    rcases good64_cons.mp hg with ⟨hd, hds⟩
    rcases shlGo_spec ds (Nat.testBit d 63) hds with ⟨ih1, ih2, ih3⟩
    have hb63 : bval (Nat.testBit d 63) = 2 * d / 2 ^ 64 := testBit63_eq d hd
    have hword : 2 * d % 2 ^ 64 + bval m < 2 ^ 64 := by
      rcases m <;> simp [bval] <;> omega
    refine ⟨?_, good64_cons.mpr ⟨hword, ih2⟩, by simp [shlGo, ih3]⟩
    show Num.natOfWords ((2 * d % 2 ^ 64 + bval m) :: shlGo ds (Nat.testBit d 63)) = _
    rw [natOfWords_cons, ih1, hb63, natOfWords_cons, List.length_cons, pow64_succ]
    have hM : 0 < 2 ^ (64 * ds.length) := Nat.pos_pow_of_pos _ (by omega)
    have hsplit : 2 * (Num.natOfWords ds * 2 ^ 64 + d) + bval m
        = (2 * Num.natOfWords ds + 2 * d / 2 ^ 64) * 2 ^ 64 + (2 * d % 2 ^ 64 + bval m) := by
      have := Nat.div_add_mod (2 * d) (2 ^ 64)
      have hb : bval m ≤ 1 := by rcases m <;> simp [bval]
      have hco : (2 * Num.natOfWords ds + 2 * d / 2 ^ 64) * 2 ^ 64
          = 2 * Num.natOfWords ds * 2 ^ 64 + 2 * d / 2 ^ 64 * 2 ^ 64 := by
        rw [Nat.add_mul]
      omega
    rw [hsplit, mod_mul_add64 _ _ _ hM hword]

theorem shl_spec (l : List Nat) (hg : good64 l)
    (hv : 2 * Num.natOfWords l < 2 ^ (64 * l.length)) :
    Num.natOfWords (shl l) = 2 * Num.natOfWords l
    ∧ good64 (shl l) ∧ (shl l).length = l.length := by
  rcases shlGo_spec l false hg with ⟨h1, h2, h3⟩
  rw [shl]
  refine ⟨?_, h2, h3⟩
  rw [h1]
  show (2 * Num.natOfWords l + 0) % _ = _
  rw [Nat.add_zero, Nat.mod_eq_of_lt hv]

theorem get_bit_spec : ∀ (l : List Nat) (i : Nat), good64 l →
    get_bit l i = Nat.testBit (Num.natOfWords l) i
  | [], i => by
    intro _
    simp [get_bit, natOfWords_nil]
  | w :: l, i => by
    intro hg
    rcases good64_cons.mp hg with ⟨hw, hl⟩
    have hform : Num.natOfWords (w :: l) = 2 ^ 64 * Num.natOfWords l + w := by
      rw [natOfWords_cons]
      ring
    rw [hform, Nat.testBit_mul_pow_two_add _ hw]
    by_cases hi : i < 64
    · rw [if_pos hi, get_bit, Nat.div_eq_of_lt hi, Nat.mod_eq_of_lt hi]
      rfl
    · rw [if_neg hi, get_bit]
      have h1 : i / 64 = (i - 64) / 64 + 1 := by omega
      have h2 : i % 64 = (i - 64) % 64 := by omega
      rw [h1, h2]
      show Nat.testBit (l.getD ((i - 64) / 64) 0) ((i - 64) % 64) = _
      rw [← get_bit, get_bit_spec l (i - 64) hl]

theorem lor_lt_two_pow {x y k : Nat} (hx : x < 2 ^ k) (hy : y < 2 ^ k) :
    x ||| y < 2 ^ k := by
  refine Nat.lt_pow_two_of_testBit _ fun i hi => ?_
  rw [Nat.testBit_or, Nat.testBit_lt_two_pow (lt_of_lt_of_le hx (Nat.pow_le_pow_right (by omega) hi)),
    Nat.testBit_lt_two_pow (lt_of_lt_of_le hy (Nat.pow_le_pow_right (by omega) hi))]
  rfl

theorem lor_two_pow_eq_add {w j : Nat} (h : Nat.testBit w j = false) :
    w ||| 2 ^ j = w + 2 ^ j := by
  have hb : w % 2 ^ j < 2 ^ j := Nat.mod_lt _ (Nat.pos_pow_of_pos _ (by omega))
  have hmod : w % 2 ^ (j + 1) = w % 2 ^ j := by
    have h1 : w % (2 ^ j * 2) = w % 2 ^ j + 2 ^ j * (w / 2 ^ j % 2) := Nat.mod_mul
    have h2 : w / 2 ^ j % 2 = 0 := by
      rw [Nat.testBit_to_div_mod] at h
      simpa using h
    rw [h2, Nat.mul_zero, Nat.add_zero] at h1
    rw [pow_succ]
    exact h1
  have hdm := Nat.div_add_mod w (2 ^ (j + 1))
  have hdecomp : w = 2 ^ (j + 1) * (w / 2 ^ (j + 1)) + w % 2 ^ j := by
    rw [← hmod]
    omega
  apply Nat.eq_of_testBit_eq
  intro k
  rw [Nat.testBit_or, Nat.testBit_two_pow]
  have hsum : w + 2 ^ j = 2 ^ (j + 1) * (w / 2 ^ (j + 1)) + (w % 2 ^ j + 2 ^ j) := by
    omega
  have hblt : w % 2 ^ j + 2 ^ j < 2 ^ (j + 1) := by
    rw [pow_succ]
    omega
  rw [hsum, Nat.testBit_mul_pow_two_add _ hblt]
  conv_lhs => rw [hdecomp]
  rw [Nat.testBit_mul_pow_two_add _ (lt_trans hb (by rw [pow_succ]; omega))]
  by_cases hk : k < j + 1
  · rw [if_pos hk, if_pos hk]
    have hb2 : w % 2 ^ j + 2 ^ j = 2 ^ j * 1 + w % 2 ^ j := by omega
    rw [hb2, Nat.testBit_mul_pow_two_add _ hb]
    by_cases hkj : k < j
    · rw [if_pos hkj]
      have : ¬ j = k := by omega
      simp [this]
    · have hkj2 : k = j := by omega
      subst hkj2
      rw [if_neg (by omega), Nat.sub_self]
      have : Nat.testBit (w % 2 ^ k) k = false := Nat.testBit_lt_two_pow hb
      simp [this]
  · rw [if_neg hk, if_neg hk]
    have : ¬ j = k := by omega
    simp [this]

theorem natOfWords_set : ∀ (l : List Nat) (k v : Nat), k < l.length →
    Num.natOfWords (l.set k v) + 2 ^ (64 * k) * l.getD k 0
      = Num.natOfWords l + 2 ^ (64 * k) * v
  | [], k, v, h => by simp at h
  | w :: l, 0, v, _ => by
    rw [List.set_cons_zero, natOfWords_cons, natOfWords_cons]
    simp
    ring
  | w :: l, k + 1, v, h => by
    rw [List.set_cons_succ, natOfWords_cons, natOfWords_cons, List.getD_cons_succ,
      pow64_succ]
    have ih := natOfWords_set l k v (by simpa using h)
    have hexp : 2 ^ (64 * k) * 2 ^ 64 * l.getD k 0
        = (2 ^ (64 * k) * l.getD k 0) * 2 ^ 64 := by ring
    have hexp2 : 2 ^ (64 * k) * 2 ^ 64 * v = (2 ^ (64 * k) * v) * 2 ^ 64 := by ring
    rw [hexp, hexp2]
    zify at ih ⊢
    linear_combination (2 : ℤ) ^ 64 * ih

theorem good64_set {l : List Nat} {k v : Nat} (hg : good64 l) (hv : v < 2 ^ 64) :
    good64 (l.set k v) := by
  intro x hx
  rcases List.mem_or_eq_of_mem_set hx with h | h
  · exact hg x h
  · omega

theorem getD_lt_of_good {l : List Nat} (hg : good64 l) (k : Nat) :
    l.getD k 0 < 2 ^ 64 := by
  by_cases hk : k < l.length
  · rw [List.getD_eq_getElem l 0 hk]
    exact hg _ (List.getElem_mem hk)
  · rw [List.getD_eq_default]
    · exact Nat.pos_pow_of_pos _ (by omega)
    · omega

theorem set_bit_spec {l : List Nat} {i : Nat} (hg : good64 l) (hi : i < 64 * l.length)
    (hbit : get_bit l i = false) :
    Num.natOfWords (set_bit l i) = Num.natOfWords l + 2 ^ i
    ∧ good64 (set_bit l i) ∧ (set_bit l i).length = l.length := by
  have hkl : i / 64 < l.length := by omega
  have hw : l.getD (i / 64) 0 < 2 ^ 64 := getD_lt_of_good hg _
  have hor : l.getD (i / 64) 0 ||| 2 ^ (i % 64)
      = l.getD (i / 64) 0 + 2 ^ (i % 64) := lor_two_pow_eq_add hbit
  have horlt : l.getD (i / 64) 0 ||| 2 ^ (i % 64) < 2 ^ 64 :=
    lor_lt_two_pow hw (Nat.pow_lt_pow_right (by omega) (by omega))
  refine ⟨?_, good64_set hg horlt, by simp [set_bit]⟩
  rw [set_bit, hor]
  have hset := natOfWords_set l (i / 64) (l.getD (i / 64) 0 + 2 ^ (i % 64)) hkl
  have hpow : 2 ^ (64 * (i / 64)) * 2 ^ (i % 64) = 2 ^ i := by
    rw [← pow_add]
    congr 1
    omega
  have hdistrib : 2 ^ (64 * (i / 64)) * (l.getD (i / 64) 0 + 2 ^ (i % 64))
      = 2 ^ (64 * (i / 64)) * l.getD (i / 64) 0 + 2 ^ i := by
    rw [Nat.mul_add, hpow]
  rw [hdistrib] at hset
  omega

end Ecc


namespace Ecc

theorem div_pow_succ_eq (x i : Nat) :
    x / 2 ^ i = 2 * (x / 2 ^ (i + 1)) + bval (Nat.testBit x i) := by
  have h1 : x / 2 ^ (i + 1) = x / 2 ^ i / 2 := by
    rw [Nat.div_div_eq_div_mul, ← pow_succ]
  rw [Nat.testBit_to_div_mod, bval_decide, h1]
  split_ifs with h <;> omega

theorem divGo_core (n d q r1 : List Nat) (i : Nat) (hgn : good64 n) (hgd : good64 d)
    (hlen : d.length = n.length) (hD : 0 < Num.natOfWords d) (hi : i < 64 * n.length)
    (hgq : good64 q) (hql : q.length = n.length)
    (hgr1 : good64 r1) (hrl1 : r1.length = n.length)
    (hqv : Num.natOfWords q
      = Num.natOfWords n / 2 ^ (i + 1) / Num.natOfWords d * 2 ^ (i + 1))
    (hr1v : Num.natOfWords r1
      = 2 * (Num.natOfWords n / 2 ^ (i + 1) % Num.natOfWords d)
        + bval (Nat.testBit (Num.natOfWords n) i)) :
    good64 (if (subWords r1 d false).2 then (q, r1)
        else (set_bit q i, (subWords r1 d false).1)).1
    ∧ good64 (if (subWords r1 d false).2 then (q, r1)
        else (set_bit q i, (subWords r1 d false).1)).2
    ∧ (if (subWords r1 d false).2 then (q, r1)
        else (set_bit q i, (subWords r1 d false).1)).1.length = n.length
    ∧ (if (subWords r1 d false).2 then (q, r1)
        else (set_bit q i, (subWords r1 d false).1)).2.length = n.length
    ∧ Num.natOfWords (if (subWords r1 d false).2 then (q, r1)
        else (set_bit q i, (subWords r1 d false).1)).1
      = Num.natOfWords n / 2 ^ i / Num.natOfWords d * 2 ^ i
    ∧ Num.natOfWords (if (subWords r1 d false).2 then (q, r1)
        else (set_bit q i, (subWords r1 d false).1)).2
      = Num.natOfWords n / 2 ^ i % Num.natOfWords d := by
  have hB : bval (Nat.testBit (Num.natOfWords n) i) ≤ 1 := by
    rcases Nat.testBit (Num.natOfWords n) i <;> simp [bval]
  have hRD : Num.natOfWords n / 2 ^ (i + 1) % Num.natOfWords d < Num.natOfWords d :=
    Nat.mod_lt _ hD
  have hsplit := Nat.div_add_mod (Num.natOfWords n / 2 ^ (i + 1)) (Num.natOfWords d)
  have hbits := div_pow_succ_eq (Num.natOfWords n) i
  rcases subWords_spec r1 d false (by omega) hgr1 hgd with ⟨hsv, hsg, hsl⟩
  have hs1lt : Num.natOfWords (subWords r1 d false).1 < 2 ^ (64 * r1.length) := by
    have := natOfWords_lt hsg
    rw [hsl] at this
    exact this
  have hNi : Num.natOfWords n / 2 ^ i
      = 2 * (Num.natOfWords d * (Num.natOfWords n / 2 ^ (i + 1) / Num.natOfWords d))
        + Num.natOfWords r1 := by
    omega
  rcases hbor : (subWords r1 d false).2
  · -- no borrow: d ≤ r1, subtract and set quotient bit i
    rw [hbor] at hsv
    simp [bval] at hsv
    have hDle : Num.natOfWords d ≤ Num.natOfWords r1 := by omega
    have hr1lt : Num.natOfWords r1 < 2 * Num.natOfWords d := by omega
    have hqbit : get_bit q i = false := by
      rw [get_bit_spec q i hgq, hqv]
      have hform : Num.natOfWords n / 2 ^ (i + 1) / Num.natOfWords d * 2 ^ (i + 1)
          = 2 ^ (i + 1) * (Num.natOfWords n / 2 ^ (i + 1) / Num.natOfWords d) + 0 := by
        ring
      rw [hform, Nat.testBit_mul_pow_two_add _ (Nat.pos_pow_of_pos _ (by omega)),
        if_pos (by omega)]
      simp
    rcases set_bit_spec hgq (by omega) hqbit with ⟨hsetv, hsetg, hsetl⟩
    rw [if_neg Bool.false_ne_true]
    refine ⟨hsetg, hsg, by rw [hsetl, hql], by rw [hsl, hrl1], ?_, ?_⟩
    · rw [hsetv, hqv]
      have hdiv : Num.natOfWords n / 2 ^ i / Num.natOfWords d
          = 2 * (Num.natOfWords n / 2 ^ (i + 1) / Num.natOfWords d) + 1 := by
        have hform : Num.natOfWords n / 2 ^ i
            = Num.natOfWords d
                * (2 * (Num.natOfWords n / 2 ^ (i + 1) / Num.natOfWords d) + 1)
              + (Num.natOfWords r1 - Num.natOfWords d) := by
          rw [Nat.mul_add, Nat.mul_one, Nat.mul_left_comm]
          omega
        have hlt2 : Num.natOfWords r1 - Num.natOfWords d < Num.natOfWords d := by omega
        rw [hform, Nat.mul_add_div hD, Nat.div_eq_of_lt hlt2]
      rw [hdiv, pow_succ]
      ring
    · show Num.natOfWords (subWords r1 d false).1
          = Num.natOfWords n / 2 ^ i % Num.natOfWords d
      have hform : Num.natOfWords n / 2 ^ i
          = Num.natOfWords d
              * (2 * (Num.natOfWords n / 2 ^ (i + 1) / Num.natOfWords d) + 1)
            + (Num.natOfWords r1 - Num.natOfWords d) := by
        rw [Nat.mul_add, Nat.mul_one, Nat.mul_left_comm]
        omega
      have hlt2 : Num.natOfWords r1 - Num.natOfWords d < Num.natOfWords d := by omega
      have hmod : Num.natOfWords n / 2 ^ i % Num.natOfWords d
          = Num.natOfWords r1 - Num.natOfWords d := by
        rw [hform, Nat.mul_add_mod, Nat.mod_eq_of_lt hlt2]
      rw [hmod]
      omega
  · -- borrow: r1 < d, keep quotient, remainder is r1
    rw [hbor] at hsv
    simp [bval] at hsv
    have hr1d : Num.natOfWords r1 < Num.natOfWords d := by
      omega
    rw [if_pos rfl]
    refine ⟨hgq, hgr1, hql, hrl1, ?_, ?_⟩
    · rw [hqv]
      have hdiv : Num.natOfWords n / 2 ^ i / Num.natOfWords d
          = 2 * (Num.natOfWords n / 2 ^ (i + 1) / Num.natOfWords d) := by
        have hform : Num.natOfWords n / 2 ^ i
            = Num.natOfWords d
                * (2 * (Num.natOfWords n / 2 ^ (i + 1) / Num.natOfWords d))
              + Num.natOfWords r1 := by
          rw [Nat.mul_left_comm]
          omega
        rw [hform, Nat.mul_add_div hD, Nat.div_eq_of_lt hr1d, Nat.add_zero]
      rw [hdiv, pow_succ]
      ring
    · have hform : Num.natOfWords n / 2 ^ i
          = Num.natOfWords d
              * (2 * (Num.natOfWords n / 2 ^ (i + 1) / Num.natOfWords d))
            + Num.natOfWords r1 := by
        rw [Nat.mul_left_comm]
        omega
      rw [hform, Nat.mul_add_mod, Nat.mod_eq_of_lt hr1d]

end Ecc


namespace Ecc

theorem divGo_step (n d : List Nat) (hgn : good64 n) (hgd : good64 d)
    (hlen : d.length = n.length) (hD : 0 < Num.natOfWords d)
    (i : Nat) (hi : i < 64 * n.length) (q r : List Nat)
    (hgq : good64 q) (hgr : good64 r) (hql : q.length = n.length) (hrl : r.length = n.length)
    (hqv : Num.natOfWords q
      = Num.natOfWords n / 2 ^ (i + 1) / Num.natOfWords d * 2 ^ (i + 1))
    (hrv : Num.natOfWords r = Num.natOfWords n / 2 ^ (i + 1) % Num.natOfWords d) :
    good64 (divGo n d (q, r) i).1 ∧ good64 (divGo n d (q, r) i).2
    ∧ (divGo n d (q, r) i).1.length = n.length
    ∧ (divGo n d (q, r) i).2.length = n.length
    ∧ Num.natOfWords (divGo n d (q, r) i).1
        = Num.natOfWords n / 2 ^ i / Num.natOfWords d * 2 ^ i
    ∧ Num.natOfWords (divGo n d (q, r) i).2
        = Num.natOfWords n / 2 ^ i % Num.natOfWords d := by
  have hN := natOfWords_lt hgn
  have hRle : Num.natOfWords r ≤ Num.natOfWords n / 2 ^ (i + 1) := by
    rw [hrv]
    exact Nat.mod_le _ _
  have hhalf : Num.natOfWords n / 2 ^ (i + 1) = Num.natOfWords n / 2 / 2 ^ i := by
    rw [Nat.div_div_eq_div_mul, ← pow_succ']
  have hhle : Num.natOfWords n / 2 ^ (i + 1) ≤ Num.natOfWords n / 2 := by
    rw [hhalf]
    exact Nat.div_le_self _ _
  have hshlb : 2 * Num.natOfWords r < 2 ^ (64 * r.length) := by
    rw [hrl]
    omega
  obtain ⟨hshlv, hshlg, hshll⟩ := shl_spec r hgr hshlb
  have hbit0 : get_bit (shl r) 0 = false := by
    rw [get_bit_spec _ _ hshlg, hshlv, Nat.testBit_to_div_mod]
    simp
  have hunfold : divGo n d (q, r) i
      = (if (subWords (if get_bit n i then set_bit (shl r) 0 else shl r) d false).2 then
          (q, if get_bit n i then set_bit (shl r) 0 else shl r)
        else (set_bit q i,
          (subWords (if get_bit n i then set_bit (shl r) 0 else shl r) d false).1)) := rfl
  rw [hunfold]
  rcases hb : get_bit n i
  · rw [if_neg Bool.false_ne_true]
    apply divGo_core n d q (shl r) i hgn hgd hlen hD hi hgq hql hshlg (hshll.trans hrl) hqv
    rw [hshlv, hrv, ← get_bit_spec n i hgn, hb]
    simp [bval]
  · rw [if_pos rfl]
    have h0lt : 0 < 64 * (shl r).length := by
      rw [hshll, hrl]
      omega
    obtain ⟨hsetv, hsetg, hsetl⟩ := set_bit_spec hshlg h0lt hbit0
    apply divGo_core n d q (set_bit (shl r) 0) i hgn hgd hlen hD hi hgq hql hsetg
      (by rw [hsetl, hshll, hrl]) hqv
    rw [hsetv, hshlv, hrv, ← get_bit_spec n i hgn, hb]
    simp [bval]

theorem divGo_fold (n d : List Nat) (hgn : good64 n) (hgd : good64 d)
    (hlen : d.length = n.length) (hD : 0 < Num.natOfWords d) :
    ∀ (k : Nat) (q r : List Nat), k ≤ 64 * n.length →
    good64 q → good64 r → q.length = n.length → r.length = n.length →
    Num.natOfWords q = Num.natOfWords n / 2 ^ k / Num.natOfWords d * 2 ^ k →
    Num.natOfWords r = Num.natOfWords n / 2 ^ k % Num.natOfWords d →
    good64 (((List.range k).reverse).foldl (divGo n d) (q, r)).1
    ∧ good64 (((List.range k).reverse).foldl (divGo n d) (q, r)).2
    ∧ (((List.range k).reverse).foldl (divGo n d) (q, r)).1.length = n.length
    ∧ (((List.range k).reverse).foldl (divGo n d) (q, r)).2.length = n.length
    ∧ Num.natOfWords (((List.range k).reverse).foldl (divGo n d) (q, r)).1
        = Num.natOfWords n / Num.natOfWords d
    ∧ Num.natOfWords (((List.range k).reverse).foldl (divGo n d) (q, r)).2
        = Num.natOfWords n % Num.natOfWords d := by
  intro k
  induction k with
  | zero =>
    intro q r hk hgq hgr hql hrl hqv hrv
    rw [pow_zero, Nat.div_one, Nat.mul_one] at hqv
    rw [pow_zero, Nat.div_one] at hrv
    simp only [List.range_zero, List.reverse_nil, List.foldl_nil]
    exact ⟨hgq, hgr, hql, hrl, hqv, hrv⟩
  | succ k ih =>
    intro q r hk hgq hgr hql hrl hqv hrv
    have hrange : (List.range (k + 1)).reverse = k :: (List.range k).reverse := by
      rw [List.range_succ, List.reverse_append, List.reverse_singleton]
      rfl
    rw [hrange, List.foldl_cons]
    obtain ⟨g1, g2, l1, l2, v1, v2⟩ :=
      divGo_step n d hgn hgd hlen hD k (by omega) q r hgq hgr hql hrl hqv hrv
    have hres := ih (divGo n d (q, r) k).1 (divGo n d (q, r) k).2 (by omega) g1 g2 l1 l2 v1 v2
    rw [Prod.mk.eta] at hres
    exact hres

theorem divWords_spec (n d : List Nat) (hlen : d.length = n.length)
    (hgn : good64 n) (hgd : good64 d) (hD : 0 < Num.natOfWords d) :
    Num.natOfWords (divWords n d).1 = Num.natOfWords n / Num.natOfWords d
    ∧ Num.natOfWords (divWords n d).2 = Num.natOfWords n % Num.natOfWords d
    ∧ good64 (divWords n d).1 ∧ good64 (divWords n d).2
    ∧ (divWords n d).1.length = n.length ∧ (divWords n d).2.length = n.length := by
  have h0 : Num.natOfWords n / 2 ^ (64 * n.length) = 0 :=
    Nat.div_eq_of_lt (natOfWords_lt hgn)
  have hcomm : n.length * 64 = 64 * n.length := Nat.mul_comm _ _
  have hspec := divGo_fold n d hgn hgd hlen hD (64 * n.length)
    (List.replicate n.length 0) (List.replicate n.length 0) le_rfl
    (good64_replicate_zero _) (good64_replicate_zero _)
    (List.length_replicate _ _) (List.length_replicate _ _)
    (by rw [natOfWords_replicate_zero, h0, Nat.zero_div, Nat.zero_mul])
    (by rw [natOfWords_replicate_zero, h0, Nat.zero_mod])
  rw [divWords, hcomm]
  exact ⟨hspec.2.2.2.2.1, hspec.2.2.2.2.2, hspec.1, hspec.2.1, hspec.2.2.1, hspec.2.2.2.1⟩

theorem reduceWords_spec (n p : List Nat) (hlen : p.length ≤ n.length)
    (hgn : good64 n) (hgp : good64 p) (hP : 0 < Num.natOfWords p) :
    Num.natOfWords (reduceWords n p) = Num.natOfWords n % Num.natOfWords p
    ∧ good64 (reduceWords n p) ∧ (reduceWords n p).length = p.length := by
  have hdl : (resizeTo n.length p).length = n.length := resizeTo_length _ _
  have hdg : good64 (resizeTo n.length p) := resizeTo_good hgp
  have hdv : Num.natOfWords (resizeTo n.length p) = Num.natOfWords p :=
    natOfWords_resizeTo_of_le hlen
  obtain ⟨hq, hr, hgq, hgr, hlq, hlr⟩ :=
    divWords_spec n (resizeTo n.length p) hdl hgn hdg (by omega)
  rw [hdv] at hr
  have hrlt : Num.natOfWords (divWords n (resizeTo n.length p)).2 < 2 ^ (64 * p.length) := by
    rw [hr]
    exact lt_of_lt_of_le (Nat.mod_lt _ hP) (le_of_lt (natOfWords_lt hgp))
  refine ⟨?_, resizeTo_good hgr, resizeTo_length _ _⟩
  rw [reduceWords, natOfWords_resizeTo_of_lt hgr hrlt, hr]

end Ecc


namespace Ecc

theorem getD_set_ne (l : List Nat) (k t v : Nat) (hne : k ≠ t) :
    (l.set k v).getD t 0 = l.getD t 0 := by
  by_cases ht : t < l.length
  · rw [List.getD_eq_getElem _ 0 (by simpa using ht), List.getD_eq_getElem _ 0 ht]
    exact List.getElem_set_ne hne _
  · rw [List.getD_eq_default _ _ (by simpa using ht), List.getD_eq_default _ _ (by omega)]

theorem mulRowGo_spec : ∀ (bs : List Nat) (a i j carry : Nat) (prod : List Nat),
    good64 bs → a < 2 ^ 64 → carry < 2 ^ 64 → good64 prod →
    i + j + bs.length < prod.length →
    prod.getD (i + j + bs.length) 0 = 0 →
    Num.natOfWords (Num.mulRowGo a i bs j carry prod)
      = Num.natOfWords prod + (a * Num.natOfWords bs + carry) * 2 ^ (64 * (i + j))
    ∧ good64 (Num.mulRowGo a i bs j carry prod)
    ∧ (Num.mulRowGo a i bs j carry prod).length = prod.length
    ∧ ∀ t, i + j + bs.length < t →
        (Num.mulRowGo a i bs j carry prod).getD t 0 = prod.getD t 0
  | [], a, i, j, carry, prod => by
    intro _ _ hc hgp hlt hz
    simp only [Num.mulRowGo]
    have hset := natOfWords_set prod (i + j) carry (by omega)
    rw [show i + j + List.length [] = i + j from by simp] at hlt hz
    rw [hz, Nat.mul_zero, Nat.add_zero] at hset
    refine ⟨?_, good64_set hgp hc, by simp, fun t ht => ?_⟩
    · rw [natOfWords_nil]
      have hcomm : (a * 0 + carry) * 2 ^ (64 * (i + j)) = 2 ^ (64 * (i + j)) * carry := by
        ring
      rw [hcomm]
      omega
    · exact getD_set_ne _ _ _ _ (by simp at ht; omega)
  | b :: bs, a, i, j, carry, prod => by
    intro hgb ha hc hgp hlt hz
    rcases good64_cons.mp hgb with ⟨hb, hbs⟩
    have hg : prod.getD (i + j) 0 < 2 ^ 64 := getD_lt_of_good hgp _
    have hm : prod.getD (i + j) 0 + a * b + carry < 2 ^ 64 * 2 ^ 64 := by
      have h1 : a * b ≤ (2 ^ 64 - 1) * (2 ^ 64 - 1) :=
        Nat.mul_le_mul (by omega) (by omega)
      have h2 : (2 ^ 64 - 1) * (2 ^ 64 - 1) = 2 ^ 64 * 2 ^ 64 - 2 * 2 ^ 64 + 1 := by
        rw [Nat.sub_mul, Nat.mul_sub, Nat.one_mul, Nat.mul_one]
        have : 2 ^ 64 ≤ 2 ^ 64 * 2 ^ 64 := Nat.le_mul_of_pos_left _ (by norm_num)
        omega
      omega
    have hmlen : i + j + (b :: bs).length = i + (j + 1) + bs.length := by
      simp
      omega
    have hdiv : (prod.getD (i + j) 0 + a * b + carry) / 2 ^ 64 < 2 ^ 64 :=
      Nat.div_lt_of_lt_mul hm
    have hmod : (prod.getD (i + j) 0 + a * b + carry) % 2 ^ 64 < 2 ^ 64 :=
      Nat.mod_lt _ (by norm_num)
    have hset := natOfWords_set prod (i + j)
      ((prod.getD (i + j) 0 + a * b + carry) % 2 ^ 64) (by simp at hlt; omega)
    have hznew : (prod.set (i + j) ((prod.getD (i + j) 0 + a * b + carry) % 2 ^ 64)).getD
        (i + (j + 1) + bs.length) 0 = 0 := by
      rw [getD_set_ne _ _ _ _ (by omega), ← hmlen]
      exact hz
    obtain ⟨ih1, ih2, ih3, ih4⟩ := mulRowGo_spec bs a i (j + 1)
      ((prod.getD (i + j) 0 + a * b + carry) / 2 ^ 64)
      (prod.set (i + j) ((prod.getD (i + j) 0 + a * b + carry) % 2 ^ 64))
      hbs ha hdiv (good64_set hgp hmod)
      (by rw [List.length_set]; omega) hznew
    have hstep : Num.mulRowGo a i (b :: bs) j carry prod
        = Num.mulRowGo a i bs (j + 1)
            ((prod.getD (i + j) 0 + a * b + carry) / 2 ^ 64)
            (prod.set (i + j) ((prod.getD (i + j) 0 + a * b + carry) % 2 ^ 64)) := rfl
    rw [hstep]
    refine ⟨?_, ih2, by rw [ih3, List.length_set], fun t ht => ?_⟩
    · rw [ih1]
      have hdm := Nat.div_add_mod (prod.getD (i + j) 0 + a * b + carry) (2 ^ 64)
      have hE : (2 : Int) ^ (64 * (i + (j + 1))) = 2 ^ (64 * (i + j)) * 2 ^ 64 := by
        rw [show 64 * (i + (j + 1)) = 64 * (i + j) + 64 from by ring, pow_add]
      rw [natOfWords_cons]
      zify at hset hdm ⊢
      rw [hE]
      linear_combination hset + ((2 : Int) ^ (64 * (i + j))) * hdm
    · rw [ih4 t (by omega), getD_set_ne _ _ _ _ (by omega)]

theorem mulGo_spec (bs : List Nat) (hgb : good64 bs) : ∀ (as : List Nat) (i : Nat) (prod : List Nat),
    good64 as → good64 prod →
    i + as.length + bs.length ≤ prod.length →
    (∀ t, i + bs.length ≤ t → prod.getD t 0 = 0) →
    Num.natOfWords (Num.mulGo bs as i prod)
      = Num.natOfWords prod + Num.natOfWords as * Num.natOfWords bs * 2 ^ (64 * i)
    ∧ good64 (Num.mulGo bs as i prod)
    ∧ (Num.mulGo bs as i prod).length = prod.length
  | [], i, prod => by
    intro _ hgp _ _
    simp only [Num.mulGo, natOfWords_nil]
    exact ⟨by omega, hgp, by simp⟩
  | a :: as, i, prod => by
    intro hga hgp hlen hhz
    rcases good64_cons.mp hga with ⟨ha, has⟩
    obtain ⟨r1, r2, r3, r4⟩ := mulRowGo_spec bs a i 0 0 prod hgb ha (by norm_num) hgp
      (by simp at hlen ⊢; omega) (hhz _ (by omega))
    obtain ⟨ihv, ihg, ihl⟩ := mulGo_spec bs hgb as (i + 1) (Num.mulRowGo a i bs 0 0 prod)
      has r2 (by rw [r3]; simp at hlen ⊢; omega)
      (fun t ht => by rw [r4 t (by omega)]; exact hhz t (by omega))
    have hstep : Num.mulGo bs (a :: as) i prod
        = Num.mulGo bs as (i + 1) (Num.mulRowGo a i bs 0 0 prod) := rfl
    rw [hstep]
    refine ⟨?_, ihg, by rw [ihl, r3]⟩
    rw [ihv, r1, natOfWords_cons]
    have hE : (2 : Int) ^ (64 * (i + 1)) = 2 ^ (64 * i) * 2 ^ 64 := by
      rw [show 64 * (i + 1) = 64 * i + 64 from by ring, pow_add]
    zify
    rw [hE]
    ring

theorem num_mul_spec (a n p : List Nat) (hga : good64 a) (hgn : good64 n)
    (hgp : good64 p) (hla : a.length = 4) (hln : n.length = 4) (hlp : p.length = 4)
    (hP : 0 < Num.natOfWords p) :
    Num.natOfWords (Num.mul a n p)
      = Num.natOfWords a * Num.natOfWords n % Num.natOfWords p
    ∧ good64 (Num.mul a n p) ∧ (Num.mul a n p).length = 4 := by
  obtain ⟨hv, hg, hl⟩ := mulGo_spec n hgn a 0 (List.replicate (2 * 4) 0) hga
    (good64_replicate_zero _) (by rw [List.length_replicate]; omega)
    (fun t _ => by
      by_cases ht : t < 8
      · rw [List.getD_eq_getElem _ 0 (by rw [List.length_replicate]; omega)]
        exact List.getElem_replicate _ _
      · rw [List.getD_eq_default _ _ (by rw [List.length_replicate]; omega)])
  rw [natOfWords_replicate_zero, Nat.mul_zero, pow_zero, Nat.mul_one, Nat.zero_add] at hv
  obtain ⟨rv, rg, rl⟩ := reduceWords_spec (Num.mulGo n a 0 (List.replicate (2 * 4) 0)) p
    (by rw [hl, List.length_replicate]; omega) hg hgp hP
  rw [Num.mul]
  rw [hv] at rv
  exact ⟨rv, rg, by rw [rl, hlp]⟩

end Ecc


namespace Ecc

theorem num_add_spec (a n p : List Nat) (hga : good64 a) (hgn : good64 n)
    (hgp : good64 p) (hla : a.length = 4) (hln : n.length = 4) (hlp : p.length = 4)
    (hP : 0 < Num.natOfWords p) :
    Num.natOfWords (Num.add a n p)
      = (Num.natOfWords a + Num.natOfWords n) % Num.natOfWords p
    ∧ good64 (Num.add a n p) ∧ (Num.add a n p).length = 4 := by
  obtain ⟨hsv, hsg, hsl⟩ := addWords_spec a n false (by omega) hga hgn
  simp [bval] at hsv
  have hunfold : Num.add a n p
      = if (addWords a n false).2 then reduceWords ((addWords a n false).1 ++ [1]) p
        else reduceWords (addWords a n false).1 p := rfl
  rw [hunfold]
  rcases hc : (addWords a n false).2
  · rw [hc] at hsv
    simp at hsv
    rw [if_neg Bool.false_ne_true]
    obtain ⟨rv, rg, rl⟩ := reduceWords_spec (addWords a n false).1 p
      (by omega) hsg hgp hP
    rw [hsv] at rv
    exact ⟨rv, rg, by rw [rl, hlp]⟩
  · rw [hc] at hsv
    simp at hsv
    rw [hla] at hsv
    rw [if_pos rfl]
    have hext : good64 ((addWords a n false).1 ++ [1]) := by
      intro x hx
      rcases List.mem_append.mp hx with h | h
      · exact hsg x h
      · simp at h
        omega
    obtain ⟨rv, rg, rl⟩ := reduceWords_spec ((addWords a n false).1 ++ [1]) p
      (by rw [List.length_append, hsl, hla, hlp]; omega) hext hgp hP
    have hev : Num.natOfWords ((addWords a n false).1 ++ [1])
        = Num.natOfWords a + Num.natOfWords n := by
      rw [natOfWords_append, hsl, hla]
      have h1 : Num.natOfWords [1] = 1 := by
        rw [natOfWords_cons, natOfWords_nil]
        omega
      rw [h1]
      omega
    rw [hev] at rv
    exact ⟨rv, rg, by rw [rl, hlp]⟩

theorem num_sub_spec (a n p : List Nat) (hga : good64 a) (hgn : good64 n)
    (hgp : good64 p) (hla : a.length = 4) (hln : n.length = 4) (hlp : p.length = 4)
    (hA : Num.natOfWords a < Num.natOfWords p) (hN : Num.natOfWords n < Num.natOfWords p) :
    ∃ c, Num.sub a n p = some c
    ∧ Num.natOfWords c
        = (Num.natOfWords a + Num.natOfWords p - Num.natOfWords n) % Num.natOfWords p
    ∧ good64 c ∧ c.length = 4 := by
  have hPlt : Num.natOfWords p < 2 ^ (64 * 4) := by
    have := natOfWords_lt hgp
    rw [hlp] at this
    exact this
  obtain ⟨hsv, hsg, hsl⟩ := subWords_spec a n false (by omega) hga hgn
  simp [bval] at hsv
  have hunfold : Num.sub a n p
      = if (subWords a n false).2 then
          (if (addWords (subWords a n false).1 p false).2 then
            some (addWords (subWords a n false).1 p false).1 else none)
        else some (subWords a n false).1 := rfl
  rw [hunfold]
  rcases hc : (subWords a n false).2
  · rw [hc] at hsv
    simp [hla] at hsv
    rw [if_neg Bool.false_ne_true]
    refine ⟨(subWords a n false).1, rfl, ?_, hsg, by rw [hsl, hla]⟩
    have hle : Num.natOfWords n ≤ Num.natOfWords a := by omega
    have hmod : Num.natOfWords a + Num.natOfWords p - Num.natOfWords n
        = (Num.natOfWords a - Num.natOfWords n) + Num.natOfWords p := by omega
    rw [hmod, Nat.add_mod_right, Nat.mod_eq_of_lt (by omega)]
    omega
  · rw [hc] at hsv
    simp [hla] at hsv
    obtain ⟨htv, htg, htl⟩ := addWords_spec (subWords a n false).1 p false
      (by omega) hsg hgp
    simp [bval] at htv
    have hcarry : (addWords (subWords a n false).1 p false).2 = true := by
      by_contra hcf
      rcases hc2 : (addWords (subWords a n false).1 p false).2
      · rw [hc2] at htv
        simp [hsl, hla] at htv
        have hlt : Num.natOfWords a < Num.natOfWords n := by
          by_contra hge
          push_neg at hge
          have := natOfWords_lt hsg
          rw [hsl, hla] at this
          omega
        have ht4 : Num.natOfWords (addWords (subWords a n false).1 p false).1
            < 2 ^ (64 * 4) := by
          have := natOfWords_lt htg
          rw [htl, hsl, hla] at this
          exact this
        omega
      · exact hcf hc2
    rw [hcarry, if_pos rfl]
    rw [hcarry] at htv
    simp [hsl, hla] at htv
    refine ⟨(addWords (subWords a n false).1 p false).1, rfl, ?_, htg,
      by rw [htl, hsl, hla]⟩
    have hlt : Num.natOfWords a < Num.natOfWords n := by
      by_contra hge
      push_neg at hge
      have := natOfWords_lt hsg
      rw [hsl, hla] at this
      omega
    rw [Nat.mod_eq_of_lt (by omega)]
    omega

theorem cmpGo_append (l1 l2 : List (Nat × Nat)) :
    Num.cmpGo (l1 ++ l2)
      = match Num.cmpGo l1 with
        | Ordering.eq => Num.cmpGo l2
        | o => o := by
  induction l1 with
  | nil => rfl
  | cons x t ih =>
    rcases x with ⟨x, y⟩
    show Num.cmpGo ((x, y) :: (t ++ l2)) = _
    rw [Num.cmpGo]
    split_ifs with h1 h2
    · rw [show Num.cmpGo ((x, y) :: t) = Ordering.lt from by rw [Num.cmpGo, if_pos h1]]
    · rw [show Num.cmpGo ((x, y) :: t) = Ordering.gt from by
        rw [Num.cmpGo, if_neg h1, if_pos h2]]
    · rw [show Num.cmpGo ((x, y) :: t) = Num.cmpGo t from by
        rw [Num.cmpGo, if_neg h1, if_neg h2], ih]

theorem cmp_spec : ∀ (a b : List Nat), good64 a → good64 b → a.length = b.length →
    (Num.cmp a b = Ordering.lt ↔ Num.natOfWords a < Num.natOfWords b)
    ∧ (Num.cmp a b = Ordering.eq ↔ Num.natOfWords a = Num.natOfWords b)
    ∧ (Num.cmp a b = Ordering.gt ↔ Num.natOfWords b < Num.natOfWords a)
  | [], [], _, _, _ =>
    ⟨iff_of_false (by decide) (by simp [natOfWords_nil]),
     iff_of_true rfl rfl,
     iff_of_false (by decide) (by simp [natOfWords_nil])⟩
  | a :: as, b :: bs, hga, hgb, hlen => by
    rcases good64_cons.mp hga with ⟨ha, has⟩
    rcases good64_cons.mp hgb with ⟨hb, hbs⟩
    obtain ⟨ih1, ih2, ih3⟩ := cmp_spec as bs has hbs (by simpa using hlen)
    have hvas : Num.natOfWords as < 2 ^ (64 * as.length) := natOfWords_lt has
    have hvbs : Num.natOfWords bs < 2 ^ (64 * bs.length) := natOfWords_lt hbs
    have hlen2 : as.length = bs.length := by simpa using hlen
    rw [← hlen2] at hvbs
    have hstep : Num.cmp (a :: as) (b :: bs)
        = match Num.cmp as bs with
          | Ordering.eq => Num.cmpGo [(a, b)]
          | o => o := by
      rw [Num.cmp, Num.cmp, List.zip_cons_cons, List.reverse_cons, cmpGo_append]
    have hmul : ∀ x y : Nat, x < y →
        x * 2 ^ 64 + 2 ^ 64 ≤ y * 2 ^ 64 := by
      intro x y hxy
      have h2 : (x + 1) * 2 ^ 64 ≤ y * 2 ^ 64 := Nat.mul_le_mul_right _ (by omega)
      rw [Nat.add_mul, Nat.one_mul] at h2
      exact h2
    rcases hc : Num.cmp as bs
    · have hval : Num.cmp (a :: as) (b :: bs) = Ordering.lt := by
        rw [hstep, hc]
      have hv := ih1.mp hc
      have h1 := hmul _ _ hv
      rw [hval, natOfWords_cons, natOfWords_cons]
      exact ⟨iff_of_true rfl (by omega),
        iff_of_false (by decide) (by omega),
        iff_of_false (by decide) (by omega)⟩
    · have hval : Num.cmp (a :: as) (b :: bs) = Num.cmpGo [(a, b)] := by
        rw [hstep, hc]
      have hv := ih2.mp hc
      have hgo : Num.cmpGo [(a, b)]
          = if a < b then Ordering.lt
            else if b < a then Ordering.gt else Ordering.eq := by
        rw [Num.cmpGo]
        rfl
      rw [hval, hgo, natOfWords_cons, natOfWords_cons]
      split_ifs with h1 h2
      · exact ⟨iff_of_true rfl (by omega),
          iff_of_false (by decide) (by omega),
          iff_of_false (by decide) (by omega)⟩
      · exact ⟨iff_of_false (by decide) (by omega),
          iff_of_false (by decide) (by omega),
          iff_of_true rfl (by omega)⟩
      · exact ⟨iff_of_false (by decide) (by omega),
          iff_of_true rfl (by omega),
          iff_of_false (by decide) (by omega)⟩
    · have hval : Num.cmp (a :: as) (b :: bs) = Ordering.gt := by
        rw [hstep, hc]
      have hv := ih3.mp hc
      have h1 := hmul _ _ hv
      rw [hval, natOfWords_cons, natOfWords_cons]
      exact ⟨iff_of_false (by decide) (by omega),
        iff_of_false (by decide) (by omega),
        iff_of_true rfl (by omega)⟩

theorem num_eqb_spec (a n p : List Nat) (hga : good64 a) (hgn : good64 n)
    (hgp : good64 p) (hla : 4 ≤ a.length) (hln : 4 ≤ n.length) (hlp : p.length = 4)
    (hP : 0 < Num.natOfWords p) :
    (Num.eqb a n p = true
      ↔ Num.natOfWords a % Num.natOfWords p = Num.natOfWords n % Num.natOfWords p) := by
  obtain ⟨r1, g1, l1⟩ := reduceWords_spec a p (by omega) hga hgp hP
  obtain ⟨r2, g2, l2⟩ := reduceWords_spec n p (by omega) hgn hgp hP
  rw [Num.eqb, beq_iff_eq]
  constructor
  · intro h
    rw [← r1, ← r2, h]
  · intro h
    exact natOfWords_inj g1 g2 (by rw [l1, l2]) (by rw [r1, r2, h])

end Ecc


namespace Ecc

theorem natCast_mod_self (a n : Nat) : ((a % n : Nat) : ZMod n) = (a : ZMod n) :=
  (ZMod.natCast_eq_natCast_iff _ _ _).mpr (Nat.mod_modEq a n)

theorem num_zero_iff {u : List Nat} (hgu : good64 u) (hlu : u.length = 4) :
    u = Num.zero ↔ Num.natOfWords u = 0 := by
  constructor
  · intro h
    subst h
    rfl
  · intro h
    have hz : good64 Num.zero := by
      intro x hx
      simp [Num.zero] at hx
      omega
    refine natOfWords_inj hgu hz (by rw [hlu]; rfl) ?_
    rw [h]
    rfl

theorem invGo_spec (p : List Nat) (hgp : good64 p) (hlp : p.length = 4)
    (hP1 : 1 < Num.natOfWords p) (A : Nat) :
    ∀ (fuel : Nat) (u v x1 x2 : List Nat),
    good64 u → good64 v → good64 x1 → good64 x2 →
    u.length = 4 → v.length = 4 → x1.length = 4 → x2.length = 4 →
    Num.natOfWords u < fuel →
    Num.natOfWords v ≠ 0 →
    Num.natOfWords x1 < Num.natOfWords p →
    Num.natOfWords x2 < Num.natOfWords p →
    (Num.natOfWords x1 : ZMod (Num.natOfWords p)) * (A : ZMod (Num.natOfWords p))
      = (Num.natOfWords u : ZMod (Num.natOfWords p)) →
    (Num.natOfWords x2 : ZMod (Num.natOfWords p)) * (A : ZMod (Num.natOfWords p))
      = (Num.natOfWords v : ZMod (Num.natOfWords p)) →
    Nat.gcd (Num.natOfWords u) (Num.natOfWords v)
      = Nat.gcd (A % Num.natOfWords p) (Num.natOfWords p) →
    ∃ w, Num.invGo p fuel u v x1 x2 = some w
      ∧ good64 w ∧ w.length = 4 ∧ Num.natOfWords w < Num.natOfWords p
      ∧ (Num.natOfWords w : ZMod (Num.natOfWords p)) * (A : ZMod (Num.natOfWords p))
          = (Nat.gcd (A % Num.natOfWords p) (Num.natOfWords p)
              : ZMod (Num.natOfWords p)) := by
  intro fuel
  induction fuel with
  | zero =>
    intro u v x1 x2 _ _ _ _ _ _ _ _ hfuel
    omega
  | succ fuel ih =>
    intro u v x1 x2 hgu hgv hgx1 hgx2 hlu hlv hlx1 hlx2 hfuel hv0 hx1p hx2p hc1 hc2 hgcd
    by_cases hu : u = Num.zero
    · refine ⟨x2, ?_, hgx2, hlx2, hx2p, ?_⟩
      · rw [Num.invGo, if_pos hu]
      · have hu0 : Num.natOfWords u = 0 := (num_zero_iff hgu hlu).mp hu
        rw [hu0, Nat.gcd_zero_left] at hgcd
        rw [hc2, hgcd]
    · have hu0 : Num.natOfWords u ≠ 0 := fun h => hu ((num_zero_iff hgu hlu).mpr h)
      obtain ⟨hq, hr, hgq, hgr, hlq, hlr⟩ :=
        divWords_spec v u (by omega) hgv hgu (by omega)
      have hP0 : 0 < Num.natOfWords p := by omega
      obtain ⟨hmv, hmg, hml⟩ := num_mul_spec (divWords v u).1 x1 p hgq hgx1 hgp
        (by rw [hlq, hlv]) hlx1 hlp hP0
      obtain ⟨x, hsub, hxv, hgx, hlx⟩ := num_sub_spec x2
        (Num.mul (divWords v u).1 x1 p) p hgx2 hmg hgp hlx2 hml hlp hx2p
        (by rw [hmv]; exact Nat.mod_lt _ hP0)
      have hstep : Num.invGo p (fuel + 1) u v x1 x2
          = Num.invGo p fuel (divWords v u).2 u x x1 := by
        rw [Num.invGo, if_neg hu]
        show (match Num.sub x2 (Num.mul (divWords v u).1 x1 p) p with
          | none => none
          | some y => Num.invGo p fuel (divWords v u).2 u y x1) = _
        rw [hsub]
      rw [hstep]
      have hrval : Num.natOfWords (divWords v u).2
          = Num.natOfWords v % Num.natOfWords u := hr
      have hrlt : Num.natOfWords (divWords v u).2 < Num.natOfWords u := by
        rw [hrval]
        exact Nat.mod_lt _ (by omega)
      have hxcast : (Num.natOfWords x : ZMod (Num.natOfWords p))
          = (Num.natOfWords x2 : ZMod (Num.natOfWords p))
            - (Num.natOfWords (divWords v u).1 : ZMod (Num.natOfWords p))
              * (Num.natOfWords x1 : ZMod (Num.natOfWords p)) := by
        rw [hxv, natCast_mod_self, Nat.cast_sub (by
          rw [hmv]
          have hlt := Nat.mod_lt
            (Num.natOfWords (divWords v u).1 * Num.natOfWords x1) hP0
          omega)]
        push_cast
        rw [hmv, natCast_mod_self, ZMod.natCast_self]
        push_cast
        ring
      have hnewc1 : (Num.natOfWords x : ZMod (Num.natOfWords p))
          * (A : ZMod (Num.natOfWords p))
          = (Num.natOfWords (divWords v u).2 : ZMod (Num.natOfWords p)) := by
        rw [hxcast, hrval]
        have hdm := Nat.div_add_mod (Num.natOfWords v) (Num.natOfWords u)
        have hcast : (Num.natOfWords v % Num.natOfWords u : Nat)
            = Num.natOfWords v - Num.natOfWords u * (Num.natOfWords v / Num.natOfWords u) := by
          omega
        rw [hcast, Nat.cast_sub (by omega)]
        push_cast
        rw [hq]
        rw [sub_mul, hc2, mul_assoc, hc1]
        push_cast
        ring
      have hnewgcd : Nat.gcd (Num.natOfWords (divWords v u).2) (Num.natOfWords u)
          = Nat.gcd (A % Num.natOfWords p) (Num.natOfWords p) := by
        rw [hrval, ← Nat.gcd_rec, hgcd]
      exact ih (divWords v u).2 u x x1 hgr hgu hgx hgx1 (by rw [hlr, hlv]) hlu hlx hlx1
        (by omega) hu0 (by rw [hxv]; exact Nat.mod_lt _ hP0) hx1p hnewc1 hc1 hnewgcd

theorem num_one_val : Num.natOfWords Num.one = 1 := by
  rfl

theorem num_zero_val : Num.natOfWords Num.zero = 0 := by
  rfl

theorem num_inv_spec (a p : List Nat) (hga : good64 a) (hla : a.length = 4)
    (hgp : good64 p) (hlp : p.length = 4) (hP1 : 1 < Num.natOfWords p)
    (hg : Nat.gcd (Num.natOfWords a % Num.natOfWords p) (Num.natOfWords p) = 1)
    (hA0 : Num.natOfWords a % Num.natOfWords p ≠ 0) :
    ∃ w, Num.inv a p = some w ∧ good64 w ∧ w.length = 4
      ∧ Num.natOfWords w < Num.natOfWords p
      ∧ Num.natOfWords w * Num.natOfWords a % Num.natOfWords p = 1 := by
  have hP0 : 0 < Num.natOfWords p := by omega
  have ha0 : a ≠ Num.zero := by
    intro h
    subst h
    rw [num_zero_val, Nat.zero_mod] at hA0
    exact hA0 rfl
  obtain ⟨hu, hgu, hlu⟩ := reduceWords_spec a p (by omega) hga hgp hP0
  have hunfold : Num.inv a p
      = Num.invGo p (Num.natOfWords (reduceWords a p) + 1) (reduceWords a p) p
          Num.one Num.zero := by
    rw [Num.inv, if_neg ha0]
  have hg1 : good64 Num.one := by
    intro x hx
    simp [Num.one] at hx
    rcases hx with h | h <;> omega
  have hg0 : good64 Num.zero := by
    intro x hx
    simp [Num.zero] at hx
    omega
  obtain ⟨w, hw, hwg, hwl, hwp, hwc⟩ := invGo_spec p hgp hlp hP1 (Num.natOfWords a)
    (Num.natOfWords (reduceWords a p) + 1) (reduceWords a p) p Num.one Num.zero
    hgu hgp hg1 hg0 (by rw [hlu, hlp]) hlp (by rfl) (by rfl) (by omega) (by omega)
    (by rw [num_one_val]; omega) (by rw [num_zero_val]; omega)
    (by rw [num_one_val, hu, Nat.cast_one, one_mul, natCast_mod_self])
    (by rw [num_zero_val, Nat.cast_zero, zero_mul, ZMod.natCast_self])
    (by rw [hu])
  refine ⟨w, by rw [hunfold]; exact hw, hwg, hwl, hwp, ?_⟩
  rw [hg, Nat.cast_one] at hwc
  have hmodeq : Num.natOfWords w * Num.natOfWords a ≡ 1 [MOD Num.natOfWords p] := by
    have := (ZMod.natCast_eq_natCast_iff
      (Num.natOfWords w * Num.natOfWords a) 1 (Num.natOfWords p)).mp ?_
    · exact this
    · push_cast
      rw [hwc]
  have h1 : 1 % Num.natOfWords p = 1 := Nat.mod_eq_of_lt hP1
  rw [Nat.ModEq] at hmodeq
  omega

end Ecc


namespace Ecc

/-! Bridge between the embedded point arithmetic of ecc.rs and the Mathlib
theory of Weierstrass curves over the prime field `ZMod (natOfWords C.P)`. -/

/-- Interpret an embedded number as an element of the prime field. -/
def toF (C : CurveData) (w : List Nat) : ZMod (Num.natOfWords C.P) :=
  (Num.natOfWords w : ZMod (Num.natOfWords C.P))

/-- The Weierstrass curve over `ZMod (natOfWords C.P)` described by the
embedded curve constants: `y² = x³ + A·x + B`. -/
def toW (C : CurveData) : WeierstrassCurve.Affine (ZMod (Num.natOfWords C.P)) :=
  ⟨0, 0, 0, toF C C.A, toF C C.B⟩

/-- A well-formed four-word number. -/
def goodNum (w : List Nat) : Prop := good64 w ∧ w.length = 4

/-- A four-word number in canonical reduced form modulo `C.P`. -/
def validNum (C : CurveData) (w : List Nat) : Prop :=
  goodNum w ∧ Num.natOfWords w < Num.natOfWords C.P

instance decGood64 (l : List Nat) : Decidable (good64 l) :=
  inferInstanceAs (Decidable (∀ x ∈ l, x < 2 ^ 64))

instance decGoodNum (w : List Nat) : Decidable (goodNum w) :=
  inferInstanceAs (Decidable (good64 w ∧ w.length = 4))

instance decValidNum (C : CurveData) (w : List Nat) : Decidable (validNum C w) :=
  inferInstanceAs (Decidable (goodNum w ∧ Num.natOfWords w < Num.natOfWords C.P))

/-- The well-formedness facts about a `CurveData` under which the point
arithmetic of ecc.rs implements the group law of the corresponding
Weierstrass curve: the constants are canonical four-word numbers, the field
modulus is prime, the coefficient `A` vanishes (the doubling branch of
`Point::add` hard-codes the tangent slope `3x²/(2y)`, which is correct only
for curves with `a = 0`; every curve defined in the crate has `A = 0`), and
the discriminant is non-zero. -/
structure GoodCurve (C : CurveData) : Prop where
  gP : good64 C.P
  lP : C.P.length = 4
  primeP : Nat.Prime (Num.natOfWords C.P)
  gN : good64 C.N
  lN : C.N.length = 4
  gA : good64 C.A
  lA : C.A.length = 4
  gB : good64 C.B
  lB : C.B.length = 4
  aZero : Num.natOfWords C.A = 0
  deltaNe : (toW C).Δ ≠ 0

/-- The embedded coordinates `c` denote the Mathlib point `Q` on `toW C`. -/
def represents (C : CurveData) : Coordinates → (toW C).Point → Prop
  | Coordinates.infinity, Q => Q = 0
  | Coordinates.finite x y, Q =>
    validNum C x ∧ validNum C y ∧
    ∃ h : (toW C).Nonsingular (toF C x) (toF C y),
      Q = WeierstrassCurve.Affine.Point.some h

/-- The affine coordinates of a Mathlib point, used to read coordinate
equalities off a point equality. -/
def pointCoords {R : Type} [CommRing R] {W : WeierstrassCurve.Affine R} :
    W.Point → Option (R × R)
  | WeierstrassCurve.Affine.Point.zero => none
  | @WeierstrassCurve.Affine.Point.some _ _ _ x y _ => some (x, y)

theorem toW_a1 (C : CurveData) : (toW C).a₁ = 0 := rfl

theorem toW_a2 (C : CurveData) : (toW C).a₂ = 0 := rfl

theorem toW_a3 (C : CurveData) : (toW C).a₃ = 0 := rfl

theorem toW_a4 (C : CurveData) : (toW C).a₄ = toF C C.A := rfl

theorem toW_a6 (C : CurveData) : (toW C).a₆ = toF C C.B := rfl

theorem toF_def (C : CurveData) (w : List Nat) :
    toF C w = (Num.natOfWords w : ZMod (Num.natOfWords C.P)) := rfl

theorem GoodCurve.pos {C : CurveData} (hC : GoodCurve C) :
    0 < Num.natOfWords C.P := hC.primeP.pos

theorem GoodCurve.one_lt {C : CurveData} (hC : GoodCurve C) :
    1 < Num.natOfWords C.P := hC.primeP.one_lt

theorem toF_eq_iff {C : CurveData} {x y : List Nat} (hx : validNum C x)
    (hy : validNum C y) : toF C x = toF C y ↔ x = y := by
  constructor
  · intro h
    rw [toF_def, toF_def, ZMod.natCast_eq_natCast_iff] at h
    have hmx := Nat.mod_eq_of_lt hx.2
    have hmy := Nat.mod_eq_of_lt hy.2
    rw [Nat.ModEq, hmx, hmy] at h
    exact natOfWords_inj hx.1.1 hy.1.1 (by rw [hx.1.2, hy.1.2]) h
  · intro h
    rw [h]

theorem toF_eq_zero_iff {C : CurveData} (hC : GoodCurve C) {x : List Nat}
    (hx : validNum C x) : toF C x = 0 ↔ Num.natOfWords x = 0 := by
  rw [toF_def, ZMod.natCast_zmod_eq_zero_iff_dvd]
  constructor
  · intro h
    rcases Nat.eq_zero_or_pos (Num.natOfWords x) with h0 | h0
    · exact h0
    · have h1 := Nat.le_of_dvd h0 h
      have h2 := hx.2
      omega
  · intro h
    rw [h]
    exact dvd_zero _

theorem mulF {C : CurveData} (hC : GoodCurve C) {x y : List Nat} (hx : goodNum x)
    (hy : goodNum y) :
    validNum C (Num.mul x y C.P)
      ∧ toF C (Num.mul x y C.P) = toF C x * toF C y := by
  obtain ⟨hv, hg, hl⟩ := num_mul_spec x y C.P hx.1 hy.1 hC.gP hx.2 hy.2 hC.lP hC.pos
  refine ⟨⟨⟨hg, hl⟩, ?_⟩, ?_⟩
  · rw [hv]
    exact Nat.mod_lt _ hC.pos
  · rw [toF_def, toF_def, toF_def, hv, natCast_mod_self, Nat.cast_mul]

theorem addF {C : CurveData} (hC : GoodCurve C) {x y : List Nat} (hx : goodNum x)
    (hy : goodNum y) :
    validNum C (Num.add x y C.P)
      ∧ toF C (Num.add x y C.P) = toF C x + toF C y := by
  obtain ⟨hv, hg, hl⟩ := num_add_spec x y C.P hx.1 hy.1 hC.gP hx.2 hy.2 hC.lP hC.pos
  refine ⟨⟨⟨hg, hl⟩, ?_⟩, ?_⟩
  · rw [hv]
    exact Nat.mod_lt _ hC.pos
  · rw [toF_def, toF_def, toF_def, hv, natCast_mod_self, Nat.cast_add]

theorem subF {C : CurveData} (hC : GoodCurve C) {x y : List Nat}
    (hx : validNum C x) (hy : validNum C y) :
    ∃ c, Num.sub x y C.P = some c ∧ validNum C c ∧ toF C c = toF C x - toF C y := by
  obtain ⟨c, hc, hcv, hcg, hcl⟩ := num_sub_spec x y C.P hx.1.1 hy.1.1 hC.gP
    hx.1.2 hy.1.2 hC.lP hx.2 hy.2
  refine ⟨c, hc, ⟨⟨hcg, hcl⟩, by rw [hcv]; exact Nat.mod_lt _ hC.pos⟩, ?_⟩
  have hle : Num.natOfWords y ≤ Num.natOfWords x + Num.natOfWords C.P := by
    have := hy.2
    omega
  rw [toF_def, toF_def, toF_def, hcv, natCast_mod_self, Nat.cast_sub hle, Nat.cast_add]
  rw [show ((Num.natOfWords C.P : Nat) : ZMod (Num.natOfWords C.P)) = 0 from
    ZMod.natCast_self _]
  ring

theorem invF_none {C : CurveData} (hC : GoodCurve C) {x : List Nat}
    (hx : validNum C x) (h0 : toF C x = 0) : Num.inv x C.P = none := by
  have hz : x = Num.zero :=
    (num_zero_iff hx.1.1 hx.1.2).mpr ((toF_eq_zero_iff hC hx).mp h0)
  rw [Num.inv, if_pos hz]

theorem invF {C : CurveData} (hC : GoodCurve C) {x : List Nat}
    (hx : validNum C x) (h0 : toF C x ≠ 0) :
    ∃ c, Num.inv x C.P = some c ∧ validNum C c ∧ toF C c = (toF C x)⁻¹ := by
  have hx0 : Num.natOfWords x ≠ 0 := fun h => h0 ((toF_eq_zero_iff hC hx).mpr h)
  have hxm : Num.natOfWords x % Num.natOfWords C.P = Num.natOfWords x :=
    Nat.mod_eq_of_lt hx.2
  have hnd : ¬ Num.natOfWords C.P ∣ Num.natOfWords x := by
    intro hdvd
    have h1 := Nat.le_of_dvd (by omega) hdvd
    have h2 := hx.2
    omega
  have hco : Nat.gcd (Num.natOfWords x % Num.natOfWords C.P) (Num.natOfWords C.P)
      = 1 := by
    rw [hxm, Nat.gcd_comm]
    exact (Nat.Prime.coprime_iff_not_dvd hC.primeP).mpr hnd
  obtain ⟨w, hw, hwg, hwl, hwp, hwc⟩ := num_inv_spec x C.P hx.1.1 hx.1.2 hC.gP hC.lP
    hC.one_lt hco (by rw [hxm]; exact hx0)
  refine ⟨w, hw, ⟨⟨hwg, hwl⟩, hwp⟩, ?_⟩
  have hcast : (Num.natOfWords w : ZMod (Num.natOfWords C.P))
      * (Num.natOfWords x : ZMod (Num.natOfWords C.P)) = 1 := by
    have hc2 := congrArg (fun t : Nat => (t : ZMod (Num.natOfWords C.P))) hwc
    simpa [natCast_mod_self, Nat.cast_mul] using hc2
  haveI : Fact (Nat.Prime (Num.natOfWords C.P)) := ⟨hC.primeP⟩
  rw [toF_def, toF_def]
  exact eq_inv_of_mul_eq_one_left hcast

theorem goodNum_two : goodNum Num.two := by
  constructor
  · intro x hx
    simp [Num.two] at hx
    omega
  · rfl

theorem goodNum_three : goodNum Num.three := by
  constructor
  · intro x hx
    simp [Num.three] at hx
    omega
  · rfl

theorem natOfWords_two : Num.natOfWords Num.two = 2 := rfl

theorem natOfWords_three : Num.natOfWords Num.three = 3 := rfl

theorem toF_two (C : CurveData) : toF C Num.two = 2 := by
  rw [toF_def, natOfWords_two]
  norm_cast

theorem toF_three (C : CurveData) : toF C Num.three = 3 := by
  rw [toF_def, natOfWords_three]
  norm_cast

theorem point_some_congr {R : Type} [CommRing R] {W : WeierstrassCurve.Affine R}
    {x1 y1 x2 y2 : R} (hx : x1 = x2) (hy : y1 = y2)
    (h1 : W.Nonsingular x1 y1) (h2 : W.Nonsingular x2 y2) :
    WeierstrassCurve.Affine.Point.some h1 = WeierstrassCurve.Affine.Point.some h2 := by
  subst hx
  subst hy
  rfl

theorem pointCoords_some {R : Type} [CommRing R] {W : WeierstrassCurve.Affine R}
    {x y : R} (h : W.Nonsingular x y) :
    pointCoords (WeierstrassCurve.Affine.Point.some h) = some (x, y) := rfl

theorem point_some_inj {R : Type} [CommRing R] {W : WeierstrassCurve.Affine R}
    {x1 y1 x2 y2 : R} (h1 : W.Nonsingular x1 y1) (h2 : W.Nonsingular x2 y2)
    (he : WeierstrassCurve.Affine.Point.some h1 = WeierstrassCurve.Affine.Point.some h2) :
    x1 = x2 ∧ y1 = y2 := by
  have hc := congrArg pointCoords he
  rw [pointCoords_some, pointCoords_some] at hc
  have hp := Option.some.inj hc
  exact ⟨congrArg Prod.fst hp, congrArg Prod.snd hp⟩

theorem pointNew_ok {C : CurveData} (hC : GoodCurve C) {x y : List Nat}
    (hx : validNum C x) (hy : validNum C y)
    (heq : (toW C).Equation (toF C x) (toF C y)) :
    pointNew C.P C.A C.B x y = Except.ok (Coordinates.finite x y) := by
  obtain ⟨hv2, he2⟩ := mulF hC hy.1 hy.1
  obtain ⟨hvx2, hex2⟩ := mulF hC hx.1 hx.1
  obtain ⟨hvx3, hex3⟩ := mulF hC hvx2.1 hx.1
  have hgA : goodNum C.A := ⟨hC.gA, hC.lA⟩
  have hgB : goodNum C.B := ⟨hC.gB, hC.lB⟩
  obtain ⟨hvax, heax⟩ := mulF hC hgA hx.1
  obtain ⟨hvs1, hes1⟩ := addF hC hvx3.1 hvax.1
  obtain ⟨hvs2, hes2⟩ := addF hC hvs1.1 hgB
  have heq2 := ((toW C).equation_iff (toF C x) (toF C y)).mp heq
  rw [toW_a1, toW_a2, toW_a3, toW_a4, toW_a6] at heq2
  have hcond : Num.mul y y C.P
      = Num.add (Num.add (Num.mul (Num.mul x x C.P) x C.P) (Num.mul C.A x C.P) C.P)
          C.B C.P := by
    rw [← toF_eq_iff hv2 hvs2, he2, hes2, hes1, hex3, hex2, heax]
    linear_combination heq2
  rw [pointNew, if_pos hcond]

theorem negY_toW (C : CurveData) (x y : ZMod (Num.natOfWords C.P)) :
    (toW C).negY x y = -y := by
  rw [WeierstrassCurve.Affine.negY, toW_a1, toW_a3]
  ring

theorem toF_A_zero {C : CurveData} (hC : GoodCurve C) : toF C C.A = 0 := by
  rw [toF_def, hC.aZero]
  exact Nat.cast_zero

theorem slope_self_eq (C : CurveData) [Fact (Nat.Prime (Num.natOfWords C.P))]
    (hC : GoodCurve C) (x y : ZMod (Num.natOfWords C.P)) (hy : 2 * y ≠ 0) :
    (toW C).slope x x y y = 3 * x * x * (2 * y)⁻¹ := by
  have hyne : y ≠ (toW C).negY x y := by
    rw [negY_toW]
    intro hcon
    apply hy
    linear_combination hcon
  rw [WeierstrassCurve.Affine.slope_of_Y_ne rfl hyne, negY_toW, toW_a1, toW_a2, toW_a4,
    toF_A_zero hC]
  rw [show y - -y = 2 * y from by ring, div_eq_mul_inv]
  ring

/-- `Point::add` on two finite points, unfolded (ecc.rs lines 142-176). -/
theorem pointAdd_finite_eq (C : CurveData) (x1 y1 x2 y2 : List Nat) :
    pointAdd C (Coordinates.finite x1 y1) (Coordinates.finite x2 y2)
      = if x1 = x2 ∧ y1 = y2 then
          match Num.inv (Num.mul Num.two y1 C.P) C.P with
          | none => some Coordinates.infinity
          | some i =>
            let h := Num.mul (Num.mul (Num.mul Num.three x1 C.P) x1 C.P) i C.P
            (Num.sub (Num.mul h h C.P) (Num.mul Num.two x1 C.P) C.P).bind fun x =>
            (Num.sub x1 x C.P).bind fun s =>
            (Num.sub (Num.mul h s C.P) y1 C.P).bind fun y =>
            match pointNew C.P C.A C.B x y with
            | Except.ok pt => some pt
            | Except.error _ => none
        else
          (Num.sub x2 x1 C.P).bind fun d =>
          match Num.inv d C.P with
          | none => some Coordinates.infinity
          | some i =>
            (Num.sub y2 y1 C.P).bind fun dy =>
            let h := Num.mul dy i C.P
            (Num.sub (Num.mul h h C.P) x1 C.P).bind fun t =>
            (Num.sub t x2 C.P).bind fun x =>
            (Num.sub x1 x C.P).bind fun s =>
            (Num.sub (Num.mul h s C.P) y1 C.P).bind fun y =>
            match pointNew C.P C.A C.B x y with
            | Except.ok pt => some pt
            | Except.error _ => none := rfl

/-- `Point::add` computes the Mathlib group law on `toW C`: on represented
inputs it never panics and its result represents the sum. -/
theorem pointAdd_ok (C : CurveData) [Fact (Nat.Prime (Num.natOfWords C.P))]
    (hC : GoodCurve C) (a b : Coordinates) (Qa Qb : (toW C).Point)
    (ha : represents C a Qa) (hb : represents C b Qb) :
    ∃ c, pointAdd C a b = some c ∧ represents C c (Qa + Qb) := by
  cases a with
  | infinity =>
    have ha0 : Qa = 0 := ha
    subst ha0
    cases b with
    | infinity =>
      refine ⟨Coordinates.infinity, rfl, ?_⟩
      rw [zero_add]
      exact hb
    | finite x2 y2 =>
      refine ⟨Coordinates.finite x2 y2, rfl, ?_⟩
      rw [zero_add]
      exact hb
  | finite x1 y1 =>
    cases b with
    | infinity =>
      have hb0 : Qb = 0 := hb
      subst hb0
      refine ⟨Coordinates.finite x1 y1, rfl, ?_⟩
      rw [add_zero]
      exact ha
    | finite x2 y2 =>
      obtain ⟨hvx1, hvy1, h1, hQa⟩ := ha
      obtain ⟨hvx2, hvy2, h2, hQb⟩ := hb
      subst hQa
      subst hQb
      by_cases hguard : x1 = x2 ∧ y1 = y2
      · obtain ⟨hx12, hy12⟩ := hguard
        subst hx12
        subst hy12
        obtain ⟨hvt, het⟩ := mulF hC goodNum_two hvy1.1
        rw [toF_two] at het
        by_cases h20 : toF C (Num.mul Num.two y1 C.P) = 0
        · have h2y : 2 * toF C y1 = 0 := by rw [← het]; exact h20
          have heq : pointAdd C (Coordinates.finite x1 y1) (Coordinates.finite x1 y1)
              = some Coordinates.infinity := by
            rw [pointAdd_finite_eq, if_pos ⟨rfl, rfl⟩, invF_none hC hvt h20]
          refine ⟨Coordinates.infinity, heq, ?_⟩
          show WeierstrassCurve.Affine.Point.some h1
            + WeierstrassCurve.Affine.Point.some h2 = 0
          apply WeierstrassCurve.Affine.Point.add_of_Y_eq rfl
          rw [negY_toW]
          linear_combination h2y
        · have h2y : 2 * toF C y1 ≠ 0 := by rw [← het]; exact h20
          obtain ⟨iw, hinv, hvi, hei⟩ := invF hC hvt h20
          rw [het] at hei
          obtain ⟨hv3x, he3x⟩ := mulF hC goodNum_three hvx1.1
          obtain ⟨hv3xx, he3xx⟩ := mulF hC hv3x.1 hvx1.1
          obtain ⟨hvH, heH⟩ := mulF hC hv3xx.1 hvi.1
          have hL : toF C (Num.mul (Num.mul (Num.mul Num.three x1 C.P) x1 C.P) iw C.P)
              = (toW C).slope (toF C x1) (toF C x1) (toF C y1) (toF C y1) := by
            rw [heH, he3xx, he3x, toF_three, hei, slope_self_eq C hC _ _ h2y]
          obtain ⟨hvHH, heHH⟩ := mulF hC hvH.1 hvH.1
          obtain ⟨hv2x, he2x⟩ := mulF hC goodNum_two hvx1.1
          rw [toF_two] at he2x
          obtain ⟨xw, hsub1, hvxw, hexw⟩ := subF hC hvHH hv2x
          have hx3 : toF C xw = (toW C).addX (toF C x1) (toF C x1)
              ((toW C).slope (toF C x1) (toF C x1) (toF C y1) (toF C y1)) := by
            rw [hexw, heHH, hL, he2x]
            simp only [WeierstrassCurve.Affine.addX, toW_a1, toW_a2]
            ring
          obtain ⟨sw, hsub2, hvsw, hesw⟩ := subF hC hvx1 hvxw
          obtain ⟨hvHs, heHs⟩ := mulF hC hvH.1 hvsw.1
          obtain ⟨yw, hsub3, hvyw, heyw⟩ := subF hC hvHs hvy1
          have hy3 : toF C yw = (toW C).addY (toF C x1) (toF C x1) (toF C y1)
              ((toW C).slope (toF C x1) (toF C x1) (toF C y1) (toF C y1)) := by
            rw [heyw, heHs, hesw, hL]
            simp only [WeierstrassCurve.Affine.addY, WeierstrassCurve.Affine.negAddY,
              WeierstrassCurve.Affine.negY, toW_a1, toW_a3]
            rw [← hx3]
            ring
          have hyne : toF C y1 ≠ (toW C).negY (toF C x1) (toF C y1) := by
            rw [negY_toW]
            intro hcon
            apply h2y
            linear_combination hcon
          have hns := WeierstrassCurve.Affine.nonsingular_add h1 h2 fun _ => hyne
          have hns' : (toW C).Nonsingular (toF C xw) (toF C yw) := by
            rw [hx3, hy3]
            exact hns
          have hnew := pointNew_ok hC hvxw hvyw hns'.1
          have heq : pointAdd C (Coordinates.finite x1 y1) (Coordinates.finite x1 y1)
              = some (Coordinates.finite xw yw) := by
            rw [pointAdd_finite_eq, if_pos ⟨rfl, rfl⟩]
            simp only [hinv, Option.some_bind, hsub1, hsub2, hsub3, hnew]
          have hsum : WeierstrassCurve.Affine.Point.some h1
              + WeierstrassCurve.Affine.Point.some h2
              = WeierstrassCurve.Affine.Point.some hns' := by
            rw [WeierstrassCurve.Affine.Point.add_of_Y_ne hyne]
            exact point_some_congr hx3.symm hy3.symm _ hns'
          exact ⟨Coordinates.finite xw yw, heq, hvxw, hvyw, hns', hsum⟩
      · obtain ⟨dw, hsubd, hvdw, hedw⟩ := subF hC hvx2 hvx1
        by_cases hd0 : toF C dw = 0
        · have hxf : toF C x2 = toF C x1 := by
            have h := hedw
            rw [hd0] at h
            exact sub_eq_zero.mp h.symm
          have hx12 : x1 = x2 := ((toF_eq_iff hvx2 hvx1).mp hxf).symm
          subst hx12
          have hyne : y1 ≠ y2 := fun h => hguard ⟨rfl, h⟩
          have htyne : toF C y1 ≠ toF C y2 :=
            fun h => hyne ((toF_eq_iff hvy1 hvy2).mp h)
          have hy : toF C y1 = (toW C).negY (toF C x1) (toF C y2) :=
            (WeierstrassCurve.Affine.Y_eq_of_X_eq h1.1 h2.1 rfl).resolve_left htyne
          have heq : pointAdd C (Coordinates.finite x1 y1) (Coordinates.finite x1 y2)
              = some Coordinates.infinity := by
            rw [pointAdd_finite_eq, if_neg hguard]
            simp only [hsubd, Option.some_bind, invF_none hC hvdw hd0]
          refine ⟨Coordinates.infinity, heq, ?_⟩
          show WeierstrassCurve.Affine.Point.some h1
            + WeierstrassCurve.Affine.Point.some h2 = 0
          exact WeierstrassCurve.Affine.Point.add_of_Y_eq rfl hy
        · have hxne : toF C x1 ≠ toF C x2 := by
            intro h
            apply hd0
            rw [hedw]
            exact sub_eq_zero.mpr h.symm
          obtain ⟨iw, hinv, hvi, hei⟩ := invF hC hvdw hd0
          rw [hedw] at hei
          obtain ⟨dyw, hsuby, hvdy, hedy⟩ := subF hC hvy2 hvy1
          obtain ⟨hvH, heH⟩ := mulF hC hvdy.1 hvi.1
          have hL : toF C (Num.mul dyw iw C.P)
              = (toW C).slope (toF C x1) (toF C x2) (toF C y1) (toF C y2) := by
            rw [heH, hedy, hei, WeierstrassCurve.Affine.slope_of_X_ne hxne,
              div_eq_mul_inv]
            rw [show toF C y1 - toF C y2 = -(toF C y2 - toF C y1) from by ring,
              show toF C x1 - toF C x2 = -(toF C x2 - toF C x1) from by ring,
              inv_neg, neg_mul_neg]
          obtain ⟨hvHH, heHH⟩ := mulF hC hvH.1 hvH.1
          obtain ⟨tw, hsub1, hvtw, hetw⟩ := subF hC hvHH hvx1
          obtain ⟨xw, hsub2, hvxw, hexw⟩ := subF hC hvtw hvx2
          have hx3 : toF C xw = (toW C).addX (toF C x1) (toF C x2)
              ((toW C).slope (toF C x1) (toF C x2) (toF C y1) (toF C y2)) := by
            rw [hexw, hetw, heHH, hL]
            simp only [WeierstrassCurve.Affine.addX, toW_a1, toW_a2]
            ring
          obtain ⟨sw, hsub3, hvsw, hesw⟩ := subF hC hvx1 hvxw
          obtain ⟨hvHs, heHs⟩ := mulF hC hvH.1 hvsw.1
          obtain ⟨yw, hsub4, hvyw, heyw⟩ := subF hC hvHs hvy1
          have hy3 : toF C yw = (toW C).addY (toF C x1) (toF C x2) (toF C y1)
              ((toW C).slope (toF C x1) (toF C x2) (toF C y1) (toF C y2)) := by
            rw [heyw, heHs, hesw, hL]
            simp only [WeierstrassCurve.Affine.addY, WeierstrassCurve.Affine.negAddY,
              WeierstrassCurve.Affine.negY, toW_a1, toW_a3]
            rw [← hx3]
            ring
          have hxyimp : toF C x1 = toF C x2
              → toF C y1 ≠ (toW C).negY (toF C x2) (toF C y2) :=
            fun h => absurd h hxne
          have hns := WeierstrassCurve.Affine.nonsingular_add h1 h2 hxyimp
          have hns' : (toW C).Nonsingular (toF C xw) (toF C yw) := by
            rw [hx3, hy3]
            exact hns
          have hnew := pointNew_ok hC hvxw hvyw hns'.1
          have heq : pointAdd C (Coordinates.finite x1 y1) (Coordinates.finite x2 y2)
              = some (Coordinates.finite xw yw) := by
            rw [pointAdd_finite_eq, if_neg hguard]
            simp only [hsubd, Option.some_bind, hinv, hsuby, hsub1, hsub2, hsub3,
              hsub4, hnew]
          have hsum : WeierstrassCurve.Affine.Point.some h1
              + WeierstrassCurve.Affine.Point.some h2
              = WeierstrassCurve.Affine.Point.some hns' := by
            rw [WeierstrassCurve.Affine.Point.add_of_X_ne hxne]
            exact point_some_congr hx3.symm hy3.symm _ hns'
          exact ⟨Coordinates.finite xw yw, heq, hvxw, hvyw, hns', hsum⟩

theorem bval_le_one (b : Bool) : bval b ≤ 1 := by
  rcases b <;> simp [bval]

theorem nsmul_step {M : Type} [AddCommMonoid M] (Qr Qs : M) (b r : Nat) :
    Qr + (b + 2 * r) • Qs = (Qr + b • Qs) + r • (Qs + Qs) := by
  rw [add_nsmul, mul_nsmul, two_nsmul, add_assoc]

/-- The loop of `Point::scale` computes a scalar multiple: starting from a
represented accumulator and summand, it consumes bits `i, i+1, ...` of the
scalar and never panics. -/
theorem scaleGo_ok (C : CurveData) [Fact (Nat.Prime (Num.natOfWords C.P))]
    (hC : GoodCurve C) (n : List Nat) (hgn : good64 n) :
    ∀ (fuel i : Nat) (s result : Coordinates) (Qs Qr : (toW C).Point),
    represents C s Qs → represents C result Qr →
    ∃ c, scaleGo C n fuel i s result = some c
      ∧ represents C c
          (Qr + (Num.natOfWords n / 2 ^ i % 2 ^ fuel) • Qs) := by
  intro fuel
  induction fuel with
  | zero =>
    intro i s result Qs Qr hs hr
    refine ⟨result, rfl, ?_⟩
    rw [pow_zero, Nat.mod_one, zero_nsmul, add_zero]
    exact hr
  | succ fuel ih =>
    intro i s result Qs Qr hs hr
    have hbit : get_bit n i = Nat.testBit (Num.natOfWords n) i := get_bit_spec n i hgn
    obtain ⟨r1, hr1eq, hr1rep⟩ :
        ∃ r1, (if get_bit n i then pointAdd C result s else some result) = some r1
          ∧ represents C r1
              (Qr + bval (Nat.testBit (Num.natOfWords n) i) • Qs) := by
      rcases hb : get_bit n i
      · have htb : Nat.testBit (Num.natOfWords n) i = false := by
          rw [← hbit]
          exact hb
        refine ⟨result, by rw [if_neg Bool.false_ne_true], ?_⟩
        rw [htb, show bval false = 0 from rfl, zero_nsmul, add_zero]
        exact hr
      · have htb : Nat.testBit (Num.natOfWords n) i = true := by
          rw [← hbit]
          exact hb
        obtain ⟨c, hc, hcrep⟩ := pointAdd_ok C hC result s Qr Qs hr hs
        refine ⟨c, by rw [if_pos rfl]; exact hc, ?_⟩
        rw [htb, show bval true = 1 from rfl, one_nsmul]
        exact hcrep
    obtain ⟨s1, hs1eq, hs1rep⟩ := pointAdd_ok C hC s s Qs Qs hs hs
    obtain ⟨c, hceq, hcrep⟩ := ih (i + 1) s1 r1 (Qs + Qs)
      (Qr + bval (Nat.testBit (Num.natOfWords n) i) • Qs) hs1rep hr1rep
    refine ⟨c, ?_, ?_⟩
    · show ((if get_bit n i then pointAdd C result s else some result).bind fun r2 =>
        (pointAdd C s s).bind fun s2 => scaleGo C n fuel (i + 1) s2 r2) = some c
      rw [hr1eq, Option.some_bind, hs1eq, Option.some_bind]
      exact hceq
    · have harith : Num.natOfWords n / 2 ^ i % 2 ^ (fuel + 1)
          = bval (Nat.testBit (Num.natOfWords n) i)
            + 2 * (Num.natOfWords n / 2 ^ (i + 1) % 2 ^ fuel) := by
        rw [show (2 : Nat) ^ (fuel + 1) = 2 * 2 ^ fuel from by rw [pow_succ]; ring]
        rw [Nat.mod_mul, Nat.div_div_eq_div_mul, ← pow_succ]
        have hd := div_pow_succ_eq (Num.natOfWords n) i
        have hble := bval_le_one (Nat.testBit (Num.natOfWords n) i)
        have hx2 : Num.natOfWords n / 2 ^ i % 2
            = bval (Nat.testBit (Num.natOfWords n) i) := by omega
        rw [hx2]
      rw [harith, nsmul_step]
      exact hcrep

/-- `Point::scale` on a represented point computes the `n`-fold sum and
never panics. -/
theorem scale_ok (C : CurveData) [Fact (Nat.Prime (Num.natOfWords C.P))]
    (hC : GoodCurve C) (p : Coordinates) (n : List Nat) (Q : (toW C).Point)
    (hgn : good64 n) (hln : n.length = 4) (hp : represents C p Q) :
    ∃ c, scale C p n = some c ∧ represents C c (Num.natOfWords n • Q) := by
  obtain ⟨c, hc, hrep⟩ := scaleGo_ok C hC n hgn 256 0 p Coordinates.infinity Q 0 hp rfl
  refine ⟨c, hc, ?_⟩
  rw [pow_zero, Nat.div_one] at hrep
  have hlt : Num.natOfWords n < 2 ^ 256 := by
    have h1 := natOfWords_lt hgn
    rw [hln] at h1
    have h2 : (2 : Nat) ^ (64 * 4) = 2 ^ 256 := by norm_num
    rw [h2] at h1
    exact h1
  rw [Nat.mod_eq_of_lt hlt, zero_add] at hrep
  exact hrep

theorem foldr_bytes_lt : ∀ c : List Nat, (∀ x ∈ c, x < 256) →
    c.foldr (fun x acc => acc * 256 + x) 0 < 256 ^ c.length := by
  intro c
  induction c with
  | nil =>
    intro _
    simp
  | cons a l ih =>
    intro hb
    rw [List.foldr_cons, List.length_cons, pow_succ]
    have h1 := ih fun x hx => hb x (List.mem_cons_of_mem _ hx)
    have ha := hb a (List.mem_cons_self _ _)
    omega

theorem chunkList_count (B : Nat) (hB : 0 < B) (l : List Nat) (hdvd : B ∣ l.length) :
    (chunkList B l).length * B = l.length := by
  have hfl : (chunkList B l).flatten = l := chunkList_flatten B hB l
  have hfull := chunkList_full B hB l hdvd
  have hlen : ((chunkList B l).flatten).length = l.length := by rw [hfl]
  rw [List.length_flatten] at hlen
  have hmap : (chunkList B l).map List.length
      = List.replicate (chunkList B l).length B := by
    rw [List.eq_replicate_iff]
    refine ⟨by rw [List.length_map], ?_⟩
    intro b hb
    rcases List.mem_map.mp hb with ⟨c, hc, rfl⟩
    exact hfull c hc
  rw [hmap, List.sum_const_nat] at hlen
  omega

/-- The number read back from 32 bytes (each `< 256`) is a well-formed
four-word `Num`. -/
theorem from_le_bytes_goodNum (l : List Nat) (hlen : l.length = 32)
    (hb : ∀ x ∈ l, x < 256) : goodNum (Num.from_le_bytes l) := by
  have hdvd : (8 : Nat) ∣ l.length := by
    rw [hlen]
    decide
  constructor
  · intro w hw
    rw [Num.from_le_bytes] at hw
    rcases List.mem_map.mp hw with ⟨c, hc, rfl⟩
    have hcb : ∀ x ∈ c, x < 256 :=
      fun x hx => hb x (chunkList_subset 8 (by omega) l c hc x hx)
    have hclen : c.length = 8 := chunkList_full 8 (by omega) l hdvd c hc
    have hv := foldr_bytes_lt c hcb
    rw [hclen] at hv
    have h8 : (256 : Nat) ^ 8 = 2 ^ 64 := by norm_num
    omega
  · rw [Num.from_le_bytes, List.length_map]
    have := chunkList_count 8 (by omega) l hdvd
    omega

/-- The number read from any resized hash output is a well-formed `Num`. -/
theorem hashNum_goodNum (l : List Nat) (hb : ∀ x ∈ l, x < 256) :
    goodNum (Num.from_le_bytes (resizeTo 32 l)) := by
  apply from_le_bytes_goodNum
  · exact resizeTo_length 32 l
  · intro x hx
    rw [resizeTo] at hx
    rcases List.mem_append.mp hx with h | h
    · exact hb x (List.mem_of_mem_take h)
    · have := List.eq_of_mem_replicate h
      omega

/-- What a successful run of the `'retry` loop of `Ecdsa::sign` guarantees:
the returned signature was produced from some nonce `kw` (itself read back
from a hash output) whose scalar multiple of the generator is a finite
point with x-coordinate `sig.r`, and `sig.s = kw⁻¹ · (e + r·key) mod N` is
non-zero. -/
theorem signGo_some (hash : List Nat → List Nat) (C : CurveData) (e key : List Nat)
    (gp : Coordinates) (hg : C.g = some gp) :
    ∀ (fuel : Nat) (k : List Nat) (sig : Signature),
    Ecdsa.signGo hash C e key fuel k = some sig →
    ∃ kw yc ki,
      (∃ kp, kw = Num.from_le_bytes (resizeTo 32 (hash (Num.to_le_bytes kp))))
      ∧ scale C gp kw = some (Coordinates.finite sig.r yc)
      ∧ Num.inv kw C.N = some ki
      ∧ sig.s = Num.mul ki (Num.add e (Num.mul sig.r key C.N) C.N) C.N
      ∧ sig.s ≠ Num.zero := by
  intro fuel
  induction fuel with
  | zero =>
    intro k sig h
    simp [Ecdsa.signGo] at h
  | succ fuel ih =>
    intro k sig h
    simp only [Ecdsa.signGo, hg] at h
    rcases hsc : scale C gp (Num.from_le_bytes (resizeTo 32 (hash (Num.to_le_bytes k))))
      with _ | pt
    · rw [hsc] at h
      simp at h
    · rw [hsc] at h
      cases pt with
      | infinity =>
        simp only [] at h
        exact ih _ sig h
      | finite x yc =>
        simp only [] at h
        rcases hiv : Num.inv (Num.from_le_bytes (resizeTo 32 (hash (Num.to_le_bytes k))))
            C.N with _ | ki
        · rw [hiv] at h
          simp at h
        · rw [hiv] at h
          simp only [] at h
          by_cases hs0 : Num.mul ki (Num.add e (Num.mul x key C.N) C.N) C.N = Num.zero
          · rw [if_pos hs0] at h
            exact ih _ sig h
          · rw [if_neg hs0] at h
            have hs := Option.some.inj h
            subst hs
            exact ⟨Num.from_le_bytes (resizeTo 32 (hash (Num.to_le_bytes k))), yc, ki,
              ⟨k, rfl⟩, hsc, hiv, rfl, hs0⟩

theorem nsmul_mod_order {M : Type} [AddCommMonoid M] (G : M) (N : Nat)
    (hord : N • G = 0) (a : Nat) : a • G = (a % N) • G := by
  conv_lhs => rw [← Nat.div_add_mod a N]
  rw [add_nsmul, mul_nsmul, hord, nsmul_zero, zero_add]

/-- The modular identity at the heart of ECDSA: if `s = k⁻¹(e + r·key)`,
`u = e·s⁻¹` and `v = r·s⁻¹` modulo `Nv`, then `u + key·v ≡ k (mod Nv)`. -/
theorem ecdsa_congruence (Nv E R KEY KI K1 I S U V A : Nat)
    (hA : A = (E + R * KEY % Nv) % Nv)
    (hS : S = KI * A % Nv)
    (hKI : KI * K1 % Nv = 1)
    (hI : I * S % Nv = 1)
    (hU : U = E * I % Nv)
    (hV : V = R * I % Nv) :
    (U + KEY * V) % Nv = K1 % Nv := by
  have zS : (S : ZMod Nv)
      = (KI : ZMod Nv) * ((E : ZMod Nv) + (R : ZMod Nv) * (KEY : ZMod Nv)) := by
    rw [hS, natCast_mod_self, Nat.cast_mul, hA, natCast_mod_self, Nat.cast_add,
      natCast_mod_self, Nat.cast_mul]
  have zKI : (KI : ZMod Nv) * (K1 : ZMod Nv) = 1 := by
    rw [← Nat.cast_mul, ← natCast_mod_self (KI * K1) Nv, hKI, Nat.cast_one]
  have zI : (I : ZMod Nv) * (S : ZMod Nv) = 1 := by
    rw [← Nat.cast_mul, ← natCast_mod_self (I * S) Nv, hI, Nat.cast_one]
  have h1 : ((U + KEY * V : Nat) : ZMod Nv) = (K1 : ZMod Nv) := by
    rw [hU, hV]
    push_cast [natCast_mod_self]
    linear_combination (K1 : ZMod Nv) * zI - ((K1 : ZMod Nv) * (I : ZMod Nv)) * zS
      - ((I : ZMod Nv) * ((E : ZMod Nv) + (R : ZMod Nv) * (KEY : ZMod Nv))) * zKI
  exact (ZMod.natCast_eq_natCast_iff _ _ _).mp h1

/-- Claim C1: for every curve with the well-formedness facts of `GoodCurve`
(prime field modulus, `A = 0`, non-zero discriminant), prime group order,
an on-curve generator annihilated by the group order, and every valid
private key (`0 < key < N`), whenever `Ecdsa::sign` terminates it produces
a signature that `Ecdsa::verify` accepts for the derived public key: key
derivation does not panic and `verify` returns `Ok(())`. -/
theorem claim_C1_sign_then_verify (C : CurveData)
    [Fact (Nat.Prime (Num.natOfWords C.P))] (hC : GoodCurve C)
    (hNp : Nat.Prime (Num.natOfWords C.N)) (gx gy : List Nat)
    (hgc : C.g = some (Coordinates.finite gx gy))
    (hvgx : validNum C gx) (hvgy : validNum C gy)
    (hgeq : (toW C).Equation (toF C gx) (toF C gy))
    (horder : scale C (Coordinates.finite gx gy) C.N = some Coordinates.infinity)
    (digestSize : Nat) (hash : List Nat → List Nat)
    (hhash : ∀ m, ∀ x ∈ hash m, x < 256)
    (key : List Nat) (hgkey : good64 key) (hlkey : key.length = 4)
    (hkey0 : Num.natOfWords key ≠ 0)
    (fuel : Nat) (msg : List Nat) (sig : Signature)
    (hsig : Ecdsa.sign digestSize hash C fuel key msg = some sig) :
    ∃ pk, PublicKey.derive C key = some pk
      ∧ Ecdsa.verify digestSize hash C pk msg sig = some (Except.ok ()) := by
  have hNpos : 0 < Num.natOfWords C.N := hNp.pos
  by_cases hsize : C.SIZE ≤ digestSize
  case neg =>
    rw [Ecdsa.sign, if_neg hsize] at hsig
    simp at hsig
  case pos =>
  have hsig2 : Ecdsa.signGo hash C (Num.from_le_bytes (resizeTo 32 (hash msg))) key fuel
      (Num.from_le_bytes (resizeTo 32 (hash (msg ++ Num.to_le_bytes key))))
      = some sig := by
    rw [Ecdsa.sign, if_pos hsize] at hsig
    exact hsig
  obtain ⟨kw, yc, ki, ⟨kp, hkp⟩, hscale_sign, hinv_kw, hs_eq, hs_ne⟩ :=
    signGo_some hash C (Num.from_le_bytes (resizeTo 32 (hash msg))) key
      (Coordinates.finite gx gy) hgc fuel
      (Num.from_le_bytes (resizeTo 32 (hash (msg ++ Num.to_le_bytes key)))) sig hsig2
  have hge : goodNum (Num.from_le_bytes (resizeTo 32 (hash msg))) :=
    hashNum_goodNum (hash msg) (hhash msg)
  have hgkw : goodNum kw := by
    rw [hkp]
    exact hashNum_goodNum _ (hhash _)
  -- the generator as a Mathlib point
  have hg_ns : (toW C).Nonsingular (toF C gx) (toF C gy) :=
    (toW C).nonsingular_of_Δ_ne_zero hgeq hC.deltaNe
  have hrep_g : represents C (Coordinates.finite gx gy)
      (WeierstrassCurve.Affine.Point.some hg_ns) := ⟨hvgx, hvgy, hg_ns, rfl⟩
  -- the group order annihilates the generator
  obtain ⟨c0, hc0, hrep0⟩ := scale_ok C hC (Coordinates.finite gx gy) C.N
    (WeierstrassCurve.Affine.Point.some hg_ns) hC.gN hC.lN hrep_g
  have hc0inf : c0 = Coordinates.infinity := Option.some.inj (hc0.symm.trans horder)
  subst hc0inf
  have hNG : Num.natOfWords C.N • WeierstrassCurve.Affine.Point.some hg_ns = 0 := hrep0
  -- the nonce scalar multiple from the sign loop
  obtain ⟨c1, hc1, hrep1⟩ := scale_ok C hC (Coordinates.finite gx gy) kw
    (WeierstrassCurve.Affine.Point.some hg_ns) hgkw.1 hgkw.2 hrep_g
  have hc1fin : c1 = Coordinates.finite sig.r yc :=
    Option.some.inj (hc1.symm.trans hscale_sign)
  subst hc1fin
  obtain ⟨hvr, hvyc, hr_ns, hKG⟩ := hrep1
  -- N does not divide the nonce value
  have hK1nd : ¬ Num.natOfWords C.N ∣ Num.natOfWords kw := by
    intro hdvd
    obtain ⟨t, ht⟩ := hdvd
    have h0 : Num.natOfWords kw • WeierstrassCurve.Affine.Point.some hg_ns = 0 := by
      rw [ht, mul_nsmul, hNG, nsmul_zero]
    rw [hKG] at h0
    exact WeierstrassCurve.Affine.Point.some_ne_zero hr_ns h0
  have hgcd_kw : Nat.gcd (Num.natOfWords kw % Num.natOfWords C.N)
      (Num.natOfWords C.N) = 1 := by
    rw [Nat.gcd_comm]
    refine (Nat.Prime.coprime_iff_not_dvd hNp).mpr ?_
    intro hdvd
    exact hK1nd ((Nat.dvd_mod_iff dvd_rfl).mp hdvd)
  have hkw_mod_ne : Num.natOfWords kw % Num.natOfWords C.N ≠ 0 := fun h =>
    hK1nd (Nat.dvd_of_mod_eq_zero h)
  obtain ⟨w, hw, hwg, hwl, hwlt, hwmul⟩ := num_inv_spec kw C.N hgkw.1 hgkw.2 hC.gN
    hC.lN hNp.one_lt hgcd_kw hkw_mod_ne
  rw [hw] at hinv_kw
  have hkiw : w = ki := Option.some.inj hinv_kw
  subst hkiw
  -- value facts for s = w · (e + r·key) mod N
  obtain ⟨hmulrk_v, hmulrk_g, hmulrk_l⟩ := num_mul_spec sig.r key C.N hvr.1.1 hgkey
    hC.gN hvr.1.2 hlkey hC.lN hNpos
  obtain ⟨hadd_v, hadd_g, hadd_l⟩ := num_add_spec
    (Num.from_le_bytes (resizeTo 32 (hash msg))) (Num.mul sig.r key C.N) C.N
    hge.1 hmulrk_g hC.gN hge.2 hmulrk_l hC.lN hNpos
  obtain ⟨hS_v0, hS_g0, hS_l0⟩ := num_mul_spec w
    (Num.add (Num.from_le_bytes (resizeTo 32 (hash msg))) (Num.mul sig.r key C.N) C.N)
    C.N hwg hadd_g hC.gN hwl hadd_l hC.lN hNpos
  have hSg : good64 sig.s := by rw [hs_eq]; exact hS_g0
  have hSl : sig.s.length = 4 := by rw [hs_eq]; exact hS_l0
  have hSv : Num.natOfWords sig.s = Num.natOfWords w
      * Num.natOfWords (Num.add (Num.from_le_bytes (resizeTo 32 (hash msg)))
          (Num.mul sig.r key C.N) C.N) % Num.natOfWords C.N := by
    rw [hs_eq]
    exact hS_v0
  have hSlt : Num.natOfWords sig.s < Num.natOfWords C.N := by
    rw [hSv]
    exact Nat.mod_lt _ hNpos
  have hS0 : Num.natOfWords sig.s ≠ 0 := fun h => hs_ne ((num_zero_iff hSg hSl).mpr h)
  have hgcd_s : Nat.gcd (Num.natOfWords sig.s % Num.natOfWords C.N)
      (Num.natOfWords C.N) = 1 := by
    rw [Nat.mod_eq_of_lt hSlt, Nat.gcd_comm]
    refine (Nat.Prime.coprime_iff_not_dvd hNp).mpr ?_
    intro hdvd
    have := Nat.le_of_dvd (by omega) hdvd
    omega
  obtain ⟨i2, hi2, hi2g, hi2l, hi2lt, hi2mul⟩ := num_inv_spec sig.s C.N hSg hSl hC.gN
    hC.lN hNp.one_lt hgcd_s (by rw [Nat.mod_eq_of_lt hSlt]; exact hS0)
  -- u = e·s⁻¹ and v = r·s⁻¹ mod N
  obtain ⟨hU_v, hU_g, hU_l⟩ := num_mul_spec
    (Num.from_le_bytes (resizeTo 32 (hash msg))) i2 C.N hge.1 hi2g hC.gN hge.2 hi2l
    hC.lN hNpos
  obtain ⟨hV_v, hV_g, hV_l⟩ := num_mul_spec sig.r i2 C.N hvr.1.1 hi2g hC.gN hvr.1.2
    hi2l hC.lN hNpos
  -- derive the public key
  obtain ⟨pkc, hpk, hrep_pk⟩ := scale_ok C hC (Coordinates.finite gx gy) key
    (WeierstrassCurve.Affine.Point.some hg_ns) hgkey hlkey hrep_g
  have hderive : PublicKey.derive C key = some pkc := by
    rw [PublicKey.derive]
    simp only [hgc]
    exact hpk
  -- the two scalar multiples computed by verify
  obtain ⟨ca, hca, hrep_a⟩ := scale_ok C hC (Coordinates.finite gx gy)
    (Num.mul (Num.from_le_bytes (resizeTo 32 (hash msg))) i2 C.N)
    (WeierstrassCurve.Affine.Point.some hg_ns) hU_g hU_l hrep_g
  obtain ⟨cb, hcb, hrep_b⟩ := scale_ok C hC pkc (Num.mul sig.r i2 C.N)
    (Num.natOfWords key • WeierstrassCurve.Affine.Point.some hg_ns) hV_g hV_l hrep_pk
  obtain ⟨cw, hcw, hrep_w⟩ := pointAdd_ok C hC ca cb _ _ hrep_a hrep_b
  -- u·G + v·(key·G) = k·G
  have hcong := ecdsa_congruence (Num.natOfWords C.N)
    (Num.natOfWords (Num.from_le_bytes (resizeTo 32 (hash msg))))
    (Num.natOfWords sig.r) (Num.natOfWords key) (Num.natOfWords w)
    (Num.natOfWords kw) (Num.natOfWords i2) (Num.natOfWords sig.s)
    (Num.natOfWords (Num.mul (Num.from_le_bytes (resizeTo 32 (hash msg))) i2 C.N))
    (Num.natOfWords (Num.mul sig.r i2 C.N))
    (Num.natOfWords (Num.add (Num.from_le_bytes (resizeTo 32 (hash msg)))
      (Num.mul sig.r key C.N) C.N))
    (by rw [hadd_v, hmulrk_v]) hSv hwmul hi2mul hU_v hV_v
  have hscalar : Num.natOfWords (Num.mul (Num.from_le_bytes (resizeTo 32 (hash msg)))
        i2 C.N) • WeierstrassCurve.Affine.Point.some hg_ns
      + Num.natOfWords (Num.mul sig.r i2 C.N)
        • (Num.natOfWords key • WeierstrassCurve.Affine.Point.some hg_ns)
      = Num.natOfWords kw • WeierstrassCurve.Affine.Point.some hg_ns := by
    rw [← mul_nsmul, ← add_nsmul,
      nsmul_mod_order (WeierstrassCurve.Affine.Point.some hg_ns)
        (Num.natOfWords C.N) hNG, hcong,
      ← nsmul_mod_order (WeierstrassCurve.Affine.Point.some hg_ns)
        (Num.natOfWords C.N) hNG]
  rw [hscalar, hKG] at hrep_w
  cases cw with
  | infinity =>
    exact absurd hrep_w (WeierstrassCurve.Affine.Point.some_ne_zero hr_ns)
  | finite wx wy =>
    obtain ⟨hvwx, hvwy, hw_ns, hw_eq⟩ := hrep_w
    have hx_eq := (point_some_inj hr_ns hw_ns hw_eq).1
    have hwxr : wx = sig.r := ((toF_eq_iff hvr hvwx).mp hx_eq).symm
    refine ⟨pkc, hderive, ?_⟩
    rw [Ecdsa.verify, if_pos hsize]
    simp only [hi2, hgc, hca, Option.some_bind, hcb, hcw]
    rw [hwxr]
    simp [Num.eqb]

/-- A tiny test curve `y² = x³ + 2` over `GF(5)` with generator `(2, 0)` of
order `2`, used to exercise the sign/verify roundtrip on concrete data. -/
def smallCurve : CurveData :=
  ⟨32, [5, 0, 0, 0], [2, 0, 0, 0], [0, 0, 0, 0], [2, 0, 0, 0],
    some (Coordinates.finite [2, 0, 0, 0] [0, 0, 0, 0])⟩

/-- A fixed 32-byte digest used with the tiny test curve. -/
def smallHash (m : List Nat) : List Nat := 1 :: List.replicate 31 0

instance : Fact (Nat.Prime (Num.natOfWords smallCurve.P)) := by
  rw [show Num.natOfWords smallCurve.P = 5 from rfl]
  exact ⟨by norm_num⟩

theorem smallCurve_goodCurve : GoodCurve smallCurve :=
  ⟨by decide, rfl, by rw [show Num.natOfWords smallCurve.P = 5 from rfl]; norm_num,
    by decide, rfl, by decide, rfl, by decide, rfl, rfl, by decide⟩

theorem smallG_ns : (toW smallCurve).Nonsingular
    (toF smallCurve [2, 0, 0, 0]) (toF smallCurve [0, 0, 0, 0]) :=
  (toW smallCurve).nonsingular_of_Δ_ne_zero
    (((toW smallCurve).equation_iff _ _).mpr (by decide)) (by decide)

theorem smallG_rep : represents smallCurve (Coordinates.finite [2, 0, 0, 0] [0, 0, 0, 0])
    (WeierstrassCurve.Affine.Point.some smallG_ns) :=
  ⟨by decide, by decide, smallG_ns, rfl⟩

theorem smallG_two : WeierstrassCurve.Affine.Point.some smallG_ns
    + WeierstrassCurve.Affine.Point.some smallG_ns = 0 :=
  WeierstrassCurve.Affine.Point.add_of_Y_eq rfl (by rw [negY_toW]; decide)

/-- The generator of the tiny curve has order two: `scale` by `N = 2` hits
the point at infinity. -/
theorem smallCurve_order : scale smallCurve (Coordinates.finite [2, 0, 0, 0] [0, 0, 0, 0])
    smallCurve.N = some Coordinates.infinity := by
  obtain ⟨c, hc, hrep⟩ := scale_ok smallCurve smallCurve_goodCurve
    (Coordinates.finite [2, 0, 0, 0] [0, 0, 0, 0]) smallCurve.N
    (WeierstrassCurve.Affine.Point.some smallG_ns) (by decide) rfl smallG_rep
  have h2G : Num.natOfWords smallCurve.N
      • WeierstrassCurve.Affine.Point.some smallG_ns = 0 := by
    rw [show Num.natOfWords smallCurve.N = 2 from rfl, two_nsmul]
    exact smallG_two
  rw [h2G] at hrep
  cases c with
  | infinity => exact hc
  | finite wx wy =>
    obtain ⟨_, _, hns, heq⟩ := hrep
    exact absurd heq.symm (WeierstrassCurve.Affine.Point.some_ne_zero hns)

/-- `scale` by one fixes the generator of the tiny curve. -/
theorem smallCurve_scale_one :
    scale smallCurve (Coordinates.finite [2, 0, 0, 0] [0, 0, 0, 0]) Num.one
      = some (Coordinates.finite [2, 0, 0, 0] [0, 0, 0, 0]) := by
  obtain ⟨c, hc, hrep⟩ := scale_ok smallCurve smallCurve_goodCurve
    (Coordinates.finite [2, 0, 0, 0] [0, 0, 0, 0]) Num.one
    (WeierstrassCurve.Affine.Point.some smallG_ns) (by decide) rfl smallG_rep
  rw [show Num.natOfWords Num.one = 1 from rfl, one_nsmul] at hrep
  cases c with
  | infinity =>
    exact absurd hrep (WeierstrassCurve.Affine.Point.some_ne_zero smallG_ns)
  | finite wx wy =>
    obtain ⟨hvwx, hvwy, hns, heq⟩ := hrep
    obtain ⟨hx, hy⟩ := point_some_inj smallG_ns hns heq
    have hwx : wx = [2, 0, 0, 0] := (toF_eq_iff hvwx (by decide)).mp hx.symm
    have hwy : wy = [0, 0, 0, 0] := (toF_eq_iff hvwy (by decide)).mp hy.symm
    rw [hwx, hwy] at hc
    exact hc

theorem smallCurve_inv_one : Num.inv Num.one smallCurve.N = some Num.one := by
  obtain ⟨w, hw, hwg, hwl, hwlt, hwmul⟩ := num_inv_spec Num.one smallCurve.N
    (by decide) rfl (by decide) rfl (by decide) (by decide) (by decide)
  have h1 : Num.natOfWords Num.one = 1 := rfl
  have h2 : Num.natOfWords smallCurve.N = 2 := rfl
  rw [h1, Nat.mul_one, h2] at hwmul
  rw [h2] at hwlt
  have hv : Num.natOfWords w = 1 := by omega
  have hw1 : w = Num.one :=
    natOfWords_inj hwg (by decide) (by rw [hwl]; rfl) (by rw [hv]; rfl)
  rw [hw1] at hw
  exact hw

theorem small_mul_r_key : Num.mul [2, 0, 0, 0] Num.one smallCurve.N = Num.zero := by
  obtain ⟨hv, hg, hl⟩ := num_mul_spec [2, 0, 0, 0] Num.one smallCurve.N
    (by decide) (by decide) (by decide) rfl rfl rfl (by decide)
  apply natOfWords_inj hg (by decide) (by rw [hl]; rfl)
  rw [hv]
  decide

theorem small_add_one_zero : Num.add Num.one Num.zero smallCurve.N = Num.one := by
  obtain ⟨hv, hg, hl⟩ := num_add_spec Num.one Num.zero smallCurve.N
    (by decide) (by decide) (by decide) rfl rfl rfl (by decide)
  apply natOfWords_inj hg (by decide) (by rw [hl]; rfl)
  rw [hv]
  decide

theorem small_mul_one_one : Num.mul Num.one Num.one smallCurve.N = Num.one := by
  obtain ⟨hv, hg, hl⟩ := num_mul_spec Num.one Num.one smallCurve.N
    (by decide) (by decide) (by decide) rfl rfl rfl (by decide)
  apply natOfWords_inj hg (by decide) (by rw [hl]; rfl)
  rw [hv]
  decide

/-- One unfolding of the `'retry` loop of `Ecdsa::sign`. -/
theorem signGo_step (hash : List Nat → List Nat) (C : CurveData) (e key : List Nat)
    (fuel : Nat) (k : List Nat) :
    Ecdsa.signGo hash C e key (fuel + 1) k
      = match C.g with
        | none => none
        | some gp =>
          match scale C gp (Num.from_le_bytes (resizeTo 32 (hash (Num.to_le_bytes k)))) with
          | none => none
          | some Coordinates.infinity =>
            Ecdsa.signGo hash C e key fuel
              (Num.from_le_bytes (resizeTo 32 (hash (Num.to_le_bytes k))))
          | some (Coordinates.finite x _) =>
            match Num.inv (Num.from_le_bytes (resizeTo 32 (hash (Num.to_le_bytes k))))
                C.N with
            | none => none
            | some ki =>
              if Num.mul ki (Num.add e (Num.mul x key C.N) C.N) C.N = Num.zero
              then Ecdsa.signGo hash C e key fuel
                (Num.from_le_bytes (resizeTo 32 (hash (Num.to_le_bytes k))))
              else some ⟨x, Num.mul ki (Num.add e (Num.mul x key C.N) C.N) C.N⟩ := rfl

/-- Any digest of the fixed small hash reads back as the number one. -/
theorem smallHash_num (m : List Nat) :
    Num.from_le_bytes (resizeTo 32 (smallHash m)) = Num.one := by
  rw [smallHash]
  decide

/-- Signing `[5, 6, 7]` with private key one on the tiny curve yields the
signature `(r, s) = (2, 1)`. -/
theorem smallCurve_sign : Ecdsa.sign 32 smallHash smallCurve 3 Num.one [5, 6, 7]
    = some ⟨[2, 0, 0, 0], Num.one⟩ := by
  rw [Ecdsa.sign, if_pos (by decide : smallCurve.SIZE ≤ 32)]
  simp only [smallHash_num]
  show Ecdsa.signGo smallHash smallCurve Num.one Num.one (2 + 1) Num.one
    = some ⟨[2, 0, 0, 0], Num.one⟩
  rw [signGo_step]
  simp only [smallHash_num,
    show smallCurve.g = some (Coordinates.finite [2, 0, 0, 0] [0, 0, 0, 0]) from rfl,
    smallCurve_scale_one, smallCurve_inv_one, small_mul_r_key, small_add_one_zero,
    small_mul_one_one]
  rw [if_neg (show ¬ (Num.one = Num.zero) by decide)]

theorem claim_C1_sign_then_verify_witness :
    ∃ pk, PublicKey.derive smallCurve Num.one = some pk
      ∧ Ecdsa.verify 32 smallHash smallCurve pk [5, 6, 7]
          ⟨[2, 0, 0, 0], Num.one⟩ = some (Except.ok ()) :=
  claim_C1_sign_then_verify smallCurve smallCurve_goodCurve
    (by rw [show Num.natOfWords smallCurve.N = 2 from rfl]; norm_num)
    [2, 0, 0, 0] [0, 0, 0, 0] rfl (by decide) (by decide)
    (((toW smallCurve).equation_iff _ _).mpr (by decide))
    smallCurve_order 32 smallHash
    (fun m => by
      show ∀ x ∈ (1 :: List.replicate 31 0 : List Nat), x < 256
      decide)
    Num.one (by decide) rfl
    (by decide) 3 [5, 6, 7] ⟨[2, 0, 0, 0], Num.one⟩ smallCurve_sign

end Ecc

end LiterateCrypto
